import Mathlib

set_option linter.unusedVariables false

namespace VB

/-! Shallow embedding of the viz-buddy stepwise visualization engine.

Sorting side (src/src/pages/SortingVisualizer.tsx): arrays of elements
carrying a numeric value and three boolean display flags; five sorting
procedures mutate the array in place, publish an immutable snapshot after
every mutation step (updateArray) and read a shared run flag
(isRunningRef.current) at their cancellation check points.

Mutation is modelled by explicit state passing: each procedure maps the
current array and an engine state (number of run-flag reads so far, list
of published snapshots) to the new array and state.  The run flag is a
monotone schedule: `none` means the flag stays true for the whole run,
`some T` means the first T reads return true and all later ones false
(stop() flips the flag exactly once). -/

/-- An array element of the sorting visualizer: `value`, plus the
`isCompared` / `isSwapped` / `isSorted` display flags. -/
structure Elem where
  value : Int
  isCompared : Bool
  isSwapped : Bool
  isSorted : Bool
deriving Repr, DecidableEq

def dElem : Elem := ⟨0, false, false, false⟩

/-- Engine bookkeeping: count of run-flag reads performed so far and the
published snapshots (one per updateArray call), in publish order. -/
structure SortSt where
  reads : Nat
  trace : List (List Elem)
deriving Repr, DecidableEq

def st0 : SortSt := ⟨0, []⟩

/-- The cancellation schedule: `none` = flag stays true; `some T` = the
flag reads true for the first T reads and false afterwards. -/
def flagAt : Option Nat → Nat → Bool
  | none, _ => true
  | some T, t => decide (t < T)

/-- One read of isRunningRef.current: returns the flag value under the
schedule and bumps the read counter. -/
def readFlag (T : Option Nat) (st : SortSt) : Bool × SortSt :=
  (flagAt T st.reads, ⟨st.reads + 1, st.trace⟩)

/-- updateArray: publish a snapshot of the current array. -/
def publish (arr : List Elem) (st : SortSt) : SortSt :=
  ⟨st.reads, st.trace ++ [arr]⟩

def getE (arr : List Elem) (i : Nat) : Elem := arr.getD i dElem

/-- arr[i].isCompared = b -/
def setCmp (arr : List Elem) (i : Nat) (b : Bool) : List Elem :=
  arr.set i { getE arr i with isCompared := b }

/-- arr[i].isSwapped = b -/
def setSwp (arr : List Elem) (i : Nat) (b : Bool) : List Elem :=
  arr.set i { getE arr i with isSwapped := b }

/-- arr[i].isSorted = true -/
def setSrt (arr : List Elem) (i : Nat) : List Elem :=
  arr.set i { getE arr i with isSorted := true }

/-- [arr[a], arr[b]] = [arr[b], arr[a]] -/
def swapE (arr : List Elem) (a b : Nat) : List Elem :=
  (arr.set a (getE arr b)).set b (getE arr a)

/-- Clear the two transient flags of one element (end of a step). -/
def clearTrans (e : Elem) : Elem :=
  { e with isCompared := false, isSwapped := false }

def vals (arr : List Elem) : List Int := arr.map (fun e => e.value)

/-! ### Bubble sort (bubbleSort, SortingVisualizer.tsx lines 82-111)

The inner `j` loop walks adjacent pairs left to right; it is embedded as
a zipper (`pre` holds the already passed elements in reverse) so that
every published snapshot is the full array.  `m` is the number of inner
iterations that remain (the source runs the body for j = 0 .. n-i-2).
The Boolean result is true when the procedure hit `return` because the
run flag read false. -/

def bubbleInner (T : Option Nat) :
    Nat → List Elem → List Elem → SortSt → List Elem × SortSt × Bool
  | 0, pre, cur, st => (pre.reverse ++ cur, st, false)
  | m + 1, pre, a :: b :: t, st =>
      let r := readFlag T st
      if !r.1 then (pre.reverse ++ a :: b :: t, r.2, true)
      else
        let a1 : Elem := { a with isCompared := true }
        let b1 : Elem := { b with isCompared := true }
        let st1 := publish (pre.reverse ++ a1 :: b1 :: t) r.2
        if a1.value > b1.value then
          let a2 : Elem := { a1 with isSwapped := true }
          let b2 : Elem := { b1 with isSwapped := true }
          let st2 := publish (pre.reverse ++ b2 :: a2 :: t) st1
          bubbleInner T m (clearTrans b2 :: pre) (clearTrans a2 :: t) st2
        else
          bubbleInner T m (clearTrans a1 :: pre) (clearTrans b1 :: t) st1
  | _ + 1, pre, cur, st => (pre.reverse ++ cur, st, false)

/-- Outer `i` loop of bubble sort; the fuel m+1 equals n-i-1, the number
of inner iterations of pass i, which is also the index marked sorted at
the end of the pass. -/
def bubbleOuter (T : Option Nat) :
    Nat → List Elem → SortSt → List Elem × SortSt × Bool
  | 0, arr, st => (arr, st, false)
  | m + 1, arr, st =>
      let r := bubbleInner T (m + 1) [] arr st
      if r.2.2 then (r.1, r.2.1, true)
      else
        let arr1 := setSrt r.1 (m + 1)
        bubbleOuter T m arr1 (publish arr1 r.2.1)

def bubbleSortE (T : Option Nat) (arr : List Elem) (st : SortSt) :
    List Elem × SortSt :=
  let r := bubbleOuter T (arr.length - 1) arr st
  if r.2.2 then (r.1, r.2.1)
  else
    let arr1 := setSrt r.1 0
    (arr1, publish arr1 r.2.1)

/-- A full bubble-sort run with the flag true throughout. -/
def bubbleRun (arr : List Elem) : List Elem × SortSt := bubbleSortE none arr st0

/-! ### Selection sort (selectionSort, lines 113-152)

Positional embedding: `j` scans positions i+1 .. n-1 keeping the index
`minIdx` of the current minimum; fuel is the number of remaining scan
iterations. -/

def selInner (T : Option Nat) :
    Nat → List Elem → Nat → Nat → SortSt → List Elem × Nat × SortSt × Bool
  | 0, arr, _, minIdx, st => (arr, minIdx, st, false)
  | m + 1, arr, j, minIdx, st =>
      let r := readFlag T st
      if !r.1 then (arr, minIdx, r.2, true)
      else
        let arr1 := setCmp arr j true
        let st1 := publish arr1 r.2
        if (getE arr1 j).value < (getE arr1 minIdx).value then
          let arr2 := setCmp (setCmp arr1 minIdx false) j true
          selInner T m arr2 (j + 1) j (publish arr2 st1)
        else
          let arr2 := setCmp arr1 j false
          selInner T m arr2 (j + 1) minIdx (publish arr2 st1)

/-- Outer `i` loop of selection sort; fuel is the number of remaining
passes (i runs 0 .. n-2). -/
def selOuter (T : Option Nat) :
    Nat → Nat → List Elem → SortSt → List Elem × SortSt × Bool
  | 0, _, arr, st => (arr, st, false)
  | p + 1, i, arr, st =>
      let arr0 := setCmp arr i true
      let r := selInner T (arr.length - (i + 1)) arr0 (i + 1) i st
      if r.2.2.2 then (r.1, r.2.2.1, true)
      else
        let minIdx := r.2.1
        let q :=
          if minIdx == i then (r.1, r.2.2.1)
          else
            let a2 := setSwp (setSwp (swapE r.1 i minIdx) i true) minIdx true
            let st2 := publish a2 r.2.2.1
            (setSwp a2 minIdx false, st2)
        let a3 := setSrt (setSwp (setCmp q.1 i false) i false) i
        selOuter T p (i + 1) a3 (publish a3 q.2)

def selSortE (T : Option Nat) (arr : List Elem) (st : SortSt) :
    List Elem × SortSt :=
  let r := selOuter T (arr.length - 1) 0 arr st
  if r.2.2 then (r.1, r.2.1)
  else
    let arr1 := setSrt r.1 (arr.length - 1)
    (arr1, publish arr1 r.2.1)

def selRun (arr : List Elem) : List Elem × SortSt := selSortE none arr st0

/-! ### Insertion sort (insertionSort, lines 154-187)

The source shifts elements right with `arr[j+1] = arr[j]` — an object
copy, so slots j and j+1 alias the same element until one of them is
overwritten; the published mid-step snapshot therefore shows the shifted
element twice with both transient flags set.  `jp` is j+1 (so the loop
guard j >= 0 becomes jp > 0); fuel bounds the shift iterations by i. -/

def insInner (T : Option Nat) (key : Elem) :
    Nat → List Elem → Nat → SortSt → List Elem × Nat × SortSt × Bool
  | 0, arr, jp, st => (arr, jp, st, false)
  | _ + 1, arr, 0, st => (arr, 0, st, false)
  | m + 1, arr, jp + 1, st =>
      if (getE arr jp).value > key.value then
        let r := readFlag T st
        if !r.1 then (arr, jp + 1, r.2, true)
        else
          let o : Elem := { getE arr jp with isCompared := true, isSwapped := true }
          let st1 := publish ((arr.set jp o).set (jp + 1) o) r.2
          let oc : Elem := { getE arr jp with isCompared := false, isSwapped := false }
          insInner T key m ((arr.set jp oc).set (jp + 1) oc) jp st1
      else (arr, jp + 1, st, false)

/-- Outer `i` loop of insertion sort (i runs 1 .. n-1); fuel is the
number of remaining outer iterations. -/
def insOuter (T : Option Nat) :
    Nat → Nat → List Elem → SortSt → List Elem × SortSt × Bool
  | 0, _, arr, st => (arr, st, false)
  | p + 1, i, arr, st =>
      let r := readFlag T st
      if !r.1 then (arr, r.2, true)
      else
        let key : Elem := { getE arr i with isCompared := true }
        let arr1 := arr.set i key
        let st1 := publish arr1 r.2
        let q := insInner T key i arr1 i st1
        if q.2.2.2 then (q.1, q.2.2.1, true)
        else
          let arr2 := q.1.set q.2.1 { key with isCompared := false }
          insOuter T p (i + 1) arr2 (publish arr2 q.2.2.1)

def insSortE (T : Option Nat) (arr : List Elem) (st : SortSt) :
    List Elem × SortSt :=
  let r := insOuter T (arr.length - 1) 1 arr st
  if r.2.2 then (r.1, r.2.1)
  else
    let arr1 := r.1.map (fun e => { e with isSorted := true })
    (arr1, publish arr1 r.2.1)

def insRun (arr : List Elem) : List Elem × SortSt := insSortE none arr st0

/-! ### Merge sort (mergeSort and merge, lines 189-256)

merge takes copies (slices) of the two halves and writes the merged
sequence back into arr[left..right] one slot at a time, publishing after
every write; slots at index >= k keep their original contents until
written.  `done` is the list of slots written so far. -/

def sliceE (arr : List Elem) (a b : Nat) : List Elem := (arr.drop a).take (b - a)

/-- The full array as published while slot left+|done| is being written
with element e: written part, then e, then the original tail. -/
def snapMid (arr : List Elem) (left : Nat) (done : List Elem) (e : Elem) :
    List Elem :=
  arr.take left ++ done ++ e :: arr.drop (left + done.length + 1)

/-- The full array after the writes in `done` have been applied. -/
def assembleAt (arr : List Elem) (left : Nat) (done : List Elem) : List Elem :=
  arr.take left ++ done ++ arr.drop (left + done.length)

/-- The first while loop of merge: while both copies are nonempty the
smaller (or on ties the left) head is written back.  The fuel only makes
the recursion structural; mergeE passes the two copies' total length,
which the loop can never exhaust while both lists are nonempty. -/
def mergeMain (T : Option Nat) (arr : List Elem) (left : Nat) :
    Nat → List Elem → List Elem → List Elem → SortSt →
    List Elem × List Elem × List Elem × SortSt × Bool
  | 0, ls, rs, done, st => (done, ls, rs, st, false)
  | f + 1, a :: ls, b :: rs, done, st =>
      let r := readFlag T st
      if !r.1 then (done, a :: ls, b :: rs, r.2, true)
      else
        let k := left + done.length
        let st1 := publish (snapMid arr left done { getE arr k with isCompared := true }) r.2
        let e : Elem :=
          if a.value ≤ b.value then { a with isSwapped := true }
          else { b with isSwapped := true }
        let st2 := publish (snapMid arr left done e) st1
        let e2 : Elem := { e with isCompared := false, isSwapped := false }
        if a.value ≤ b.value then
          mergeMain T arr left f ls (b :: rs) (done ++ [e2]) st2
        else
          mergeMain T arr left f (a :: ls) rs (done ++ [e2]) st2
  | _ + 1, ls, rs, done, st => (done, ls, rs, st, false)

/-- The two leftover-copy loops of merge (identical bodies). -/
def mergeTail (T : Option Nat) (arr : List Elem) (left : Nat) :
    List Elem → List Elem → SortSt → List Elem × SortSt × Bool
  | [], done, st => (done, st, false)
  | a :: ls, done, st =>
      let r := readFlag T st
      if !r.1 then (done, r.2, true)
      else
        let e : Elem := { a with isSwapped := true }
        let st1 := publish (snapMid arr left done e) r.2
        mergeTail T arr left ls (done ++ [{ e with isSwapped := false }]) st1

def mergeE (T : Option Nat) (arr : List Elem) (left mid right : Nat)
    (st : SortSt) : List Elem × SortSt :=
  let r := readFlag T st
  if !r.1 then (arr, r.2)
  else
    let la := sliceE arr left (mid + 1)
    let ra := sliceE arr (mid + 1) (right + 1)
    let m1 := mergeMain T arr left (la.length + ra.length) la ra [] r.2
    if m1.2.2.2.2 then (assembleAt arr left m1.1, m1.2.2.2.1)
    else
      let t1 := mergeTail T arr left m1.2.1 m1.1 m1.2.2.2.1
      if t1.2.2 then (assembleAt arr left t1.1, t1.2.1)
      else
        let t2 := mergeTail T arr left m1.2.2.1 t1.1 t1.2.1
        if t2.2.2 then (assembleAt arr left t2.1, t2.2.1)
        else
          let arr1 := assembleAt arr left t2.1
          if left == 0 && right == arr.length - 1 then
            let arr2 := arr1.map (fun e => { e with isSorted := true })
            (arr2, publish arr2 t2.2.1)
          else (arr1, t2.2.1)

/-- mergeSort(arr, left, right): recursion on the sub-range, dividing at
floor((left+right)/2); fuel bounds the recursion depth (any fuel at
least right-left+1 is enough). -/
def mergeSortFuel (T : Option Nat) :
    Nat → List Elem → Nat → Nat → SortSt → List Elem × SortSt
  | 0, arr, _, _, st => (arr, st)
  | f + 1, arr, left, right, st =>
      if left < right then
        let mid := (left + right) / 2
        let r1 := mergeSortFuel T f arr left mid st
        let r2 := mergeSortFuel T f r1.1 (mid + 1) right r1.2
        mergeE T r2.1 left mid right r2.2
      else (arr, st)

def mergeSortE (T : Option Nat) (arr : List Elem) (st : SortSt) :
    List Elem × SortSt :=
  mergeSortFuel T arr.length arr 0 (arr.length - 1) st

def mergeRun (arr : List Elem) : List Elem × SortSt := mergeSortE none arr st0

/-! ### Quick sort (quickSort and partition, lines 258-315)

Indexes are integers, as in the source: quickSort(arr, low, p-1) is
reachable with p-1 = -1.  partition returns `low` when a run-flag read
observes false; quickSort itself never reads the flag, and its final
mark-all-sorted block runs unconditionally. -/

def getEI (arr : List Elem) (i : Int) : Elem := getE arr i.toNat

/-- The j loop of partition (j runs low .. high-1); `i` is the swap
index, `pv` the pivot value arr[high].value. -/
def partitionLoop (T : Option Nat) :
    Nat → List Elem → Int → Int → Int → SortSt → List Elem × Int × SortSt × Bool
  | 0, arr, i, _, _, st => (arr, i, st, false)
  | f + 1, arr, i, j, pv, st =>
      let r := readFlag T st
      if !r.1 then (arr, i, r.2, true)
      else
        let arr1 := setCmp arr j.toNat true
        let st1 := publish arr1 r.2
        let q :=
          if (getEI arr1 j).value < pv then
            let i1 := i + 1
            let a2 := setSwp (setSwp (swapE arr1 i1.toNat j.toNat) i1.toNat true) j.toNat true
            let st2 := publish a2 st1
            (setSwp (setSwp a2 i1.toNat false) j.toNat false, i1, st2)
          else (arr1, i, st1)
        partitionLoop T f (setCmp q.1 j.toNat false) q.2.1 (j + 1) pv q.2.2

def partitionE (T : Option Nat) (arr : List Elem) (low high : Int)
    (st : SortSt) : List Elem × Int × SortSt :=
  let r := readFlag T st
  if !r.1 then (arr, low, r.2)
  else
    let pv := (getEI arr high).value
    let arr0 := setCmp arr high.toNat true
    let st0' := publish arr0 r.2
    let q := partitionLoop T (high - low).toNat arr0 (low - 1) low pv st0'
    if q.2.2.2 then (q.1, low, q.2.2.1)
    else
      let i1 := q.2.1 + 1
      let a2 := setSwp (setSwp (swapE q.1 i1.toNat high.toNat) i1.toNat true) high.toNat true
      let st2 := publish a2 q.2.2.1
      let a3 := setCmp (setSwp (setSwp a2 i1.toNat false) high.toNat false) i1.toNat false
      (a3, i1, publish a3 st2)

def quickSortFuel (T : Option Nat) :
    Nat → List Elem → Int → Int → SortSt → List Elem × SortSt
  | 0, arr, _, _, st => (arr, st)
  | f + 1, arr, low, high, st =>
      let r :=
        if low < high then
          let p := partitionE T arr low high st
          let r1 := quickSortFuel T f p.1 low (p.2.1 - 1) p.2.2
          quickSortFuel T f r1.1 (p.2.1 + 1) high r1.2
        else (arr, st)
      if low == 0 && high == (r.1.length : Int) - 1 then
        let arr2 := r.1.map (fun e => { e with isSorted := true })
        (arr2, publish arr2 r.2)
      else r

def quickSortE (T : Option Nat) (arr : List Elem) (st : SortSt) :
    List Elem × SortSt :=
  quickSortFuel T (arr.length + 1) arr 0 ((arr.length : Int) - 1) st

def quickRun (arr : List Elem) : List Elem × SortSt := quickSortE none arr st0

/-! ### stopSorting (lines 69-75): clears the two transient flags of
every element, touching nothing else. -/

def stopSortingE (arr : List Elem) : List Elem := arr.map clearTrans

/-! ## Graph visualizer (src/unnamed/part_000)

The graph model is a mapping node id → (neighbor id → weight); JS objects
preserve string-key insertion order, so both levels are embedded as
ordered association lists with unique keys. -/

abbrev NMap := List (String × Int)
abbrev Graph := List (String × NMap)

def alookup {α : Type} : List (String × α) → String → Option α
  | [], _ => none
  | (k, v) :: t, s => if k = s then some v else alookup t s

/-- JS object assignment m[k] = v: update in place when the key exists,
append otherwise. -/
def aInsert {α : Type} : List (String × α) → String → α → List (String × α)
  | [], k, v => [(k, v)]
  | (k1, v1) :: t, k, v =>
      if k1 = k then (k1, v) :: t else (k1, v1) :: aInsert t k v

/-- graph[node][nb] = w, for a node already present. -/
def gInsert : Graph → String → String → Int → Graph
  | [], _, _, _ => []
  | (k, m) :: t, node, nb, w =>
      if k = node then (k, aInsert m nb w) :: t else (k, m) :: gInsert t node nb w

def nlC : Char := '\n'
def colonC : Char := ':'
def commaC : Char := ','
def emptyS : String := ""
def invalidFmtS : String := "Invalid format"
def typeErrS : String := "TypeError"
def undefinedS : String := "undefined"
def lparC : Char := '('
def rparC : Char := ')'
def underC : Char := '_'
def minusC : Char := '-'
def plusC : Char := '+'

/-! String.trim and single-character String.split, spelled out over the
character list (structurally, so that concrete runs evaluate). -/

/-- JS String.prototype.trim: strip leading and trailing whitespace. -/
def trimCh (s : String) : String :=
  String.mk (((s.toList.dropWhile Char.isWhitespace).reverse.dropWhile
    Char.isWhitespace).reverse)

def splitChGo (c : Char) : List Char → List Char → List (List Char)
  | [], acc => [acc.reverse]
  | x :: t, acc =>
      if x == c then acc.reverse :: splitChGo c t []
      else splitChGo c t (x :: acc)

/-- JS String.prototype.split with a one-character separator. -/
def splitCh (c : Char) (s : String) : List String :=
  (splitChGo c s.toList []).map String.mk

/-- JS String.prototype.includes with a one-character needle. -/
def containsCh (s : String) (c : Char) : Bool := s.toList.any (fun x => x == c)

/-! ### Parsers (parseAdjacencyList lines 73-103, parseAdjacencyMatrix
lines 105-128) -/

def isWordChar (c : Char) : Bool := c.isAlphanum || c == underC

def digitsVal (d : List Char) : Int :=
  ((d.foldl (fun a c => a * 10 + (c.toNat - 48)) 0 : Nat) : Int)

/-- Match of the weighted-neighbor regex (a word, a parenthesised digit
run) starting exactly at this position. -/
def matchWeightAt (s : List Char) : Option (List Char × List Char) :=
  let w := s.takeWhile isWordChar
  if w.isEmpty then none
  else
    match s.drop w.length with
    | c :: rest =>
        if c == lparC then
          let d := rest.takeWhile Char.isDigit
          if d.isEmpty then none
          else
            match rest.drop d.length with
            | c2 :: _ => if c2 == rparC then some (w, d) else none
            | [] => none
        else none
    | [] => none

/-- First match of the weighted-neighbor regex anywhere in the string
(the JS regex scans successive start positions). -/
def firstWeightMatch : List Char → Option (String × Int)
  | [] => none
  | c :: t =>
      match matchWeightAt (c :: t) with
      | some (w, d) => some (String.mk w, digitsVal d)
      | none => firstWeightMatch t

/-- One neighbor item of an adjacency-list line: weighted items that fail
the regex are silently dropped; unweighted items get weight 1. -/
def parseNbrItem (weighted : Bool) (g : Graph) (node : String)
    (nbRaw : String) : Graph :=
  let trimmed := trimCh nbRaw
  if weighted && containsCh trimmed lparC then
    match firstWeightMatch trimmed.toList with
    | some (name, w) => gInsert g node name w
    | none => g
  else gInsert g node trimmed 1

/-- One line of adjacency-list input: must split on the colon into
exactly two parts, else the parser throws. -/
def parseListLine (weighted : Bool) (g : Graph) (line : String) :
    Except String Graph :=
  match (splitCh colonC (trimCh line)) with
  | [p0, p1] =>
      let node := trimCh p0
      let g1 := if (alookup g node).isSome then g else g ++ [(node, [])]
      let nbs := trimCh p1
      if nbs = emptyS then Except.ok g1
      else Except.ok ((splitCh commaC nbs).foldl
        (fun g2 nb => parseNbrItem weighted g2 node nb) g1)
  | _ => Except.error invalidFmtS

def parseAdjacencyList (weighted : Bool) (input : String) :
    Except String Graph :=
  (splitCh nlC (trimCh input)).foldlM (parseListLine weighted) []

/-- JS parseInt on a cell: optional sign, then a decimal-digit run;
anything else is NaN (none). -/
def jsParseInt (s : String) : Option Int :=
  let core := fun (l : List Char) (sign : Int) =>
    let d := l.takeWhile Char.isDigit
    if d.isEmpty then none else some (sign * digitsVal d)
  match (trimCh s).toList with
  | [] => none
  | c :: t =>
      if c == minusC then core t (-1)
      else if c == plusC then core t 1
      else core (c :: t) 1

/-- One matrix cell at column j of the row for fromN.  A NaN or
non-positive cell adds nothing.  A positive cell whose row index has no
header label hits graph[undefined][...] — a TypeError in JS; a positive
cell whose column has no label stores under the key "undefined". -/
def parseMatrixCell (weighted : Bool) (labels : List String) (fromN : String)
    (g : Except String Graph) (jc : Nat × String) : Except String Graph :=
  match g with
  | Except.error e => Except.error e
  | Except.ok g0 =>
      match jsParseInt jc.2 with
      | some wt =>
          if wt > 0 then
            let toN := labels.getD jc.1 undefinedS
            if (alookup g0 fromN).isSome then
              Except.ok (gInsert g0 fromN toN (if weighted then wt else 1))
            else Except.error typeErrS
          else Except.ok g0
      | none => Except.ok g0

def parseMatrixRow (weighted : Bool) (labels : List String)
    (g : Except String Graph) (irow : Nat × String) : Except String Graph :=
  let fromN := labels.getD irow.1 undefinedS
  ((splitCh commaC irow.2).enum).foldl (parseMatrixCell weighted labels fromN) g

/-- parseAdjacencyMatrix: header row of labels, then numeric rows.  No
check that a row's column count matches the header. -/
def parseAdjacencyMatrix (weighted : Bool) (input : String) :
    Except String Graph :=
  let lines := splitCh nlC (trimCh input)
  let labels := ((splitCh commaC (lines.headD emptyS))).map trimCh
  let g0 : Graph := labels.foldl
    (fun g l => if (alookup g l).isSome then g else g ++ [(l, [])]) []
  ((lines.drop 1).enum).foldl (parseMatrixRow weighted labels) (Except.ok g0)

/-- generateGraph stores the parsed model only on success; a parse error
is caught and the previous model kept (run never starts). -/
def applyGenerate (prev : Graph) (res : Except String Graph) : Graph :=
  match res with
  | Except.ok g => g
  | Except.error _ => prev

/-! ### Node/edge display state and stopVisualization (lines 62-71) -/

structure GNode where
  id : String
  x : Int
  y : Int
  visited : Bool
  current : Bool
  inQueue : Bool
  distance : Option Int
deriving Repr, DecidableEq

structure GEdge where
  src : String
  dst : String
  weight : Option Int
  highlighted : Bool
deriving Repr, DecidableEq

def stopVisNodes (ns : List GNode) : List GNode :=
  ns.map (fun n => { n with visited := false, current := false, inQueue := false })

def stopVisEdges (es : List GEdge) : List GEdge :=
  es.map (fun e => { e with highlighted := false })

def stopVisOrder (_ : List String) : List String := []

/-! ### BFS (bfs, lines 246-317)

State: FIFO queue, visited set (in insertion order) and traversal order.
A dequeued node already visited is skipped; otherwise it is visited and
recorded, and its neighbors are enqueued (in the model's per-node order)
unless already visited or already queued.  The run flag stays true in a
completed run, so it is not modelled here.  Fuel bounds the number of
loop iterations; every enqueue-bound fuel is enough. -/

def bfsEnqueue (visited : List String) (q : List String)
    (nbrs : List String) : List String :=
  nbrs.foldl
    (fun q2 nb => if visited.contains nb || q2.contains nb then q2 else q2 ++ [nb]) q

def bfsAux (g : Graph) :
    Nat → List String → List String → List String →
    List String × List String × List String
  | 0, q, visited, order => (q, visited, order)
  | _ + 1, [], visited, order => ([], visited, order)
  | f + 1, c :: q, visited, order =>
      if visited.contains c then bfsAux g f q visited order
      else
        let visited1 := visited ++ [c]
        let order1 := order ++ [c]
        let nbrs := ((alookup g c).getD []).map (fun p => p.1)
        bfsAux g f (bfsEnqueue visited1 q nbrs) visited1 order1

def bfsFuel (g : Graph) : Nat := 1 + (g.map (fun p => p.2.length)).sum

def bfsRunE (g : Graph) (s : String) : List String :=
  (bfsAux g (bfsFuel g) [s] [] []).2.2

/-! ### Dijkstra (dijkstra, lines 379-459)

Distances are an association list over the graph keys with `none` for
Infinity.  Each step scans the unvisited list (JS Set iteration =
insertion order) for the first strictly-smallest finite distance, breaks
when none is found, else visits that node and relaxes its out-edges. -/

abbrev DMap := List (String × Option Int)

def distLt : Option Int → Option Int → Bool
  | some a, some b => decide (a < b)
  | some _, none => true
  | none, _ => false

/-- One scan step of the minimum search: replace the candidate only on a
strictly smaller distance. -/
def selStep (d : DMap) (acc : String × Option Int) (nid : String) :
    String × Option Int :=
  if distLt ((alookup d nid).getD none) acc.2
  then (nid, (alookup d nid).getD none) else acc

/-- The minimum scan: current starts as '' with distance Infinity and is
replaced only on strictly smaller, so the first minimum encountered
wins. -/
def selectMin (d : DMap) (uv : List String) : String × Option Int :=
  uv.foldl (selStep d) (emptyS, none)

/-- Relax all out-edges of current against unvisited neighbors;
distances[from] is re-read per edge, and a neighbor that is not a key of
the distance table never relaxes (NaN/undefined comparisons are false in
JS). -/
def dijkstraRelax (g : Graph) (visited : List String) (current : String)
    (d : DMap) : DMap :=
  ((alookup g current).getD []).foldl
    (fun d2 p =>
      if visited.contains p.1 then d2
      else
        match (alookup d2 current).getD none with
        | some dc =>
            let nd := dc + p.2
            match alookup d2 p.1 with
            | some dn => if distLt (some nd) dn then aInsert d2 p.1 (some nd) else d2
            | none => d2
        | none => d2)
    d

def dijkstraLoop (g : Graph) :
    Nat → DMap → List String → List String → List String →
    DMap × List String
  | 0, d, _, _, order => (d, order)
  | f + 1, d, uv, visited, order =>
      match uv with
      | [] => (d, order)
      | _ :: _ =>
          let sel := selectMin d uv
          if sel.1 = emptyS || ((alookup d sel.1).getD none) = none then (d, order)
          else
            let uv1 := uv.erase sel.1
            let visited1 := visited ++ [sel.1]
            let order1 := order ++ [sel.1]
            dijkstraLoop g f (dijkstraRelax g visited1 sel.1 d) uv1 visited1 order1

def dijkstraInit (g : Graph) (s : String) : DMap :=
  g.map (fun p => (p.1, if p.1 = s then some 0 else none))

def dijkstraRunE (g : Graph) (s : String) : DMap × List String :=
  dijkstraLoop g g.length (dijkstraInit g s) (g.map (fun p => p.1)) [] []

/-! ### Bellman-Ford (bellmanFord, lines 462-556) -/

/-- Would the edge frm→to still relax under the distance table d?
(The final negative-cycle pass asks exactly this per edge.) -/
def wouldRelax (d : DMap) (frm to2 : String) (w : Int) : Bool :=
  match (alookup d frm).getD none with
  | some df =>
      match alookup d to2 with
      | some dt => distLt (some (df + w)) dt
      | none => false
  | none => false

/-- One edge of the per-node relaxation: distances[from] is re-read, a
strictly shorter path updates the target and sets the round's update
flag; a target that is no key of the table never relaxes. -/
def bfEdgeStep (frm : String) (s2 : DMap × Bool) (p : String × Int) :
    DMap × Bool :=
  match (alookup s2.1 frm).getD none with
  | some df =>
      let nd := df + p.2
      match alookup s2.1 p.1 with
      | some dt =>
          if distLt (some nd) dt then (aInsert s2.1 p.1 (some nd), true) else s2
      | none => s2
  | none => s2

/-- Relax all out-edges of frm.  Returns the new table and whether any
edge relaxed. -/
def bfRelaxFrom (g : Graph) (frm : String) (s : DMap × Bool) : DMap × Bool :=
  ((alookup g frm).getD []).foldl (bfEdgeStep frm) s

/-- One node of one relaxation round: record the node in the traversal
order on first occurrence, then (when it exists and is reached) relax its
out-edges. -/
def bfProcessNode (g : Graph) (s : DMap × List String × Bool) (frm : String) :
    DMap × List String × Bool :=
  let order1 := if s.2.1.contains frm then s.2.1 else s.2.1 ++ [frm]
  if (alookup g frm).isSome && ((alookup s.1 frm).getD none).isSome then
    let r := bfRelaxFrom g frm (s.1, s.2.2)
    (r.1, order1, r.2)
  else (s.1, order1, s.2.2)

/-- One full relaxation round over all nodes in node order. -/
def bfRound (g : Graph) (nodeIds : List String) (d : DMap)
    (order : List String) : DMap × List String × Bool :=
  nodeIds.foldl (bfProcessNode g) (d, order, false)

/-- The |V|-1 relaxation rounds, early-exiting as soon as a round makes
no update. -/
def bfRounds (g : Graph) (nodeIds : List String) :
    Nat → DMap → List String → DMap × List String
  | 0, d, order => (d, order)
  | k + 1, d, order =>
      let r := bfRound g nodeIds d order
      if r.2.2 then bfRounds g nodeIds k r.1 r.2.1 else (r.1, r.2.1)

/-- The extra negative-cycle pass: true iff some edge out of a reached
node would still relax (the JS loop returns on the first such edge). -/
def bfCheck (g : Graph) (nodeIds : List String) (d : DMap) : Bool :=
  nodeIds.any (fun frm =>
    ((alookup g frm).isSome && ((alookup d frm).getD none).isSome) &&
    ((alookup g frm).getD []).any (fun p => wouldRelax d frm p.1 p.2))

def bfInit (g : Graph) (s : String) : DMap :=
  g.map (fun p => (p.1, if p.1 = s then some 0 else none))

/-- A completed Bellman-Ford run: final distances, traversal order, and
whether a negative cycle was reported instead of a normal completion. -/
def bellmanFordE (g : Graph) (s : String) : DMap × List String × Bool :=
  let nodeIds := g.map (fun p => p.1)
  let r := bfRounds g nodeIds (nodeIds.length - 1) (bfInit g s) []
  (r.1, r.2, bfCheck g nodeIds r.1)

/-! ## Concrete fixtures used by the claims -/

def strA : String := "A"

def bfsExampleText : String := "A: B,C\nB: A,D,E\nC: A,F\nD: B\nE: B,F\nF: C,E"

def bfsExampleGraph : Graph :=
  [("A", [("B", 1), ("C", 1)]), ("B", [("A", 1), ("D", 1), ("E", 1)]),
   ("C", [("A", 1), ("F", 1)]), ("D", [("B", 1)]),
   ("E", [("B", 1), ("F", 1)]), ("F", [("C", 1), ("E", 1)])]

def bfsExampleOrder : List String := ["A", "B", "C", "D", "E", "F"]

/-- The weighted 4-cycle A→B(1), B→C(1), C→D(1), D→A(1) with the
shortcut A→C(1). -/
def dijkstraExampleGraph : Graph :=
  [("A", [("B", 1), ("C", 1)]), ("B", [("C", 1)]),
   ("C", [("D", 1)]), ("D", [("A", 1)])]

/-- A→B(1), B→C(-3), C→A(1): a negative cycle. -/
def negCycleGraph : Graph :=
  [("A", [("B", 1)]), ("B", [("C", -3)]), ("C", [("A", 1)])]

/-- A header with three labels and a row with a single column. -/
def mismatchedMatrixText : String := "A,B,C\n1"

/-- The two-element array used to exhibit the cancelled quick-sort run. -/
def cancelArr : List Elem :=
  [⟨2, false, false, false⟩, ⟨1, false, false, false⟩]

/-! ## Proof-support definitions

Pure views of the loops above (flag reads and publishes erased), used to
state and prove their value-level behavior; each is connected to the
corresponding embedded loop by a proved bridge lemma below. -/

/-- The array effect of one inner bubble pass of fuel m (the embedded
bubbleInner with the run flag true throughout). -/
def bpassE : Nat → List Elem → List Elem
  | 0, cur => cur
  | m + 1, a :: b :: t =>
      if a.value > b.value then clearTrans b :: bpassE m (clearTrans a :: t)
      else clearTrans a :: bpassE m (clearTrans b :: t)
  | _ + 1, cur => cur

/-- The value effect of one inner bubble pass. -/
def bpassV : Nat → List Int → List Int
  | 0, l => l
  | m + 1, a :: b :: t =>
      if a > b then b :: bpassV m (a :: t) else a :: bpassV m (b :: t)
  | _ + 1, l => l

def SortedV (l : List Int) : Prop := List.Sorted (fun a b => a ≤ b) l

/-- arr[i].isSwapped = false at the end of a leftover-copy step. -/
def clearSwp (e : Elem) : Elem := { e with isSwapped := false }

/-- The array effect of the main merge loop on the two slice copies:
elements written back (transient flags cleared) and the two leftovers. -/
def mwork : Nat → List Elem → List Elem → List Elem × List Elem × List Elem
  | 0, ls, rs => ([], ls, rs)
  | f + 1, a :: ls, b :: rs =>
      if a.value ≤ b.value then
        let r := mwork f ls (b :: rs)
        (clearTrans a :: r.1, r.2)
      else
        let r := mwork f (a :: ls) rs
        (clearTrans b :: r.1, r.2)
  | _ + 1, ls, rs => ([], ls, rs)

/-- The intermediate combined write-back for a given fuel. -/
def mcomb (f : Nat) (la ra : List Elem) : List Elem :=
  (mwork f la ra).1 ++ ((mwork f la ra).2.1).map clearSwp ++
    ((mwork f la ra).2.2).map clearSwp

/-- The contents written back into arr[left..right] by one full merge
call (main loop, then the two leftover loops). -/
def mergedEl (la ra : List Elem) : List Elem :=
  mcomb (la.length + ra.length) la ra

/-- Slice of a value list (JS arr.slice(a, b), as values). -/
def sliceV (v : List Int) (a b : Nat) : List Int := (v.drop a).take (b - a)

/-- No element of the array carries the sorted flag. -/
def AllUnsorted (l : List Elem) : Prop := ∀ e ∈ l, e.isSorted = false

/-- Boolean form of AllUnsorted, for concrete evaluation. -/
def allUnsortedB (l : List Elem) : Bool := l.all (fun e => !e.isSorted)

/-- Every element carries the sorted flag (boolean form). -/
def allSortedB (l : List Elem) : Bool := l.all (fun e => e.isSorted)

/-- A three-element unsorted array. -/
def c8Arr : List Elem :=
  [⟨2, false, false, false⟩, ⟨1, false, false, false⟩, ⟨3, false, false, false⟩]

/-- Two elements with equal values (distinguished by a display flag). -/
def tieL : Elem := ⟨5, false, false, false⟩

def tieR : Elem := ⟨5, true, false, false⟩

/-- Value effect of swapE: exchange the entries at positions a and b. -/
def swapV (v : List Int) (a b : Nat) : List Int :=
  (v.set a (v.getD b 0)).set b (v.getD a 0)

/-- A three-element array for the partition fixtures. -/
def c7Arr : List Elem :=
  [⟨3, false, false, false⟩, ⟨1, false, false, false⟩, ⟨2, false, false, false⟩]

/-- Pointwise monotonicity of the sorted flag between two snapshots:
every position marked sorted in x is still marked in y. -/
def srtLE (x y : List Elem) : Prop :=
  ∀ i : Nat, (getE x i).isSorted = true → (getE y i).isSorted = true

instance (x y : List Elem) : Decidable (srtLE x y) :=
  decidable_of_iff (∀ i ∈ List.range x.length,
      (getE x i).isSorted = true → (getE y i).isSorted = true) <| by
    constructor
    · intro h i hi
      by_cases hx : i < x.length
      · exact h i (List.mem_range.mpr hx) hi
      · rw [getE, List.getD_eq_default _ _ (by omega)] at hi
        exact absurd hi (by simp [dElem])
    · intro h i _ hi
      exact h i hi

/-- The isSorted column of a snapshot. -/
def smap (arr : List Elem) : List Bool := arr.map (fun e => e.isSorted)

/-- A two-element unsorted array. -/
def c9Arr : List Elem := [⟨2, false, false, false⟩, ⟨1, false, false, false⟩]

/-! ## C10 — stop clears exactly the transient display state -/

/-- C10: stopSorting clears only the compared/swapped flags of every
element and leaves values and sorted flags unchanged; the graph
visualizer's stop resets visited/current/inQueue on every node (keeping
id, position and distance), clears highlighted on every edge (keeping
endpoints and weight), and empties the traversal order. -/
theorem c10_stop_frame :
    (∀ arr : List Elem,
      vals (stopSortingE arr) = vals arr ∧
      (stopSortingE arr).map (fun e => e.isSorted) = arr.map (fun e => e.isSorted) ∧
      (stopSortingE arr).all (fun e => !e.isCompared && !e.isSwapped) = true) ∧
    (∀ ns : List GNode,
      (stopVisNodes ns).map (fun n => (n.id, n.x, n.y, n.distance)) =
        ns.map (fun n => (n.id, n.x, n.y, n.distance)) ∧
      (stopVisNodes ns).all (fun n => !n.visited && !n.current && !n.inQueue) = true) ∧
    (∀ es : List GEdge,
      (stopVisEdges es).map (fun e => (e.src, e.dst, e.weight)) =
        es.map (fun e => (e.src, e.dst, e.weight)) ∧
      (stopVisEdges es).all (fun e => !e.highlighted) = true) ∧
    (∀ o : List String, stopVisOrder o = []) := by
  refine ⟨fun arr => ⟨?_, ?_, ?_⟩, fun ns => ⟨?_, ?_⟩, fun es => ⟨?_, ?_⟩, fun o => rfl⟩ <;>
    simp [stopSortingE, stopVisNodes, stopVisEdges, vals, clearTrans, List.all_eq_true]

/-! ## C2 — cancellation of the recursive sorts (quick sort bug)

quickSort's unconditional mark-all-sorted block runs even when the run
was cancelled: on [2,1] with the flag turning false after the first
read, the engine publishes one in-flight snapshot and then, after
observing false, still publishes a snapshot with every element marked
sorted. -/

/-- C2 (failing run, evaluated): quick sort on [2,1] with the flag false
from the second read on makes exactly two flag reads, and its published
trace is the in-flight pivot snapshot followed by a snapshot in which
every element is marked sorted — published after the flag read false. -/
theorem c2_quick_cancel_marks_all_sorted :
    (quickSortE (some 1) cancelArr st0).2.trace.map (fun s => s.map (fun e => e.isSorted)) =
      [[false, false], [true, true]] ∧
    flagAt (some 1) 1 = false ∧
    (quickSortE (some 1) cancelArr st0).2.reads = 2 := by
  exact ⟨rfl, rfl, rfl⟩

/-! ## C3 — parser error handling -/

theorem parseListLine_bad (w : Bool) (g : Graph) (line : String)
    (h : (splitCh colonC (trimCh line)).length ≠ 2) :
    parseListLine w g line = Except.error invalidFmtS := by
  unfold parseListLine
  rcases hs : splitCh colonC (trimCh line) with _ | ⟨a, _ | ⟨b, _ | ⟨c, t⟩⟩⟩ <;>
    simp [hs] at h ⊢

theorem parseListLine_good (w : Bool) (g : Graph) (line : String)
    (h : (splitCh colonC (trimCh line)).length = 2) :
    ∃ g', parseListLine w g line = Except.ok g' := by
  unfold parseListLine
  rcases hs : splitCh colonC (trimCh line) with _ | ⟨a, _ | ⟨b, _ | ⟨c, t⟩⟩⟩ <;>
    simp [hs] at h ⊢
  split <;> simp

theorem foldlM_parseListLine_error (w : Bool) :
    ∀ (lines : List String) (g : Graph),
      (∃ line ∈ lines, (splitCh colonC (trimCh line)).length ≠ 2) →
      lines.foldlM (parseListLine w) g = Except.error invalidFmtS := by
  intro lines
  induction lines with
  | nil => intro g h; simp at h
  | cons l ls ih =>
      intro g h
      rw [List.foldlM_cons]
      by_cases hb : (splitCh colonC (trimCh l)).length = 2
      · obtain ⟨g', hg'⟩ := parseListLine_good w g l hb
        rw [hg']
        have : ∃ line ∈ ls, (splitCh colonC (trimCh line)).length ≠ 2 := by
          rcases h with ⟨line, hmem, hlen⟩
          rcases List.mem_cons.mp hmem with rfl | hmem'
          · exact absurd hb hlen
          · exact ⟨line, hmem', hlen⟩
        simpa using ih g' this
      · rw [parseListLine_bad w g l hb]
        rfl

/-- C3 (counterexample to the matrix half of the claim): the input whose
header has three columns and whose single data row has one column — a
column-count mismatch — is parsed successfully (no format error), so the
adjacency-matrix parser does not fail on a column-count mismatch. -/
theorem c3_matrix_mismatch_accepted :
    (splitCh nlC (trimCh mismatchedMatrixText)).map
        (fun l => (splitCh commaC l).length) = [3, 1] ∧
    parseAdjacencyMatrix false mismatchedMatrixText =
      Except.ok [("A", [("A", 1)]), ("B", []), ("C", [])] := by
  exact ⟨rfl, rfl⟩

/-- C3 (amended): the adjacency-list parser fails with the format error
whenever some line does not split into exactly two colon-delimited
parts, and a failing parse leaves the stored graph model unchanged; the
adjacency-matrix parser, however, does not reject a row whose column
count mismatches the header (the mismatched fixture parses
successfully). -/
theorem c3_parser_error_handling :
    (∀ (w : Bool) (input : String),
      (∃ line ∈ splitCh nlC (trimCh input), (splitCh colonC (trimCh line)).length ≠ 2) →
      parseAdjacencyList w input = Except.error invalidFmtS) ∧
    (∀ (prev : Graph) (e : String),
      applyGenerate prev (Except.error e) = prev) ∧
    parseAdjacencyMatrix false mismatchedMatrixText =
      Except.ok [("A", [("A", 1)]), ("B", []), ("C", [])] := by
  refine ⟨fun w input h => ?_, fun prev e => rfl, rfl⟩
  exact foldlM_parseListLine_error w (splitCh nlC (trimCh input)) [] h

/-- C3 witness: the amended theorem applied at the malformed line "A"
(zero colons). -/
theorem c3_parser_error_handling_witness :
    parseAdjacencyList false "A" = Except.error invalidFmtS := by
  refine c3_parser_error_handling.1 false "A" ⟨"A", ?_, ?_⟩ <;> decide

/-! ## C4 — BFS discipline and the fixed example -/

theorem bfsEnqueue_spec (vis : List String) :
    ∀ (nbrs q : List String), q.Nodup → (∀ x ∈ q, x ∉ vis) →
      (bfsEnqueue vis q nbrs).Nodup ∧ ∀ x ∈ bfsEnqueue vis q nbrs, x ∉ vis := by
  intro nbrs
  induction nbrs with
  | nil => intro q h1 h2; exact ⟨h1, h2⟩
  | cons nb t ih =>
      intro q h1 h2
      have step : bfsEnqueue vis q (nb :: t) =
          bfsEnqueue vis (if vis.contains nb || q.contains nb then q
            else q ++ [nb]) t := by
        simp [bfsEnqueue]
      rw [step]
      by_cases hin : vis.contains nb || q.contains nb
      · simp only [hin, if_pos]
        exact ih q h1 h2
      · simp only [hin, if_neg, not_false_iff]
        have hnb : nb ∉ vis ∧ nb ∉ q := by
          constructor <;> intro hmem <;>
            exact hin (by simp [List.elem_iff, hmem])
        refine ih (q ++ [nb]) ?_ ?_
        · simpa [List.nodup_append] using ⟨h1, fun h => hnb.2 h⟩
        · intro x hx
          rcases List.mem_append.mp hx with hx | hx
          · exact h2 x hx
          · simp at hx; subst hx; exact hnb.1

theorem bfsAux_inv (g : Graph) :
    ∀ (fuel : Nat) (q visited order : List String),
      visited = order → q.Nodup → (∀ x ∈ q, x ∉ visited) →
      (bfsAux g fuel q visited order).2.1 = (bfsAux g fuel q visited order).2.2 ∧
      (bfsAux g fuel q visited order).1.Nodup ∧
      ∀ x ∈ (bfsAux g fuel q visited order).1,
        x ∉ (bfsAux g fuel q visited order).2.1 := by
  intro fuel
  induction fuel with
  | zero => intro q v o h1 h2 h3; exact ⟨h1, h2, h3⟩
  | succ f ih =>
      intro q v o h1 h2 h3
      match q with
      | [] => exact ⟨h1, by simp [bfsAux], by simp [bfsAux]⟩
      | c :: q' =>
          have hc : c ∉ v := h3 c (List.mem_cons_self c q')
          have hcc : v.contains c = false := by
            rcases h : v.contains c with _ | _
            · rfl
            · exact absurd (List.elem_iff.mp h) hc
          rw [show bfsAux g (f + 1) (c :: q') v o =
              bfsAux g f (bfsEnqueue (v ++ [c]) q'
                (((alookup g c).getD []).map (fun p => p.1)))
                (v ++ [c]) (o ++ [c]) by simp [bfsAux, hcc, hc]]
          have hq' : q'.Nodup := (List.nodup_cons.mp h2).2
          have hcq : c ∉ q' := (List.nodup_cons.mp h2).1
          have hdis : ∀ x ∈ q', x ∉ v ++ [c] := by
            intro x hx hmem
            rcases List.mem_append.mp hmem with hv | hac
            · exact h3 x (List.mem_cons_of_mem c hx) hv
            · simp at hac; subst hac; exact hcq hx
          obtain ⟨e1, e2⟩ := bfsEnqueue_spec (v ++ [c])
            (((alookup g c).getD []).map (fun p => p.1)) q' hq' hdis
          exact ih _ _ _ (by rw [h1]) e1 e2

/-- C4: a BFS run marks nodes visited exactly at dequeue time (the
visited list always equals the traversal order, which records dequeue
order), and the enqueue guard — checking both the visited set and the
current queue — keeps the queue duplicate-free and disjoint from the
visited set; on the fixed example graph (parsed from its adjacency-list
text) started at A, the traversal order is A,B,C,D,E,F. -/
theorem c4_bfs :
    (∀ (g : Graph) (fuel : Nat) (q visited order : List String),
      visited = order → q.Nodup → (∀ x ∈ q, x ∉ visited) →
      (bfsAux g fuel q visited order).2.1 = (bfsAux g fuel q visited order).2.2 ∧
      (bfsAux g fuel q visited order).1.Nodup ∧
      ∀ x ∈ (bfsAux g fuel q visited order).1,
        x ∉ (bfsAux g fuel q visited order).2.1) ∧
    parseAdjacencyList false bfsExampleText = Except.ok bfsExampleGraph ∧
    bfsRunE bfsExampleGraph strA = bfsExampleOrder := by
  exact ⟨fun g => bfsAux_inv g, rfl, rfl⟩

/-- C4 witness: the invariant applied to the example run itself. -/
theorem c4_bfs_witness :
    (bfsAux bfsExampleGraph 13 [strA] [] []).2.1 =
      (bfsAux bfsExampleGraph 13 [strA] [] []).2.2 ∧
    (bfsAux bfsExampleGraph 13 [strA] [] []).1.Nodup ∧
    ∀ x ∈ (bfsAux bfsExampleGraph 13 [strA] [] []).1,
      x ∉ (bfsAux bfsExampleGraph 13 [strA] [] []).2.1 :=
  c4_bfs.1 bfsExampleGraph 13 [strA] [] [] rfl (by decide) (by decide)

/-! ## C5 — Dijkstra's selection rule and the fixed example

`distLt` is the JS `<` on numbers-with-Infinity; the scan lemmas below
characterize the fold in `selectMin`. -/

theorem distLt_irrefl (a : Option Int) : distLt a a = false := by
  cases a <;> simp [distLt]

theorem distLt_trans {a b c : Option Int} (h1 : distLt a b = true)
    (h2 : distLt b c = true) : distLt a c = true := by
  cases a <;> cases b <;> cases c <;> simp_all [distLt] <;> omega

theorem distLt_asymm {a b : Option Int} (h : distLt a b = true) :
    distLt b a = false := by
  cases a <;> cases b <;> simp_all [distLt] <;> omega

/-- a < b together with not (c < b) gives a < c. -/
theorem distLt_lt_of_not_lt {a b c : Option Int} (h1 : distLt a b = true)
    (h2 : distLt c b = false) : distLt a c = true := by
  cases a <;> cases b <;> cases c <;> simp_all [distLt] <;> omega

theorem distLt_none_eq_false_iff (a : Option Int) :
    (distLt a none = false) ↔ a = none := by
  cases a <;> simp [distLt]

/-- Provenance of the scan result: either the accumulator survives or
the result is some scanned node paired with its own distance. -/
theorem selScan_prov (d : DMap) :
    ∀ (uv : List String) (acc : String × Option Int),
      uv.foldl (selStep d) acc = acc ∨
      ((uv.foldl (selStep d) acc).1 ∈ uv ∧
        (uv.foldl (selStep d) acc).2 =
          (alookup d (uv.foldl (selStep d) acc).1).getD none) := by
  intro uv
  induction uv with
  | nil => intro acc; exact Or.inl rfl
  | cons u t ih =>
      intro acc
      rw [List.foldl_cons]
      rcases ih (selStep d acc u) with h | h
      · rw [h]
        unfold selStep
        split
        · exact Or.inr ⟨List.mem_cons_self u t, rfl⟩
        · exact Or.inl rfl
      · exact Or.inr ⟨List.mem_cons_of_mem u h.1, h.2⟩

/-- The scan result is never larger than the accumulator. -/
theorem selScan_le (d : DMap) :
    ∀ (uv : List String) (acc : String × Option Int),
      uv.foldl (selStep d) acc = acc ∨
      distLt (uv.foldl (selStep d) acc).2 acc.2 = true := by
  intro uv
  induction uv with
  | nil => intro acc; exact Or.inl rfl
  | cons u t ih =>
      intro acc
      rw [List.foldl_cons]
      by_cases hlt : distLt ((alookup d u).getD none) acc.2 = true
      · have hstep : selStep d acc u = (u, (alookup d u).getD none) := by
          simp [selStep, hlt]
        rw [hstep]
        rcases ih (u, (alookup d u).getD none) with h | h
        · rw [h]; exact Or.inr hlt
        · exact Or.inr (distLt_trans h hlt)
      · have hstep : selStep d acc u = acc := by
          simp [selStep]
          intro hc
          exact absurd hc hlt
        rw [hstep]
        exact ih acc

/-- Minimality: no scanned node is strictly below the scan result. -/
theorem selScan_min (d : DMap) :
    ∀ (uv : List String) (acc : String × Option Int) (u : String), u ∈ uv →
      distLt ((alookup d u).getD none) (uv.foldl (selStep d) acc).2 = false := by
  intro uv
  induction uv with
  | nil => intro acc u hu; simp at hu
  | cons v t ih =>
      intro acc u hu
      rw [List.foldl_cons]
      rcases List.mem_cons.mp hu with rfl | hu'
      · by_cases hlt : distLt ((alookup d u).getD none) acc.2 = true
        · have hstep : selStep d acc u = (u, (alookup d u).getD none) := by
            simp [selStep, hlt]
          rw [hstep]
          rcases selScan_le d t (u, (alookup d u).getD none) with h | h
          · rw [h]; exact distLt_irrefl _
          · exact distLt_asymm h
        · have hstep : selStep d acc u = acc := by
            simp [selStep]; intro hc; exact absurd hc hlt
          rw [hstep]
          rcases selScan_le d t acc with h | h
          · rw [h]; exact Bool.eq_false_iff.mpr (fun hc => hlt hc)
          · rcases hd : distLt ((alookup d u).getD none) (t.foldl (selStep d) acc).2 with _ | _
            · rfl
            · exact absurd (distLt_trans hd h) (fun hc => hlt hc)
      · exact ih (selStep d acc v) u hu'

/-- If every scanned distance is Infinity, the accumulator survives. -/
theorem selScan_keep (d : DMap) :
    ∀ (uv : List String) (acc : String × Option Int), acc.2 = none →
      (∀ u ∈ uv, (alookup d u).getD none = none) →
      uv.foldl (selStep d) acc = acc := by
  intro uv
  induction uv with
  | nil => intro acc _ _; rfl
  | cons u t ih =>
      intro acc hacc hall
      rw [List.foldl_cons]
      have hstep : selStep d acc u = acc := by
        simp [selStep, hall u (List.mem_cons_self u t), hacc, distLt]
      rw [hstep]
      exact ih acc hacc (fun v hv => hall v (List.mem_cons_of_mem u hv))

/-- If the scan ends at Infinity, every scanned distance was Infinity. -/
theorem selScan_none (d : DMap) :
    ∀ (uv : List String) (acc : String × Option Int),
      (uv.foldl (selStep d) acc).2 = none →
      acc.2 = none ∧ ∀ u ∈ uv, (alookup d u).getD none = none := by
  intro uv
  induction uv with
  | nil => intro acc h; exact ⟨h, by simp⟩
  | cons u t ih =>
      intro acc h
      rw [List.foldl_cons] at h
      by_cases hlt : distLt ((alookup d u).getD none) acc.2 = true
      · have hstep : selStep d acc u = (u, (alookup d u).getD none) := by
          simp [selStep, hlt]
        rw [hstep] at h
        obtain ⟨h1, h2⟩ := ih _ h
        simp at h1
        rw [h1] at hlt
        simp [distLt] at hlt
      · have hstep : selStep d acc u = acc := by
          simp [selStep]; intro hc; exact absurd hc hlt
        rw [hstep] at h
        obtain ⟨h1, h2⟩ := ih _ h
        refine ⟨h1, fun v hv => ?_⟩
        rcases List.mem_cons.mp hv with rfl | hv'
        · rw [h1] at hlt
          exact (distLt_none_eq_false_iff _).mp (Bool.eq_false_iff.mpr hlt)
        · exact h2 v hv'

/-- First-encountered wins: when the scan replaces the accumulator, every
node scanned before the winner has a strictly larger distance. -/
theorem selScan_first (d : DMap) :
    ∀ (uv : List String) (acc : String × Option Int),
      uv.foldl (selStep d) acc = acc ∨
      (∃ pre suf, uv = pre ++ (uv.foldl (selStep d) acc).1 :: suf ∧
        (uv.foldl (selStep d) acc).2 =
          (alookup d (uv.foldl (selStep d) acc).1).getD none ∧
        distLt (uv.foldl (selStep d) acc).2 acc.2 = true ∧
        ∀ p ∈ pre, distLt (uv.foldl (selStep d) acc).2
          ((alookup d p).getD none) = true) := by
  intro uv
  induction uv with
  | nil => intro acc; exact Or.inl rfl
  | cons u t ih =>
      intro acc
      rw [List.foldl_cons]
      by_cases hlt : distLt ((alookup d u).getD none) acc.2 = true
      · have hstep : selStep d acc u = (u, (alookup d u).getD none) := by
          simp [selStep, hlt]
        rw [hstep]
        rcases ih (u, (alookup d u).getD none) with h | ⟨pre, suf, hdec, hres, hres2, hpre⟩
        · refine Or.inr ⟨[], t, ?_, ?_, ?_, ?_⟩
          · rw [h]; rfl
          · rw [h]
          · rw [h]; exact hlt
          · intro p hp; simp at hp

        · refine Or.inr ⟨u :: pre, suf, ?_, hres, ?_, ?_⟩
          · rw [List.cons_append, ← hdec]
          · exact distLt_trans hres2 hlt
          · intro p hp
            rcases List.mem_cons.mp hp with rfl | hp'
            · exact hres2
            · exact hpre p hp'
      · have hstep : selStep d acc u = acc := by
          simp [selStep]; intro hc; exact absurd hc hlt
        rw [hstep]
        rcases ih acc with h | ⟨pre, suf, hdec, hres, hres2, hpre⟩
        · exact Or.inl h
        · refine Or.inr ⟨u :: pre, suf, ?_, hres, hres2, ?_⟩
          · rw [List.cons_append, ← hdec]
          · intro p hp
            rcases List.mem_cons.mp hp with rfl | hp'
            · exact distLt_lt_of_not_lt hres2 (Bool.eq_false_iff.mpr hlt)
            · exact hpre p hp'

/-- C5: each Dijkstra step selects an unvisited node of minimum finite
tentative distance with ties broken by first encountered in iteration
order, the scan finds no node exactly when every unvisited distance is
Infinity — in which case the loop terminates early, leaving the state
unchanged — and on the weighted 4-cycle with shortcut from A the
computed distances are A:0, B:1, C:1, D:2. -/
theorem c5_dijkstra :
    (∀ (d : DMap) (uv : List String) (u : String), u ∈ uv →
      distLt ((alookup d u).getD none) (selectMin d uv).2 = false) ∧
    (∀ (d : DMap) (uv : List String),
      (selectMin d uv).2 = none ↔ ∀ u ∈ uv, (alookup d u).getD none = none) ∧
    (∀ (d : DMap) (uv : List String) (m : Int), (selectMin d uv).2 = some m →
      (selectMin d uv).1 ∈ uv ∧
      (alookup d (selectMin d uv).1).getD none = some m ∧
      ∃ pre suf, uv = pre ++ (selectMin d uv).1 :: suf ∧
        ∀ p ∈ pre, distLt (some m) ((alookup d p).getD none) = true) ∧
    (∀ (g : Graph) (fuel : Nat) (d : DMap) (uv visited order : List String),
      uv ≠ [] → (∀ u ∈ uv, (alookup d u).getD none = none) →
      dijkstraLoop g (fuel + 1) d uv visited order = (d, order)) ∧
    dijkstraRunE dijkstraExampleGraph strA =
      ([("A", some 0), ("B", some 1), ("C", some 1), ("D", some 2)],
       ["A", "B", "C", "D"]) := by
  refine ⟨fun d uv u hu => selScan_min d uv _ u hu, fun d uv => ?_,
    fun d uv m hm => ?_, fun g fuel d uv visited order huv hall => ?_, rfl⟩
  · constructor
    · intro h
      exact (selScan_none d uv _ h).2
    · intro h
      rw [selectMin, selScan_keep d uv _ rfl h]
  · simp only [selectMin] at hm ⊢
    have hne : uv.foldl (selStep d) (emptyS, none) ≠ (emptyS, none) := by
      intro hc
      rw [hc] at hm
      exact Option.noConfusion hm
    obtain ⟨hmem, hval⟩ := (selScan_prov d uv _).resolve_left hne
    refine ⟨hmem, by rw [← hval, hm], ?_⟩
    obtain ⟨pre, suf, hdec, hres, _, hpre⟩ :=
      (selScan_first d uv _).resolve_left hne
    exact ⟨pre, suf, hdec, fun p hp => by rw [← hm]; exact hpre p hp⟩
  · have hsel : selectMin d uv = (emptyS, none) :=
      selScan_keep d uv _ rfl hall
    match uv, huv with
    | u :: t, _ =>
        show dijkstraLoop g (fuel + 1) d (u :: t) visited order = (d, order)
        rw [dijkstraLoop]
        simp [hsel]

/-- C5 witness: minimality of the scan applied on the example's initial
distance table. -/
theorem c5_dijkstra_witness :
    distLt ((alookup (dijkstraInit dijkstraExampleGraph strA) strA).getD none)
      (selectMin (dijkstraInit dijkstraExampleGraph strA)
        ["A", "B", "C", "D"]).2 = false :=
  c5_dijkstra.1 (dijkstraInit dijkstraExampleGraph strA)
    ["A", "B", "C", "D"] strA (by decide)

/-! ## C6 — Bellman-Ford negative-cycle detection -/

/-- Once the update flag of the per-node relaxation is set it stays. -/
theorem bfEdgeFold_mono (frm : String) :
    ∀ (nbrs : List (String × Int)) (s : DMap × Bool), s.2 = true →
      (nbrs.foldl (bfEdgeStep frm) s).2 = true := by
  intro nbrs
  induction nbrs with
  | nil => intro s h; exact h
  | cons p t ih =>
      intro s h
      rw [List.foldl_cons]
      refine ih _ ?_
      rcases hd : (alookup s.1 frm).getD none with _ | df
      · simpa [bfEdgeStep, hd] using h
      · rcases ht : alookup s.1 p.1 with _ | dt
        · simpa [bfEdgeStep, hd, ht] using h
        · by_cases hlt : distLt (some (df + p.2)) dt = true
          · simp [bfEdgeStep, hd, ht, hlt]
          · simpa [bfEdgeStep, hd, ht, hlt] using h

/-- If the per-node relaxation reports no update, it changed nothing and
the incoming flag was already false. -/
theorem bfEdgeFold_no_update (frm : String) :
    ∀ (nbrs : List (String × Int)) (s : DMap × Bool),
      (nbrs.foldl (bfEdgeStep frm) s).2 = false →
      (nbrs.foldl (bfEdgeStep frm) s).1 = s.1 ∧ s.2 = false := by
  intro nbrs
  induction nbrs with
  | nil => intro s h; exact ⟨rfl, h⟩
  | cons p t ih =>
      intro s h
      rw [List.foldl_cons] at h ⊢
      rcases hd : (alookup s.1 frm).getD none with _ | df
      · have hs : bfEdgeStep frm s p = s := by simp [bfEdgeStep, hd]
        rw [hs] at h ⊢
        exact ih s h
      · rcases ht : alookup s.1 p.1 with _ | dt
        · have hs : bfEdgeStep frm s p = s := by simp [bfEdgeStep, hd, ht]
          rw [hs] at h ⊢
          exact ih s h
        · by_cases hlt : distLt (some (df + p.2)) dt = true
          · exfalso
            have hs : bfEdgeStep frm s p =
                (aInsert s.1 p.1 (some (df + p.2)), true) := by
              simp [bfEdgeStep, hd, ht, hlt]
            rw [hs] at h
            rw [bfEdgeFold_mono frm t _ rfl] at h
            exact Bool.noConfusion h
          · have hs : bfEdgeStep frm s p = s := by
              simp [bfEdgeStep, hd, ht, hlt]
            rw [hs] at h ⊢
            exact ih s h

theorem bfProcessNode_no_update (g : Graph) (s : DMap × List String × Bool)
    (frm : String) (h : (bfProcessNode g s frm).2.2 = false) :
    (bfProcessNode g s frm).1 = s.1 ∧ s.2.2 = false := by
  unfold bfProcessNode at h ⊢
  by_cases hg : ((alookup g frm).isSome &&
      ((alookup s.1 frm).getD none).isSome) = true
  · rw [if_pos hg] at h ⊢
    have := bfEdgeFold_no_update frm ((alookup g frm).getD []) (s.1, s.2.2)
      (by simpa [bfRelaxFrom] using h)
    simpa [bfRelaxFrom] using this
  · rw [if_neg hg] at h ⊢
    exact ⟨rfl, h⟩

/-- A round that reports no relaxation left the distance table alone. -/
theorem bfRound_no_update (g : Graph) (ids : List String) :
    ∀ (s : DMap × List String × Bool),
      (ids.foldl (bfProcessNode g) s).2.2 = false →
      (ids.foldl (bfProcessNode g) s).1 = s.1 ∧ s.2.2 = false := by
  induction ids with
  | nil => intro s h; exact ⟨rfl, h⟩
  | cons frm t ih =>
      intro s h
      rw [List.foldl_cons] at h ⊢
      obtain ⟨h1, h2⟩ := ih (bfProcessNode g s frm) h
      obtain ⟨h3, h4⟩ := bfProcessNode_no_update g s frm h2
      exact ⟨h1.trans h3, h4⟩

/-- C6: the run reports a negative cycle exactly when, under the final
distance table, some edge out of a reached node would still relax in one
more pass; a relaxation round that makes no update leaves the distance
table unchanged (justifying the early exit); and on the negative 3-cycle
from A the run reports a negative cycle while the nonnegative example
completes normally. -/
theorem c6_bellman_ford :
    (∀ (g : Graph) (s : String),
      (bellmanFordE g s).2.2 = true ↔
      ∃ frm ∈ g.map (fun p => p.1), ∃ e ∈ (alookup g frm).getD [],
        ∃ df : Int, alookup (bellmanFordE g s).1 frm = some (some df) ∧
          (alookup (bellmanFordE g s).1 e.1 = some none ∨
           ∃ dt : Int, alookup (bellmanFordE g s).1 e.1 = some (some dt) ∧
             df + e.2 < dt)) ∧
    (∀ (g : Graph) (ids : List String) (d : DMap) (o : List String),
      (bfRound g ids d o).2.2 = false → (bfRound g ids d o).1 = d) ∧
    (bellmanFordE negCycleGraph strA).2.2 = true ∧
    (bellmanFordE dijkstraExampleGraph strA).2.2 = false := by
  refine ⟨fun g s => ?_, fun g ids d o h => (bfRound_no_update g ids _ h).1,
    rfl, rfl⟩
  have hd : (bellmanFordE g s).2.2 =
      bfCheck g (g.map (fun p => p.1)) (bellmanFordE g s).1 := rfl
  rw [hd]
  unfold bfCheck
  rw [List.any_eq_true]
  constructor
  · rintro ⟨frm, hfrm, hb⟩
    rw [Bool.and_eq_true, Bool.and_eq_true, List.any_eq_true] at hb
    obtain ⟨⟨hg, hdf⟩, e, he, hw⟩ := hb
    refine ⟨frm, hfrm, e, he, ?_⟩
    unfold wouldRelax at hw
    rcases hlf : (alookup (bellmanFordE g s).1 frm).getD none with _ | df
    · rw [hlf] at hw; exact Bool.noConfusion hw
    · have hlf' : alookup (bellmanFordE g s).1 frm = some (some df) := by
        rcases hq : alookup (bellmanFordE g s).1 frm with _ | v
        · rw [hq] at hlf; simp at hlf
        · rw [hq] at hlf; simp at hlf; rw [hlf]
      refine ⟨df, hlf', ?_⟩
      rw [hlf] at hw
      rcases ht : alookup (bellmanFordE g s).1 e.1 with _ | dt
      · rw [ht] at hw; exact Bool.noConfusion hw
      · rcases dt with _ | dtv
        · exact Or.inl rfl
        · rw [ht] at hw
          simp only [distLt, decide_eq_true_eq] at hw
          exact Or.inr ⟨dtv, rfl, hw⟩
  · rintro ⟨frm, hfrm, e, he, df, hdf, hrest⟩
    refine ⟨frm, hfrm, ?_⟩
    rw [Bool.and_eq_true, Bool.and_eq_true, List.any_eq_true]
    have hg : (alookup g frm).isSome = true := by
      rcases hq : alookup g frm with _ | v
      · rw [hq] at he; simp at he
      · rfl
    refine ⟨⟨hg, by rw [hdf]; rfl⟩, e, he, ?_⟩
    unfold wouldRelax
    rw [hdf]
    rcases hrest with ht | ⟨dt, ht, hlt⟩
    · rw [ht]; rfl
    · rw [ht]
      simp [distLt, hlt]

/-- C6 witness: the no-update property applied to a converged round on
the nonnegative example. -/
theorem c6_bellman_ford_witness :
    (bfRound dijkstraExampleGraph ["A", "B", "C", "D"]
      (bellmanFordE dijkstraExampleGraph strA).1 []).1 =
    (bellmanFordE dijkstraExampleGraph strA).1 :=
  c6_bellman_ford.2.1 dijkstraExampleGraph ["A", "B", "C", "D"]
    (bellmanFordE dijkstraExampleGraph strA).1 [] (by decide)

/-! ## Positional list toolkit -/

theorem getE_set_self (arr : List Elem) (i : Nat) (e : Elem)
    (h : i < arr.length) : getE (arr.set i e) i = e := by
  show ((arr.set i e).get? i).getD dElem = e
  rw [List.get?_set_eq_of_lt e h]
  rfl

theorem getE_set_ne (arr : List Elem) (i j : Nat) (e : Elem) (h : i ≠ j) :
    getE (arr.set i e) j = getE arr j := by
  show ((arr.set i e).get? j).getD dElem = (arr.get? j).getD dElem
  rw [List.get?_set_ne e arr h]

theorem set_getD_self {α : Type} (l : List α) (i : Nat) (d : α) :
    l.set i (l.getD i d) = l := by
  induction l generalizing i with
  | nil => rfl
  | cons a t ih =>
      cases i with
      | zero => rfl
      | succ k =>
          show a :: t.set k (t.getD k d) = a :: t
          rw [ih k]

theorem set_getE_self (arr : List Elem) (i : Nat) :
    arr.set i (getE arr i) = arr := set_getD_self arr i dElem

theorem length_swapE (arr : List Elem) (a b : Nat) :
    (swapE arr a b).length = arr.length := by
  simp [swapE]

theorem vals_getD (arr : List Elem) (i : Nat) :
    (getE arr i).value = (vals arr).getD i 0 := by
  induction arr generalizing i with
  | nil => rfl
  | cons a t ih =>
      cases i with
      | zero => rfl
      | succ k => simpa [getE, vals, List.getD] using ih k

theorem vals_set (arr : List Elem) (i : Nat) (e : Elem) :
    vals (arr.set i e) = (vals arr).set i e.value := List.map_set ..

theorem vals_set_value (arr : List Elem) (i : Nat) (e : Elem)
    (h : e.value = (getE arr i).value) : vals (arr.set i e) = vals arr := by
  rw [vals_set, h, vals_getD, set_getD_self]

theorem vals_setCmp (arr : List Elem) (i : Nat) (b : Bool) :
    vals (setCmp arr i b) = vals arr :=
  vals_set_value arr i _ rfl

theorem vals_setSwp (arr : List Elem) (i : Nat) (b : Bool) :
    vals (setSwp arr i b) = vals arr :=
  vals_set_value arr i _ rfl

theorem vals_setSrt (arr : List Elem) (i : Nat) :
    vals (setSrt arr i) = vals arr :=
  vals_set_value arr i _ rfl

theorem length_vals (arr : List Elem) : (vals arr).length = arr.length :=
  List.length_map ..

/-! ## Bubble sort: bridge to the pure pass and correctness -/

theorem bubbleInner_none (m : Nat) :
    ∀ (pre cur : List Elem) (st : SortSt),
      (bubbleInner none m pre cur st).1 = pre.reverse ++ bpassE m cur ∧
      (bubbleInner none m pre cur st).2.2 = false := by
  induction m with
  | zero => intro pre cur st; exact ⟨rfl, rfl⟩
  | succ m ih =>
      intro pre cur st
      match cur with
      | [] => exact ⟨rfl, rfl⟩
      | [a] => exact ⟨rfl, rfl⟩
      | a :: b :: t =>
          rw [bubbleInner, bpassE]
          simp only [readFlag, flagAt, Bool.not_true, if_false]
          by_cases hab : a.value > b.value
          · simp only [hab, if_pos, clearTrans]
            refine ⟨((ih _ _ _).1).trans ?_, (ih _ _ _).2⟩
            simp [clearTrans, List.append_assoc]
          · simp only [hab, if_neg, not_false_iff, clearTrans]
            refine ⟨((ih _ _ _).1).trans ?_, (ih _ _ _).2⟩
            simp [clearTrans, List.append_assoc]

/-! ### Value-level facts about the bubble pass -/

theorem getD_eq_get {α : Type} (l : List α) (d : α) (k : Nat)
    (h : k < l.length) : l.getD k d = l.get ⟨k, h⟩ := by
  simp [List.getD, List.getElem?_eq_getElem, h]

theorem drop_eq_getD_cons (l : List Int) (k : Nat) (h : k < l.length) :
    l.drop k = l.getD k 0 :: l.drop (k + 1) := by
  rw [getD_eq_get l 0 k h]
  exact List.drop_eq_get_cons h

theorem getD_mem (l : List Int) (k : Nat) (h : k < l.length) :
    l.getD k 0 ∈ l := by
  rw [getD_eq_get l 0 k h]
  exact l.get_mem _ _

theorem getD_mem_take (l : List Int) (k j : Nat) (h1 : k < j)
    (h2 : k < l.length) : l.getD k 0 ∈ l.take j := by
  have hlen : k < (l.take j).length := by
    rw [List.length_take]
    exact lt_min h1 h2
  have : (l.take j).getD k 0 = l.getD k 0 := by
    rw [getD_eq_get _ 0 k hlen, getD_eq_get l 0 k h2]
    simp [List.get_take]
  rw [← this]
  exact getD_mem _ k hlen

theorem mem_take_mono (l : List Int) (j k : Nat) (h : j ≤ k) (x : Int)
    (hx : x ∈ l.take j) : x ∈ l.take k := by
  have : (l.take k).take j = l.take j := by
    rw [List.take_take, Nat.min_eq_left h]
  rw [← this] at hx
  exact List.mem_of_mem_take hx

theorem take_perm_of_perm (l l' : List Int) (k : Nat) (h : l'.Perm l)
    (hd : l'.drop k = l.drop k) : (l'.take k).Perm (l.take k) := by
  have h1 : l'.take k ++ l'.drop k = l' := List.take_append_drop k l'
  have h2 : l.take k ++ l.drop k = l := List.take_append_drop k l
  have h3 : l'.take k ++ l.drop k = l' := by rw [← hd]; exact h1
  have : (l'.take k ++ l.drop k).Perm (l.take k ++ l.drop k) := by
    rw [h3, h2]
    exact h
  exact (List.perm_append_right_iff _).mp this

theorem vals_bpassE (m : Nat) :
    ∀ cur : List Elem, vals (bpassE m cur) = bpassV m (vals cur) := by
  induction m with
  | zero => intro cur; rfl
  | succ m ih =>
      intro cur
      match cur with
      | [] => rfl
      | [a] => rfl
      | a :: b :: t =>
          show vals (bpassE (m + 1) (a :: b :: t)) =
            bpassV (m + 1) (a.value :: b.value :: vals t)
          rw [bpassE, bpassV]
          by_cases hab : a.value > b.value
          · rw [if_pos hab, if_pos hab]
            show vals (clearTrans b :: bpassE m (clearTrans a :: t)) =
              b.value :: bpassV m (a.value :: vals t)
            rw [show a.value :: vals t = vals (clearTrans a :: t) from by
              simp [vals, clearTrans]]
            rw [← ih (clearTrans a :: t)]
            simp [vals, clearTrans]
          · rw [if_neg hab, if_neg hab]
            show vals (clearTrans a :: bpassE m (clearTrans b :: t)) =
              a.value :: bpassV m (b.value :: vals t)
            rw [show b.value :: vals t = vals (clearTrans b :: t) from by
              simp [vals, clearTrans]]
            rw [← ih (clearTrans b :: t)]
            simp [vals, clearTrans]

theorem bpassV_len (m : Nat) :
    ∀ l : List Int, (bpassV m l).length = l.length := by
  induction m with
  | zero => intro l; rfl
  | succ m ih =>
      intro l
      match l with
      | [] => rfl
      | [a] => rfl
      | a :: b :: t =>
          rw [bpassV]
          by_cases hab : a > b
          · rw [if_pos hab]
            simpa using ih (a :: t)
          · rw [if_neg hab]
            simpa using ih (b :: t)

theorem bpassV_perm (m : Nat) : ∀ l : List Int, (bpassV m l).Perm l := by
  induction m with
  | zero => intro l; exact List.Perm.refl l
  | succ m ih =>
      intro l
      match l with
      | [] => exact List.Perm.refl _
      | [a] => exact List.Perm.refl _
      | a :: b :: t =>
          rw [bpassV]
          by_cases hab : a > b
          · rw [if_pos hab]
            exact ((ih (a :: t)).cons b).trans (List.Perm.swap a b t)
          · rw [if_neg hab]
            exact (ih (b :: t)).cons a
  
theorem bpassV_drop (m : Nat) :
    ∀ l : List Int, (bpassV m l).drop (m + 1) = l.drop (m + 1) := by
  induction m with
  | zero => intro l; cases l <;> rfl
  | succ m ih =>
      intro l
      match l with
      | [] => rfl
      | [a] => rfl
      | a :: b :: t =>
          rw [bpassV]
          by_cases hab : a > b
          · rw [if_pos hab]
            show (bpassV m (a :: t)).drop (m + 1) = (a :: b :: t).drop (m + 2)
            rw [ih (a :: t)]
            rfl
          · rw [if_neg hab]
            show (bpassV m (b :: t)).drop (m + 1) = (a :: b :: t).drop (m + 2)
            rw [ih (b :: t)]
            rfl

theorem bpassV_max (m : Nat) :
    ∀ l : List Int, m < l.length →
      ∀ x ∈ l.take (m + 1), x ≤ (bpassV m l).getD m 0 := by
  induction m with
  | zero =>
      intro l hm x hx
      match l, hm with
      | a :: t, _ =>
          simp only [List.take, List.take_zero] at hx
          simp at hx
          subst hx
          rfl
  | succ m ih =>
      intro l hm x hx
      match l, hm with
      | [a], hm => simp at hm
      | a :: b :: t, hm =>
          rw [bpassV]
          by_cases hab : a > b
          · rw [if_pos hab]
            show x ≤ (b :: bpassV m (a :: t)).getD (m + 1) 0
            rw [List.getD_cons_succ]
            have hlen : m < (a :: t).length := by
              simp at hm ⊢
              omega
            simp only [List.take, List.mem_cons] at hx
            have hmem := ih (a :: t) hlen
            rcases hx with rfl | hx
            · exact hmem x (by simp)
            · rcases hx with rfl | hx
              · exact le_trans (le_of_lt hab) (hmem a (by simp))
              · exact hmem x (by
                  rw [show (a :: t).take (m + 1) = a :: t.take m from rfl]
                  exact List.mem_cons_of_mem a hx)
          · rw [if_neg hab]
            show x ≤ (a :: bpassV m (b :: t)).getD (m + 1) 0
            rw [List.getD_cons_succ]
            have hlen : m < (b :: t).length := by
              simp at hm ⊢
              omega
            simp only [List.take, List.mem_cons] at hx
            have hmem := ih (b :: t) hlen
            rcases hx with rfl | hx
            · exact le_trans (le_of_not_lt hab) (hmem b (by simp))
            · rcases hx with rfl | hx
              · exact hmem x (by simp)
              · exact hmem x (by
                  rw [show (b :: t).take (m + 1) = b :: t.take m from rfl]
                  exact List.mem_cons_of_mem b hx)

/-! ### Bubble sort outer loop -/

theorem bubbleOuter_none :
    ∀ (m : Nat) (arr : List Elem) (st : SortSt),
      m < arr.length →
      SortedV ((vals arr).drop (m + 1)) →
      (∀ x ∈ (vals arr).take (m + 1), ∀ y ∈ (vals arr).drop (m + 1), x ≤ y) →
      (bubbleOuter none m arr st).2.2 = false ∧
      (vals (bubbleOuter none m arr st).1).Perm (vals arr) ∧
      (vals (bubbleOuter none m arr st).1).length = (vals arr).length ∧
      SortedV ((vals (bubbleOuter none m arr st).1).drop 1) ∧
      (∀ x ∈ (vals (bubbleOuter none m arr st).1).take 1,
       ∀ y ∈ (vals (bubbleOuter none m arr st).1).drop 1, x ≤ y) := by
  intro m
  induction m with
  | zero =>
      intro arr st hlen hsort hle
      exact ⟨rfl, List.Perm.refl _, rfl, hsort, hle⟩
  | succ m ih =>
      intro arr st hlen hsort hle
      have hbr := bubbleInner_none (m + 1) [] arr st
      rw [show bubbleOuter none (m + 1) arr st =
          bubbleOuter none m (setSrt (bubbleInner none (m + 1) [] arr st).1 (m + 1))
            (publish (setSrt (bubbleInner none (m + 1) [] arr st).1 (m + 1))
              (bubbleInner none (m + 1) [] arr st).2.1) from by
        rw [bubbleOuter]
        simp [hbr.2]]
      set v := vals arr with hv
      have hva : vals (setSrt (bubbleInner none (m + 1) [] arr st).1 (m + 1)) =
          bpassV (m + 1) v := by
        rw [vals_setSrt, hbr.1]
        show vals (bpassE (m + 1) arr) = _
        rw [vals_bpassE]
      set v' := bpassV (m + 1) v with hv'
      have hvlen : v.length = arr.length := length_vals arr
      have hlen' : v'.length = v.length := bpassV_len (m + 1) v
      have hperm : v'.Perm v := bpassV_perm (m + 1) v
      have hdropeq : v'.drop (m + 2) = v.drop (m + 2) := bpassV_drop (m + 1) v
      have htakeperm : (v'.take (m + 2)).Perm (v.take (m + 2)) :=
        take_perm_of_perm v v' (m + 2) hperm hdropeq
      have hm2 : m + 1 < v.length := by rw [hvlen]; exact hlen
      have hm2' : m + 1 < v'.length := by rw [hlen']; exact hm2
      have hbound : ∀ x ∈ v.take (m + 2), x ≤ v'.getD (m + 1) 0 :=
        bpassV_max (m + 1) v hm2
      have hheadmem : v'.getD (m + 1) 0 ∈ v.take (m + 2) :=
        htakeperm.mem_iff.mp (getD_mem_take v' (m + 1) (m + 2) (by omega) hm2')
      have hsort' : SortedV (v'.drop (m + 1)) := by
        rw [drop_eq_getD_cons v' (m + 1) hm2', show v'.drop (m + 2) = v.drop (m + 2) from hdropeq]
        rw [show SortedV (v'.getD (m + 1) 0 :: v.drop (m + 2)) =
          List.Sorted (fun a b => a ≤ b) (v'.getD (m + 1) 0 :: v.drop (m + 2)) from rfl]
        rw [List.sorted_cons]
        exact ⟨fun y hy => hle _ hheadmem y hy, hsort⟩
      have hle' : ∀ x ∈ v'.take (m + 1), ∀ y ∈ v'.drop (m + 1), x ≤ y := by
        intro x hx y hy
        have hx2 : x ∈ v.take (m + 2) :=
          htakeperm.mem_iff.mp (mem_take_mono v' (m + 1) (m + 2) (by omega) x hx)
        rw [drop_eq_getD_cons v' (m + 1) hm2', hdropeq] at hy
        rcases List.mem_cons.mp hy with rfl | hy'
        · exact hbound x hx2
        · exact hle x hx2 y hy'
      have harr1len : m < (setSrt (bubbleInner none (m + 1) [] arr st).1 (m + 1)).length := by
        have : (vals (setSrt (bubbleInner none (m + 1) [] arr st).1 (m + 1))).length =
            (setSrt (bubbleInner none (m + 1) [] arr st).1 (m + 1)).length :=
          length_vals _
        rw [← this, hva, hlen', hvlen]
        omega
      obtain ⟨c1, c2, c3, c4, c5⟩ := ih (setSrt (bubbleInner none (m + 1) [] arr st).1 (m + 1))
        (publish (setSrt (bubbleInner none (m + 1) [] arr st).1 (m + 1))
          (bubbleInner none (m + 1) [] arr st).2.1)
        harr1len (by rw [hva]; exact hsort') (by rw [hva]; exact hle')
      rw [hva] at c2 c3
      refine ⟨c1, c2.trans hperm, ?_, c4, c5⟩
      rw [c3]
      omega

/-- Bubble sort with the run flag true throughout sorts the values and
permutes them. -/
theorem bubble_sorted_perm (l : List Elem) :
    SortedV (vals (bubbleRun l).1) ∧ (vals (bubbleRun l).1).Perm (vals l) := by
  match l with
  | [] => exact ⟨List.sorted_nil, List.Perm.refl _⟩
  | a :: rest =>
      have hlen : (a :: rest).length - 1 < (a :: rest).length := by simp
      have hdrop : ((vals (a :: rest)).drop ((a :: rest).length - 1 + 1)) = [] := by
        apply List.drop_eq_nil_of_le
        rw [length_vals]
        omega
      obtain ⟨c1, c2, c3, c4, c5⟩ := bubbleOuter_none ((a :: rest).length - 1)
        (a :: rest) st0 hlen (by rw [hdrop]; exact List.sorted_nil)
        (by intro x hx y hy; rw [hdrop] at hy; exact absurd hy (List.not_mem_nil y))
      rw [show bubbleRun (a :: rest) =
          (setSrt (bubbleOuter none ((a :: rest).length - 1) (a :: rest) st0).1 0,
           publish (setSrt (bubbleOuter none ((a :: rest).length - 1) (a :: rest) st0).1 0)
             (bubbleOuter none ((a :: rest).length - 1) (a :: rest) st0).2.1) from by
        rw [bubbleRun, bubbleSortE]
        have c1' : (bubbleOuter none rest.length (a :: rest) st0).2.2 = false := by
          simpa using c1
        simp [c1']]
      have hv : vals (setSrt (bubbleOuter none ((a :: rest).length - 1) (a :: rest) st0).1 0) =
          vals (bubbleOuter none ((a :: rest).length - 1) (a :: rest) st0).1 :=
        vals_setSrt _ 0
      refine ⟨?_, by rw [hv]; exact c2⟩
      rw [hv]
      set w := vals (bubbleOuter none ((a :: rest).length - 1) (a :: rest) st0).1 with hw
      have hwlen : 0 < w.length := by
        rw [c3, length_vals]
        simp
      rw [show w = w.getD 0 0 :: w.drop 1 from by
        rw [← drop_eq_getD_cons w 0 hwlen]
        rfl]
      rw [show SortedV (w.getD 0 0 :: w.drop 1) =
        List.Sorted (fun a b => a ≤ b) (w.getD 0 0 :: w.drop 1) from rfl]
      rw [List.sorted_cons]
      refine ⟨fun y hy => c5 _ (getD_mem_take w 0 1 (by omega) hwlen) y hy, c4⟩

/-! ## Merge sort: slice toolkit -/

theorem vals_map_clearSwp (l : List Elem) : vals (l.map clearSwp) = vals l := by
  simp [vals, List.map_map, clearSwp]

theorem vals_map_setSorted (l : List Elem) :
    vals (l.map (fun e => { e with isSorted := true })) = vals l := by
  simp [vals, List.map_map]

theorem vals_sliceE (arr : List Elem) (a b : Nat) :
    vals (sliceE arr a b) = sliceV (vals arr) a b := by
  simp [sliceE, sliceV, vals, List.map_take, List.map_drop]

theorem vals_assembleAt (arr : List Elem) (left : Nat) (done : List Elem) :
    vals (assembleAt arr left done) =
      (vals arr).take left ++ vals done ++ (vals arr).drop (left + done.length) := by
  simp [assembleAt, vals, List.map_append, List.map_take, List.map_drop]

theorem sliceV_eq_drop_of_take (v : List Int) (a b : Nat) :
    sliceV v a b = (v.take b).drop a := by
  rw [sliceV, List.drop_take]

theorem sliceV_congr_take (v w : List Int) (a b : Nat)
    (h : v.take b = w.take b) : sliceV v a b = sliceV w a b := by
  rw [sliceV_eq_drop_of_take, sliceV_eq_drop_of_take, h]

theorem sliceV_len (v : List Int) (a b : Nat) (hb : b ≤ v.length)
    (hab : a ≤ b) : (sliceV v a b).length = b - a := by
  rw [sliceV, List.length_take, List.length_drop]
  omega

theorem sliceV_append (v : List Int) (a b c : Nat) (hab : a ≤ b)
    (hbc : b ≤ c) : sliceV v a b ++ sliceV v b c = sliceV v a c := by
  have hdrop : v.drop b = (v.drop a).drop (b - a) := by
    rw [List.drop_drop]
    congr 1
    omega
  rw [sliceV, sliceV, sliceV, hdrop, ← List.take_add]
  congr 1
  omega

theorem sorted_of_len_le_one (l : List Int) (h : l.length ≤ 1) : SortedV l := by
  match l with
  | [] => exact List.sorted_nil
  | [a] => exact List.sorted_singleton a
  | a :: b :: t => simp at h

theorem take_congr_le (v w : List Int) (k m : Nat) (hk : k ≤ m)
    (h : v.take m = w.take m) : v.take k = w.take k := by
  rw [show v.take k = (v.take m).take k from by
      rw [List.take_take, Nat.min_eq_left hk], h,
    List.take_take, Nat.min_eq_left hk]

theorem drop_congr_le (v w : List Int) (k m : Nat) (hk : m ≤ k)
    (h : v.drop m = w.drop m) : v.drop k = w.drop k := by
  rw [show v.drop k = (v.drop m).drop (k - m) from by
      rw [List.drop_drop]; congr 1; omega, h,
    List.drop_drop]
  congr 1
  omega

/-! ## Merge sort: the pure merge is a sorted permutation -/

theorem vals_cons (e : Elem) (l : List Elem) :
    vals (e :: l) = e.value :: vals l := rfl

theorem sortedV_cons (x : Int) (l : List Int) :
    SortedV (x :: l) ↔ (∀ y ∈ l, x ≤ y) ∧ SortedV l := List.sorted_cons

theorem mwork_zero (ls rs : List Elem) : mwork 0 ls rs = ([], ls, rs) := rfl

theorem mwork_nil_left (f : Nat) (rs : List Elem) :
    mwork (f + 1) [] rs = ([], [], rs) := rfl

theorem mwork_nil_right (f : Nat) (a : Elem) (ls : List Elem) :
    mwork (f + 1) (a :: ls) [] = ([], a :: ls, []) := rfl

theorem mwork_cons_le (f : Nat) (a b : Elem) (ls rs : List Elem)
    (h : a.value ≤ b.value) :
    mwork (f + 1) (a :: ls) (b :: rs) =
      (clearTrans a :: (mwork f ls (b :: rs)).1, (mwork f ls (b :: rs)).2) := by
  rw [mwork, if_pos h]

theorem mwork_cons_gt (f : Nat) (a b : Elem) (ls rs : List Elem)
    (h : ¬a.value ≤ b.value) :
    mwork (f + 1) (a :: ls) (b :: rs) =
      (clearTrans b :: (mwork f (a :: ls) rs).1, (mwork f (a :: ls) rs).2) := by
  rw [mwork, if_neg h]

theorem mcomb_zero (ls rs : List Elem) :
    mcomb 0 ls rs = ls.map clearSwp ++ rs.map clearSwp := by
  simp [mcomb, mwork_zero]

theorem mcomb_nil_left (f : Nat) (rs : List Elem) :
    mcomb (f + 1) [] rs = rs.map clearSwp := by
  simp [mcomb, mwork_nil_left]

theorem mcomb_nil_right (f : Nat) (a : Elem) (ls : List Elem) :
    mcomb (f + 1) (a :: ls) [] = (a :: ls).map clearSwp := by
  simp [mcomb, mwork_nil_right]

theorem mcomb_cons_le (f : Nat) (a b : Elem) (ls rs : List Elem)
    (h : a.value ≤ b.value) :
    mcomb (f + 1) (a :: ls) (b :: rs) = clearTrans a :: mcomb f ls (b :: rs) := by
  simp [mcomb, mwork_cons_le f a b ls rs h]

theorem mcomb_cons_gt (f : Nat) (a b : Elem) (ls rs : List Elem)
    (h : ¬a.value ≤ b.value) :
    mcomb (f + 1) (a :: ls) (b :: rs) = clearTrans b :: mcomb f (a :: ls) rs := by
  simp [mcomb, mwork_cons_gt f a b ls rs h]

theorem value_comp_clearSwp :
    ((fun e => e.value) ∘ clearSwp) = (fun e : Elem => e.value) := by
  funext e
  rfl

theorem vals_map_clearSwp_append (la ra : List Elem) :
    vals (la.map clearSwp ++ ra.map clearSwp) = vals la ++ vals ra := by
  simp [vals, List.map_map, value_comp_clearSwp]

theorem mcomb_perm (f : Nat) :
    ∀ (la ra : List Elem), (vals (mcomb f la ra)).Perm (vals la ++ vals ra) := by
  induction f with
  | zero =>
      intro la ra
      rw [mcomb_zero, vals_map_clearSwp_append]
  | succ f ih =>
      intro la ra
      match la, ra with
      | [], rs =>
          rw [mcomb_nil_left, vals_map_clearSwp]
          exact List.Perm.refl _
      | a :: ls, [] =>
          rw [mcomb_nil_right, vals_map_clearSwp,
            show vals ([] : List Elem) = [] from rfl, List.append_nil]
      | a :: ls, b :: rs =>
          by_cases hab : a.value ≤ b.value
          · rw [mcomb_cons_le f a b ls rs hab,
              show vals (clearTrans a :: mcomb f ls (b :: rs)) =
                a.value :: vals (mcomb f ls (b :: rs)) from rfl]
            exact (ih ls (b :: rs)).cons a.value
          · rw [mcomb_cons_gt f a b ls rs hab,
              show vals (clearTrans b :: mcomb f (a :: ls) rs) =
                b.value :: vals (mcomb f (a :: ls) rs) from rfl]
            refine ((ih (a :: ls) rs).cons b.value).trans ?_
            exact (List.perm_middle).symm

theorem mcomb_sorted (f : Nat) :
    ∀ (la ra : List Elem), la.length + ra.length ≤ f →
      SortedV (vals la) → SortedV (vals ra) → SortedV (vals (mcomb f la ra)) := by
  induction f with
  | zero =>
      intro la ra hlen hla hra
      have h1 : la = [] := List.eq_nil_of_length_eq_zero (by omega)
      have h2 : ra = [] := List.eq_nil_of_length_eq_zero (by omega)
      subst h1; subst h2
      rw [mcomb_zero]
      exact List.sorted_nil
  | succ f ih =>
      intro la ra hlen hla hra
      match la, ra with
      | [], rs =>
          rw [mcomb_nil_left, vals_map_clearSwp]
          exact hra
      | a :: ls, [] =>
          rw [mcomb_nil_right, vals_map_clearSwp]
          exact hla
      | a :: ls, b :: rs =>
          rw [vals_cons, sortedV_cons] at hla hra
          by_cases hab : a.value ≤ b.value
          · rw [mcomb_cons_le f a b ls rs hab,
              show vals (clearTrans a :: mcomb f ls (b :: rs)) =
                a.value :: vals (mcomb f ls (b :: rs)) from rfl, sortedV_cons]
            refine ⟨?_, ih ls (b :: rs) (by simp at hlen ⊢; omega) hla.2
              (by rw [vals_cons, sortedV_cons]; exact hra)⟩
            intro y hy
            have hmem := (mcomb_perm f ls (b :: rs)).mem_iff.mp hy
            rcases List.mem_append.mp hmem with h | h
            · exact hla.1 y h
            · rw [vals_cons] at h
              rcases List.mem_cons.mp h with rfl | h
              · exact hab
              · exact le_trans hab (hra.1 y h)
          · rw [mcomb_cons_gt f a b ls rs hab,
              show vals (clearTrans b :: mcomb f (a :: ls) rs) =
                b.value :: vals (mcomb f (a :: ls) rs) from rfl, sortedV_cons]
            have hble : b.value ≤ a.value := le_of_not_le hab
            refine ⟨?_, ih (a :: ls) rs (by simp at hlen ⊢; omega)
              (by rw [vals_cons, sortedV_cons]; exact hla) hra.2⟩
            intro y hy
            have hmem := (mcomb_perm f (a :: ls) rs).mem_iff.mp hy
            rcases List.mem_append.mp hmem with h | h
            · rw [vals_cons] at h
              rcases List.mem_cons.mp h with rfl | h
              · exact hble
              · exact le_trans hble (hla.1 y h)
            · exact hra.1 y h

theorem mergedEl_perm (la ra : List Elem) :
    (vals (mergedEl la ra)).Perm (vals la ++ vals ra) := mcomb_perm _ la ra

theorem mergedEl_sorted (la ra : List Elem) (hla : SortedV (vals la))
    (hra : SortedV (vals ra)) : SortedV (vals (mergedEl la ra)) :=
  mcomb_sorted _ la ra (Nat.le_refl _) hla hra

theorem mergedEl_len (la ra : List Elem) :
    (mergedEl la ra).length = la.length + ra.length := by
  have h := (mergedEl_perm la ra).length_eq
  simp only [vals, List.length_map, List.length_append] at h
  exact h

/-! ## Merge sort: bridges from the embedded loops to the pure merge -/

theorem mergeMain_none (arr : List Elem) (left : Nat) (f : Nat) :
    ∀ (la ra done : List Elem) (st : SortSt),
      (mergeMain none arr left f la ra done st).1 = done ++ (mwork f la ra).1 ∧
      (mergeMain none arr left f la ra done st).2.1 = (mwork f la ra).2.1 ∧
      (mergeMain none arr left f la ra done st).2.2.1 = (mwork f la ra).2.2 ∧
      (mergeMain none arr left f la ra done st).2.2.2.2 = false := by
  induction f with
  | zero => intro la ra done st; exact ⟨by simp [mergeMain, mwork], rfl, rfl, rfl⟩
  | succ f ih =>
      intro la ra done st
      match la, ra with
      | [], rs => exact ⟨by simp [mergeMain, mwork_nil_left], rfl, rfl, rfl⟩
      | a :: ls, [] => exact ⟨by simp [mergeMain, mwork_nil_right], rfl, rfl, rfl⟩
      | a :: ls, b :: rs =>
          rw [mergeMain]
          simp only [readFlag, flagAt, Bool.not_true, if_false]
          by_cases hab : a.value ≤ b.value
          · simp only [hab, if_pos]
            rw [mwork_cons_le f a b ls rs hab]
            obtain ⟨i1, i2, i3, i4⟩ := ih ls (b :: rs)
              (done ++ [{ { a with isSwapped := true } with
                isCompared := false, isSwapped := false }]) _
            refine ⟨i1.trans ?_, i2, i3, i4⟩
            simp [clearTrans]
          · simp only [hab, if_neg, not_false_iff]
            rw [mwork_cons_gt f a b ls rs hab]
            obtain ⟨i1, i2, i3, i4⟩ := ih (a :: ls) rs
              (done ++ [{ { b with isSwapped := true } with
                isCompared := false, isSwapped := false }]) _
            refine ⟨i1.trans ?_, i2, i3, i4⟩
            simp [clearTrans]

theorem mergeTail_none (arr : List Elem) (left : Nat) :
    ∀ (ls done : List Elem) (st : SortSt),
      (mergeTail none arr left ls done st).1 = done ++ ls.map clearSwp ∧
      (mergeTail none arr left ls done st).2.2 = false := by
  intro ls
  induction ls with
  | nil => intro done st; exact ⟨by simp [mergeTail], rfl⟩
  | cons a t ih =>
      intro done st
      rw [mergeTail]
      simp only [readFlag, flagAt, Bool.not_true, if_false]
      obtain ⟨i1, i2⟩ := ih (done ++ [{ { a with isSwapped := true } with
        isSwapped := false }]) _
      refine ⟨i1.trans ?_, i2⟩
      simp [clearSwp]

theorem mergeE_none_arr (arr : List Elem) (left mid right : Nat) (st : SortSt) :
    (mergeE none arr left mid right st).1 =
      (if left == 0 && right == arr.length - 1 then
        (assembleAt arr left (mergedEl (sliceE arr left (mid + 1))
          (sliceE arr (mid + 1) (right + 1)))).map
            (fun e => { e with isSorted := true })
      else assembleAt arr left (mergedEl (sliceE arr left (mid + 1))
        (sliceE arr (mid + 1) (right + 1)))) := by
  rw [mergeE]
  simp only [readFlag, flagAt, Bool.not_true, if_false]
  obtain ⟨m1, m2, m3, m4⟩ := mergeMain_none arr left
    ((sliceE arr left (mid + 1)).length + (sliceE arr (mid + 1) (right + 1)).length)
    (sliceE arr left (mid + 1)) (sliceE arr (mid + 1) (right + 1)) [] _
  rw [m4]
  simp only [Bool.false_eq_true, if_false]
  obtain ⟨t1a, t1b⟩ := mergeTail_none arr left _ _ _
  rw [t1b]
  simp only [Bool.false_eq_true, if_false]
  obtain ⟨t2a, t2b⟩ := mergeTail_none arr left _ _ _
  rw [t2b]
  simp only [Bool.false_eq_true, if_false]
  rw [t2a, t1a, m1, m2, m3]
  simp only [List.nil_append]
  rw [show (mwork ((sliceE arr left (mid + 1)).length +
      (sliceE arr (mid + 1) (right + 1)).length) (sliceE arr left (mid + 1))
      (sliceE arr (mid + 1) (right + 1))).1 ++
      ((mwork _ _ _).2.1).map clearSwp ++ ((mwork _ _ _).2.2).map clearSwp =
    mergedEl (sliceE arr left (mid + 1)) (sliceE arr (mid + 1) (right + 1)) from rfl]
  split <;> rfl

/-! ## Merge sort: full-run correctness -/

theorem take_left_of_len {α : Type} (A B : List α) (k : Nat)
    (h : A.length = k) : (A ++ B).take k = A := by
  rw [← h, List.take_left]

theorem drop_left_of_len {α : Type} (A B : List α) (k : Nat)
    (h : A.length = k) : (A ++ B).drop k = B := by
  rw [← h, List.drop_left]

theorem sliceV_congr_drop (v w : List Int) (a b : Nat)
    (h : v.drop a = w.drop a) : sliceV v a b = sliceV w a b := by
  rw [sliceV, sliceV, h]

theorem mergeSortFuel_none :
    ∀ (f : Nat) (arr : List Elem) (left right : Nat) (st : SortSt),
      right < arr.length → right + 1 - left ≤ f →
      (vals (mergeSortFuel none f arr left right st).1).length = (vals arr).length ∧
      (vals (mergeSortFuel none f arr left right st).1).take left = (vals arr).take left ∧
      (vals (mergeSortFuel none f arr left right st).1).drop (right + 1) =
        (vals arr).drop (right + 1) ∧
      (sliceV (vals (mergeSortFuel none f arr left right st).1) left (right + 1)).Perm
        (sliceV (vals arr) left (right + 1)) ∧
      SortedV (sliceV (vals (mergeSortFuel none f arr left right st).1) left (right + 1)) := by
  intro f
  induction f with
  | zero =>
      intro arr left right st hr hf
      refine ⟨rfl, rfl, rfl, List.Perm.refl _, ?_⟩
      have h0 : right + 1 - left = 0 := by omega
      rw [show mergeSortFuel none 0 arr left right st = (arr, st) from rfl]
      rw [sliceV, h0]
      exact List.sorted_nil
  | succ f ih =>
      intro arr left right st hr hf
      by_cases hlr : left < right
      · have hmidle : left ≤ (left + right) / 2 := by omega
        have hmidlt : (left + right) / 2 < right := by omega
        set mid := (left + right) / 2 with hmid
        have heq : mergeSortFuel none (f + 1) arr left right st =
            mergeE none (mergeSortFuel none f
              (mergeSortFuel none f arr left mid st).1 (mid + 1) right
              (mergeSortFuel none f arr left mid st).2).1 left mid right
              (mergeSortFuel none f
                (mergeSortFuel none f arr left mid st).1 (mid + 1) right
                (mergeSortFuel none f arr left mid st).2).2 := by
          rw [mergeSortFuel]
          simp only [hlr, if_pos, ← hmid]
        obtain ⟨l1, t1, d1, p1, s1⟩ := ih arr left mid st
          (by omega) (by omega)
        set R1 := (mergeSortFuel none f arr left mid st).1 with hR1
        have hR1len : right < R1.length := by
          have := length_vals R1
          have h2 := length_vals arr
          omega
        obtain ⟨l2, t2, d2, p2, s2⟩ := ih R1 (mid + 1) right
          (mergeSortFuel none f arr left mid st).2 hR1len (by omega)
        set R2 := (mergeSortFuel none f R1 (mid + 1) right
          (mergeSortFuel none f arr left mid st).2).1 with hR2
        set w := vals R2 with hwdef
        set v := vals arr with hvdef
        -- lengths
        have hwlen : w.length = v.length := by rw [hwdef, l2, hR1, l1]
        have hnlen : v.length = arr.length := length_vals arr
        have hR2len : R2.length = arr.length := by
          have h9 : w.length = R2.length := length_vals R2
          omega
        -- chained take/drop preservation
        have htakeL : w.take left = v.take left := by
          have ha : w.take left = (vals R1).take left :=
            take_congr_le w (vals R1) left (mid + 1) (by omega) t2
          rw [ha, hR1, t1]
        have hdropR : w.drop (right + 1) = v.drop (right + 1) := by
          have ha : (vals R1).drop (right + 1) = v.drop (right + 1) :=
            drop_congr_le (vals R1) v (right + 1) (mid + 1) (by omega) d1
          rw [d2, hR1] at *
          exact ha
        -- the two sorted slices fed to merge
        set la := sliceE R2 left (mid + 1) with hla
        set ra := sliceE R2 (mid + 1) (right + 1) with hra
        have hvla : vals la = sliceV w left (mid + 1) := vals_sliceE R2 left (mid + 1)
        have hvra : vals ra = sliceV w (mid + 1) (right + 1) :=
          vals_sliceE R2 (mid + 1) (right + 1)
        have hslice1 : sliceV w left (mid + 1) = sliceV (vals R1) left (mid + 1) :=
          sliceV_congr_take w (vals R1) left (mid + 1) t2
        have hlaSorted : SortedV (vals la) := by
          rw [hvla, hslice1]
          exact s1
        have hraSorted : SortedV (vals ra) := by
          rw [hvra]
          exact s2
        have hlaPerm : (vals la).Perm (sliceV v left (mid + 1)) := by
          rw [hvla, hslice1]
          exact p1
        have hraPerm : (vals ra).Perm (sliceV v (mid + 1) (right + 1)) := by
          rw [hvra]
          refine p2.trans ?_
          rw [sliceV_congr_drop (vals R1) v (mid + 1) (right + 1)
            (drop_congr_le (vals R1) v (mid + 1) (mid + 1) (Nat.le_refl _) d1)]
        -- lengths of the slices
        have hlalen : la.length = mid + 1 - left := by
          have := sliceV_len w left (mid + 1) (by omega) (by omega)
          have h2 := length_vals la
          rw [hvla] at h2
          omega
        have hralen : ra.length = right + 1 - (mid + 1) := by
          have := sliceV_len w (mid + 1) (right + 1) (by omega) (by omega)
          have h2 := length_vals ra
          rw [hvra] at h2
          omega
        have hmlen : (mergedEl la ra).length = right + 1 - left := by
          rw [mergedEl_len]
          omega
        -- the merged write-back, value level
        have hvalsfinal : vals (mergeSortFuel none (f + 1) arr left right st).1 =
            w.take left ++ vals (mergedEl la ra) ++ w.drop (right + 1) := by
          rw [heq]
          have hv1 : vals (mergeE none R2 left mid right
              (mergeSortFuel none f R1 (mid + 1) right
                (mergeSortFuel none f arr left mid st).2).2).1 =
              vals (assembleAt R2 left (mergedEl la ra)) := by
            rw [mergeE_none_arr]
            split
            · rw [vals_map_setSorted]
            · rfl
          rw [hv1, vals_assembleAt]
          rw [show left + (mergedEl la ra).length = right + 1 from by omega]
        set M := vals (mergedEl la ra) with hM
        have hMlen : M.length = right + 1 - left := by
          have h9 : M.length = (mergedEl la ra).length := length_vals _
          omega
        have htlen : (w.take left).length = left := by
          rw [List.length_take]
          omega
        -- conclusions
        have hWtake : (w.take left ++ M ++ w.drop (right + 1)).take left = w.take left := by
          rw [List.append_assoc]
          exact take_left_of_len _ _ left htlen
        have hWdrop : (w.take left ++ M ++ w.drop (right + 1)).drop (right + 1) =
            w.drop (right + 1) := by
          refine drop_left_of_len _ _ (right + 1) ?_
          rw [List.length_append, htlen]
          omega
        have hWslice : sliceV (w.take left ++ M ++ w.drop (right + 1)) left (right + 1) = M := by
          rw [sliceV, List.append_assoc, drop_left_of_len _ _ left htlen]
          exact take_left_of_len _ _ _ hMlen
        have hdl : (w.drop (right + 1)).length = w.length - (right + 1) :=
          List.length_drop _ _
        refine ⟨?_, ?_, ?_, ?_, ?_⟩
        · rw [hvalsfinal]
          rw [List.length_append, List.length_append, htlen, hMlen, hdl]
          omega
        · rw [hvalsfinal, hWtake, htakeL]
        · rw [hvalsfinal, hWdrop, hdropR]
        · rw [hvalsfinal, hWslice]
          refine (mergedEl_perm la ra).trans ((hlaPerm.append hraPerm).trans ?_)
          rw [sliceV_append v left (mid + 1) (right + 1) (by omega) (by omega)]
        · rw [hvalsfinal, hWslice]
          exact mergedEl_sorted la ra hlaSorted hraSorted
      · have heq : mergeSortFuel none (f + 1) arr left right st = (arr, st) := by
          rw [mergeSortFuel]
          simp [hlr]
        rw [heq]
        refine ⟨rfl, rfl, rfl, List.Perm.refl _, sorted_of_len_le_one _ ?_⟩
        rw [sliceV, List.length_take]
        have : right + 1 - left ≤ 1 := by omega
        exact le_trans (Nat.min_le_left _ _) this

/-- Merge sort with the run flag true throughout sorts the values and
permutes them. -/
theorem merge_sorted_perm (l : List Elem) :
    SortedV (vals (mergeRun l).1) ∧ (vals (mergeRun l).1).Perm (vals l) := by
  match l with
  | [] => exact ⟨List.sorted_nil, List.Perm.refl _⟩
  | a :: rest =>
      obtain ⟨l1, t1, d1, p1, s1⟩ := mergeSortFuel_none ((a :: rest).length)
        (a :: rest) 0 ((a :: rest).length - 1) st0 (by simp) (by simp)
      have hfull : ∀ u : List Int, u.length = (vals (a :: rest)).length →
          sliceV u 0 ((a :: rest).length - 1 + 1) = u := by
        intro u hu
        rw [sliceV, List.drop_zero, Nat.sub_zero]
        apply List.take_of_length_le
        rw [hu, length_vals]
        simp
      rw [show mergeRun (a :: rest) = mergeSortFuel none ((a :: rest).length)
        (a :: rest) 0 ((a :: rest).length - 1) st0 from rfl] at *
      rw [hfull _ l1] at p1 s1
      rw [hfull (vals (a :: rest)) rfl] at p1
      exact ⟨s1, p1⟩

/-! ## C8 — merge sort structure claims -/

theorem mcomb_unsorted (f : Nat) :
    ∀ (la ra : List Elem), AllUnsorted la → AllUnsorted ra →
      AllUnsorted (mcomb f la ra) := by
  induction f with
  | zero =>
      intro la ra hla hra e he
      rw [mcomb_zero] at he
      rcases List.mem_append.mp he with h | h <;>
        obtain ⟨x, hx, rfl⟩ := List.mem_map.mp h
      · exact hla x hx
      · exact hra x hx
  | succ f ih =>
      intro la ra hla hra e he
      match la, ra with
      | [], rs =>
          rw [mcomb_nil_left] at he
          obtain ⟨x, hx, rfl⟩ := List.mem_map.mp he
          exact hra x hx
      | a :: ls, [] =>
          rw [mcomb_nil_right] at he
          obtain ⟨x, hx, rfl⟩ := List.mem_map.mp he
          exact hla x hx
      | a :: ls, b :: rs =>
          by_cases hab : a.value ≤ b.value
          · rw [mcomb_cons_le f a b ls rs hab] at he
            rcases List.mem_cons.mp he with rfl | he'
            · exact hla a (List.mem_cons_self a ls)
            · exact ih ls (b :: rs) (fun x hx => hla x (List.mem_cons_of_mem a hx))
                hra e he'
          · rw [mcomb_cons_gt f a b ls rs hab] at he
            rcases List.mem_cons.mp he with rfl | he'
            · exact hra b (List.mem_cons_self b rs)
            · exact ih (a :: ls) rs hla
                (fun x hx => hra x (List.mem_cons_of_mem b hx)) e he'

theorem assembleAt_unsorted (arr : List Elem) (left : Nat) (done : List Elem)
    (harr : AllUnsorted arr) (hdone : AllUnsorted done) :
    AllUnsorted (assembleAt arr left done) := by
  intro e he
  rw [assembleAt] at he
  rcases List.mem_append.mp he with h | h
  · rcases List.mem_append.mp h with h2 | h2
    · exact harr e (List.mem_of_mem_take h2)
    · exact hdone e h2
  · exact harr e (List.mem_of_mem_drop h)

theorem sliceE_unsorted (arr : List Elem) (a b : Nat)
    (harr : AllUnsorted arr) : AllUnsorted (sliceE arr a b) := by
  intro e he
  exact harr e (List.mem_of_mem_drop (List.mem_of_mem_take he))

theorem mergeE_no_mark (arr : List Elem) (left mid right : Nat) (st : SortSt)
    (harr : AllUnsorted arr)
    (hcond : (left == 0 && right == arr.length - 1) = false) :
    AllUnsorted (mergeE none arr left mid right st).1 := by
  rw [mergeE_none_arr, hcond]
  simp only [Bool.false_eq_true, if_false]
  exact assembleAt_unsorted arr left _ harr
    (mcomb_unsorted _ _ _ (sliceE_unsorted arr _ _ harr) (sliceE_unsorted arr _ _ harr))

theorem mergeSortFuel_len (f : Nat) (arr : List Elem) (left right : Nat)
    (st : SortSt) (hr : right < arr.length) (hf : right + 1 - left ≤ f) :
    (mergeSortFuel none f arr left right st).1.length = arr.length := by
  have h := (mergeSortFuel_none f arr left right st hr hf).1
  have h2 := length_vals (mergeSortFuel none f arr left right st).1
  have h3 := length_vals arr
  omega

theorem mergeSortFuel_no_mark :
    ∀ (f : Nat) (arr : List Elem) (left right : Nat) (st : SortSt),
      right < arr.length → right + 1 - left ≤ f → AllUnsorted arr →
      (0 < left ∨ right + 1 < arr.length) →
      AllUnsorted (mergeSortFuel none f arr left right st).1 := by
  intro f
  induction f with
  | zero =>
      intro arr left right st hr hf harr hside
      exact harr
  | succ f ih =>
      intro arr left right st hr hf harr hside
      by_cases hlr : left < right
      · have heq : mergeSortFuel none (f + 1) arr left right st =
            mergeE none (mergeSortFuel none f
              (mergeSortFuel none f arr left ((left + right) / 2) st).1
              ((left + right) / 2 + 1) right
              (mergeSortFuel none f arr left ((left + right) / 2) st).2).1
              left ((left + right) / 2) right
              (mergeSortFuel none f
                (mergeSortFuel none f arr left ((left + right) / 2) st).1
                ((left + right) / 2 + 1) right
                (mergeSortFuel none f arr left ((left + right) / 2) st).2).2 := by
          rw [mergeSortFuel]
          simp only [hlr, if_pos]
        rw [heq]
        set mid := (left + right) / 2 with hmid
        have hmge : left ≤ mid := by omega
        have hmlt : mid < right := by omega
        have h1 : AllUnsorted (mergeSortFuel none f arr left mid st).1 :=
          ih arr left mid st (by omega) (by omega) harr (Or.inr (by omega))
        have hlen1 : (mergeSortFuel none f arr left mid st).1.length = arr.length :=
          mergeSortFuel_len f arr left mid st (by omega) (by omega)
        have h2 : AllUnsorted (mergeSortFuel none f
            (mergeSortFuel none f arr left mid st).1 (mid + 1) right
            (mergeSortFuel none f arr left mid st).2).1 :=
          ih _ (mid + 1) right _ (by omega) (by omega) h1 (Or.inl (by omega))
        have hlen2 : (mergeSortFuel none f
            (mergeSortFuel none f arr left mid st).1 (mid + 1) right
            (mergeSortFuel none f arr left mid st).2).1.length = arr.length := by
          rw [mergeSortFuel_len f _ (mid + 1) right _ (by omega) (by omega), hlen1]
        refine mergeE_no_mark _ left mid right _ h2 ?_
        rcases hside with h | h
        · rw [show (left == 0) = false from beq_eq_false_iff_ne.mpr (by omega)]
          rfl
        · rw [show (right == (mergeSortFuel none f
              (mergeSortFuel none f arr left mid st).1 (mid + 1) right
              (mergeSortFuel none f arr left mid st).2).1.length - 1) = false from
            beq_eq_false_iff_ne.mpr (by omega)]
          simp
      · have heq : mergeSortFuel none (f + 1) arr left right st = (arr, st) := by
          rw [mergeSortFuel]
          simp [hlr]
        rw [heq]
        exact harr

/-- The top-level merge sort call (full bounds) marks every element
sorted on completion. -/
theorem mergeRun_marks_all (l : List Elem) (h2 : 2 ≤ l.length) :
    ∀ e ∈ (mergeRun l).1, e.isSorted = true := by
  have hlr : 0 < l.length - 1 := by omega
  have hf : l.length - 1 + 1 - 0 ≤ l.length := by omega
  match l, h2 with
  | a :: b :: t, _ =>
      set l0 : List Elem := a :: b :: t with hl0
      have hn : l0.length = t.length + 2 := by simp [hl0]
      have heq : mergeRun l0 =
          mergeE none (mergeSortFuel none (t.length + 1)
            (mergeSortFuel none (t.length + 1) l0 0 ((0 + (l0.length - 1)) / 2) st0).1
            ((0 + (l0.length - 1)) / 2 + 1) (l0.length - 1)
            (mergeSortFuel none (t.length + 1) l0 0 ((0 + (l0.length - 1)) / 2) st0).2).1
            0 ((0 + (l0.length - 1)) / 2) (l0.length - 1)
            (mergeSortFuel none (t.length + 1)
              (mergeSortFuel none (t.length + 1) l0 0 ((0 + (l0.length - 1)) / 2) st0).1
              ((0 + (l0.length - 1)) / 2 + 1) (l0.length - 1)
              (mergeSortFuel none (t.length + 1) l0 0 ((0 + (l0.length - 1)) / 2) st0).2).2 := by
        rw [mergeRun, mergeSortE, hn]
        rw [show t.length + 2 = (t.length + 1) + 1 from rfl, mergeSortFuel]
        simp only [show t.length + 2 - 1 = t.length + 1 from rfl]
        rw [if_pos (by omega)]
      rw [heq]
      set mid := (0 + (l0.length - 1)) / 2 with hmid
      have hmlt : mid < l0.length - 1 := by omega
      have hlen1 : (mergeSortFuel none (t.length + 1) l0 0 mid st0).1.length =
          l0.length :=
        mergeSortFuel_len _ l0 0 mid st0 (by omega) (by omega)
      have hlen2 : (mergeSortFuel none (t.length + 1)
          (mergeSortFuel none (t.length + 1) l0 0 mid st0).1 (mid + 1)
          (l0.length - 1)
          (mergeSortFuel none (t.length + 1) l0 0 mid st0).2).1.length =
          l0.length := by
        rw [mergeSortFuel_len _ _ (mid + 1) (l0.length - 1) _ (by omega) (by omega),
          hlen1]
      intro e he
      rw [mergeE_none_arr] at he
      rw [show ((0 : Nat) == 0 && l0.length - 1 == (mergeSortFuel none (t.length + 1)
          (mergeSortFuel none (t.length + 1) l0 0 mid st0).1 (mid + 1)
          (l0.length - 1)
          (mergeSortFuel none (t.length + 1) l0 0 mid st0).2).1.length - 1) = true
        from by rw [hlen2]; simp] at he
      simp only [if_pos] at he
      obtain ⟨x, hx, rfl⟩ := List.mem_map.mp he
      rfl

/-- C8: for every sub-range [left, right] with left < right processed by
merge sort without cancellation, (1) the divide point is exactly
floor((left+right)/2): the call recurses on [left, (left+right)/2] and
[(left+right)/2 + 1, right] and then merges across that point; (2) the
merge is stable: when the left-half head's value equals the right-half
head's value the left element is the one written back first; (3) a
sub-call whose bounds are not the full array marks no element sorted
(arrays that start all-unsorted stay all-unsorted); (4) the top-level
call with full array bounds marks every element sorted. -/
theorem c8 :
    (∀ (f : Nat) (arr : List Elem) (left right : Nat) (st : SortSt),
      left < right →
      mergeSortFuel none (f + 1) arr left right st =
        mergeE none
          (mergeSortFuel none f
            (mergeSortFuel none f arr left ((left + right) / 2) st).1
            ((left + right) / 2 + 1) right
            (mergeSortFuel none f arr left ((left + right) / 2) st).2).1
          left ((left + right) / 2) right
          (mergeSortFuel none f
            (mergeSortFuel none f arr left ((left + right) / 2) st).1
            ((left + right) / 2 + 1) right
            (mergeSortFuel none f arr left ((left + right) / 2) st).2).2) ∧
    (∀ (f : Nat) (arr : List Elem) (left : Nat) (a : Elem) (ls : List Elem)
        (b : Elem) (rs done : List Elem) (st : SortSt),
      a.value = b.value →
      mergeMain none arr left (f + 1) (a :: ls) (b :: rs) done st =
        mergeMain none arr left f ls (b :: rs) (done ++ [clearTrans a])
          (publish (snapMid arr left done { a with isSwapped := true })
            (publish (snapMid arr left done
              { getE arr (left + done.length) with isCompared := true })
              ⟨st.reads + 1, st.trace⟩))) ∧
    (∀ (f : Nat) (arr : List Elem) (left right : Nat) (st : SortSt),
      right < arr.length → right + 1 - left ≤ f → AllUnsorted arr →
      (0 < left ∨ right + 1 < arr.length) →
      AllUnsorted (mergeSortFuel none f arr left right st).1) ∧
    (∀ arr : List Elem, 2 ≤ arr.length →
      ∀ e ∈ (mergeRun arr).1, e.isSorted = true) := by
  refine ⟨?_, ?_, mergeSortFuel_no_mark, mergeRun_marks_all⟩
  · intro f arr left right st h
    rw [mergeSortFuel]
    simp only [h, if_pos]
  · intro f arr left a ls b rs done st hab
    have hle : a.value ≤ b.value := le_of_eq hab
    rw [mergeMain]
    simp only [readFlag, flagAt, Bool.not_true, if_false, hle, if_pos]
    rfl

/-- The four parts of c8 hold at concrete inputs: the divide instance on
a 3-element array, a tie merged left-first, a cancelled-bounds sub-call
marking nothing, and the full run marking everything. -/
theorem c8_witness :
    (mergeSortFuel none 2 c8Arr 0 2 st0).1.length = 3 ∧
    (mergeMain none c8Arr 0 1 [tieL] [tieR] [] st0).1 = [clearTrans tieL] ∧
    allUnsortedB (mergeSortFuel none 2 c8Arr 0 1 st0).1 = true ∧
    allSortedB (mergeRun c8Arr).1 = true := by
  refine ⟨?_, ?_, ?_, ?_⟩
  · rw [c8.1 1 c8Arr 0 2 st0 (by decide)]
    rfl
  · rw [c8.2.1 0 c8Arr 0 tieL [] tieR [] [] st0 rfl]
    rfl
  · exact List.all_eq_true.mpr fun e he => by
      rw [c8.2.2.1 2 c8Arr 0 1 st0 (by decide) (by decide)
        (by unfold AllUnsorted; decide) (Or.inr (by decide)) e he]
      rfl
  · exact List.all_eq_true.mpr fun e he => c8.2.2.2 c8Arr (by decide) e he

/-! ## Positional toolkit for the swap-based sorts -/

theorem getD_set_self_int (l : List Int) (i : Nat) (x : Int)
    (h : i < l.length) : (l.set i x).getD i 0 = x := by
  show ((l.set i x).get? i).getD 0 = x
  rw [List.get?_set_eq_of_lt x h]
  rfl

theorem getD_set_ne_int (l : List Int) (i j : Nat) (x : Int) (h : i ≠ j) :
    (l.set i x).getD j 0 = l.getD j 0 := by
  show ((l.set i x).get? j).getD 0 = (l.get? j).getD 0
  rw [List.get?_set_ne x l h]

theorem swapV_len (v : List Int) (a b : Nat) :
    (swapV v a b).length = v.length := by
  simp [swapV]

theorem swapV_self (v : List Int) (a : Nat) : swapV v a a = v := by
  rw [swapV, set_getD_self, set_getD_self]

theorem swapV_getD_fst (v : List Int) (a b : Nat) (hab : a ≠ b)
    (ha : a < v.length) : (swapV v a b).getD a 0 = v.getD b 0 := by
  rw [swapV, getD_set_ne_int _ _ _ _ (Ne.symm hab), getD_set_self_int _ _ _ ha]

theorem swapV_getD_snd (v : List Int) (a b : Nat) (hb : b < v.length) :
    (swapV v a b).getD b 0 = v.getD a 0 := by
  rw [swapV, getD_set_self_int]
  simpa using hb

theorem swapV_getD_other (v : List Int) (a b k : Nat) (hka : k ≠ a)
    (hkb : k ≠ b) : (swapV v a b).getD k 0 = v.getD k 0 := by
  rw [swapV, getD_set_ne_int _ _ _ _ (Ne.symm hkb),
    getD_set_ne_int _ _ _ _ (Ne.symm hka)]

theorem set_cons_perm (t : List Int) :
    ∀ (m : Nat) (x : Int), m < t.length →
      (t.getD m 0 :: t.set m x).Perm (x :: t) := by
  induction t with
  | nil => intro m x h; simp at h
  | cons y t ih =>
      intro m x h
      cases m with
      | zero => exact List.Perm.swap x y t
      | succ m =>
          have h1 : (y :: t).getD (m + 1) 0 = t.getD m 0 := rfl
          have h2 : (y :: t).set (m + 1) x = y :: t.set m x := rfl
          rw [h1, h2]
          have p1 : (t.getD m 0 :: y :: t.set m x).Perm
              (y :: t.getD m 0 :: t.set m x) := List.Perm.swap y (t.getD m 0) _
          have p3 : (y :: t.getD m 0 :: t.set m x).Perm (y :: x :: t) :=
            (ih m x (by simpa using h)).cons y
          exact p1.trans (p3.trans (List.Perm.swap x y t))

theorem swapV_perm (v : List Int) :
    ∀ (a b : Nat), a < v.length → b < v.length → (swapV v a b).Perm v := by
  induction v with
  | nil => intro a b ha _; simp at ha
  | cons x t ih =>
      intro a b ha hb
      cases a with
      | zero =>
          cases b with
          | zero => rw [swapV_self]
          | succ m =>
              have h1 : swapV (x :: t) 0 (m + 1) =
                  t.getD m 0 :: t.set m x := by
                rw [swapV]
                rfl
              rw [h1]
              exact (set_cons_perm t m x (by simpa using hb)).trans
                (List.Perm.refl _)
      | succ n =>
          cases b with
          | zero =>
              have h1 : swapV (x :: t) (n + 1) 0 =
                  t.getD n 0 :: t.set n x := by
                rw [swapV]
                rfl
              rw [h1]
              exact set_cons_perm t n x (by simpa using ha)
          | succ m =>
              have h1 : swapV (x :: t) (n + 1) (m + 1) = x :: swapV t n m := by
                rw [swapV, swapV]
                rfl
              rw [h1]
              exact (ih n m (by simpa using ha) (by simpa using hb)).cons x

theorem vals_swapE (arr : List Elem) (a b : Nat) :
    vals (swapE arr a b) = swapV (vals arr) a b := by
  rw [swapE, swapV, vals_set, vals_set, vals_getD, vals_getD]

theorem take_eq_of_getD (v : List Int) :
    ∀ (w : List Int) (m : Nat), v.length = w.length →
      (∀ k, k < m → v.getD k 0 = w.getD k 0) → v.take m = w.take m := by
  induction v with
  | nil =>
      intro w m hlen _
      have : w = [] := List.eq_nil_of_length_eq_zero hlen.symm
      rw [this]
  | cons a t ih =>
      intro w m hlen h
      match w, m with
      | [], _ => simp at hlen
      | b :: s, 0 => rfl
      | b :: s, m + 1 =>
          have h0 : a = b := h 0 (by omega)
          have ht : t.take m = s.take m :=
            ih s m (by simpa using hlen) (fun k hk => h (k + 1) (by omega))
          simp [h0, ht]

theorem eq_of_getD (v : List Int) :
    ∀ (w : List Int), v.length = w.length →
      (∀ k, v.getD k 0 = w.getD k 0) → v = w := by
  induction v with
  | nil =>
      intro w hlen _
      exact (List.eq_nil_of_length_eq_zero hlen.symm).symm
  | cons a t ih =>
      intro w hlen h
      match w with
      | [] => simp at hlen
      | b :: s =>
          have h0 : a = b := h 0
          have ht : t = s :=
            ih s (by simpa using hlen) (fun k => h (k + 1))
          rw [h0, ht]

theorem drop_eq_of_getD (v : List Int) :
    ∀ (w : List Int) (m : Nat), v.length = w.length →
      (∀ k, m ≤ k → v.getD k 0 = w.getD k 0) → v.drop m = w.drop m := by
  induction v with
  | nil =>
      intro w m hlen _
      have : w = [] := List.eq_nil_of_length_eq_zero hlen.symm
      rw [this]
  | cons a t ih =>
      intro w m hlen h
      match w, m with
      | [], _ => simp at hlen
      | b :: s, 0 =>
          show a :: t = b :: s
          have h0 : a = b := h 0 (by omega)
          have ht : t = s := eq_of_getD t s (by simpa using hlen)
            (fun k => h (k + 1) (by omega))
          rw [h0, ht]
      | b :: s, m + 1 =>
          exact ih s m (by simpa using hlen) (fun k hk => h (k + 1) (by omega))

/-! ## Quick sort: structural lemmas for partition and the recursion -/

theorem partitionLoop_flag :
    ∀ (f : Nat) (arr : List Elem) (i j pv : Int) (st : SortSt),
      (partitionLoop none f arr i j pv st).2.2.2 = false := by
  intro f
  induction f with
  | zero => intro arr i j pv st; rfl
  | succ f ih =>
      intro arr i j pv st
      rw [partitionLoop]
      simp only [readFlag, flagAt, Bool.not_true, Bool.false_eq_true, if_false]
      by_cases hc : (getEI (setCmp arr j.toNat true) j).value < pv
      · simp only [hc, if_pos]
        exact ih ..
      · simp only [hc, if_neg, not_false_iff]
        exact ih ..

theorem partitionLoop_len :
    ∀ (f : Nat) (arr : List Elem) (i j pv : Int) (st : SortSt),
      (partitionLoop none f arr i j pv st).1.length = arr.length := by
  intro f
  induction f with
  | zero => intro arr i j pv st; rfl
  | succ f ih =>
      intro arr i j pv st
      rw [partitionLoop]
      simp only [readFlag, flagAt, Bool.not_true, Bool.false_eq_true, if_false]
      by_cases hc : (getEI (setCmp arr j.toNat true) j).value < pv
      · simp only [hc, if_pos]
        rw [ih]
        simp [setCmp, setSwp, swapE]
      · simp only [hc, if_neg, not_false_iff]
        rw [ih]
        simp [setCmp]

theorem partitionLoop_trace :
    ∀ (f : Nat) (arr : List Elem) (i j pv : Int) (st : SortSt),
      ∃ D, (partitionLoop none f arr i j pv st).2.2.1.trace = st.trace ++ D := by
  intro f
  induction f with
  | zero => intro arr i j pv st; exact ⟨[], (List.append_nil _).symm⟩
  | succ f ih =>
      intro arr i j pv st
      rw [partitionLoop]
      simp only [readFlag, flagAt, Bool.not_true, Bool.false_eq_true, if_false]
      by_cases hc : (getEI (setCmp arr j.toNat true) j).value < pv
      · simp only [hc, if_pos]
        obtain ⟨D, hD⟩ := ih (setCmp (setSwp (setSwp (setSwp (setSwp
          (swapE (setCmp arr j.toNat true) (i + 1).toNat j.toNat)
          (i + 1).toNat true) j.toNat true) (i + 1).toNat false) j.toNat
          false) j.toNat false) (i + 1) (j + 1) pv
          (publish (setSwp (setSwp (swapE (setCmp arr j.toNat true)
            (i + 1).toNat j.toNat) (i + 1).toNat true) j.toNat true)
            (publish (setCmp arr j.toNat true)
              ⟨st.reads + 1, st.trace⟩))
        refine ⟨[setCmp arr j.toNat true,
          setSwp (setSwp (swapE (setCmp arr j.toNat true) (i + 1).toNat
            j.toNat) (i + 1).toNat true) j.toNat true] ++ D, ?_⟩
        rw [hD]
        simp [publish]
      · simp only [hc, if_neg, not_false_iff]
        obtain ⟨D, hD⟩ := ih (setCmp (setCmp arr j.toNat true) j.toNat false)
          i (j + 1) pv
          (publish (setCmp arr j.toNat true) ⟨st.reads + 1, st.trace⟩)
        refine ⟨[setCmp arr j.toNat true] ++ D, ?_⟩
        rw [hD]
        simp [publish]

theorem partitionE_flag_len (arr : List Elem) (low high : Int) (st : SortSt) :
    (partitionE none arr low high st).1.length = arr.length := by
  rw [partitionE]
  simp only [readFlag, flagAt, Bool.not_true, Bool.false_eq_true, if_false]
  rw [partitionLoop_flag]
  simp only [Bool.false_eq_true, if_false]
  simp [setCmp, setSwp, swapE, partitionLoop_len]

theorem quickSortFuel_len :
    ∀ (f : Nat) (arr : List Elem) (low high : Int) (st : SortSt),
      (quickSortFuel none f arr low high st).1.length = arr.length := by
  intro f
  induction f with
  | zero => intro arr low high st; rfl
  | succ f ih =>
      intro arr low high st
      rw [quickSortFuel]
      by_cases hlh : low < high
      · simp only [hlh, if_pos]
        by_cases hc : (low == 0 &&
            high == ((quickSortFuel none f
              (quickSortFuel none f (partitionE none arr low high st).1 low
                ((partitionE none arr low high st).2.1 - 1)
                (partitionE none arr low high st).2.2).1
              ((partitionE none arr low high st).2.1 + 1) high
              (quickSortFuel none f (partitionE none arr low high st).1 low
                ((partitionE none arr low high st).2.1 - 1)
                (partitionE none arr low high st).2.2).2).1.length : Int) - 1) = true
        · rw [if_pos hc]
          simp only [List.length_map]
          rw [ih, ih, partitionE_flag_len]
        · rw [if_neg (by simpa using hc)]
          rw [ih, ih, partitionE_flag_len]
      · simp only [hlh, if_neg, not_false_iff]
        by_cases hc : (low == 0 && high == ((arr.length : Int) - 1)) = true
        · rw [if_pos hc]
          simp
        · rw [if_neg (by simpa using hc)]

/-- Lomuto loop invariant: over the scanned prefix, positions low..i hold
values below the pivot and positions i+1..j-1 hold values at or above it;
the loop only touches positions in [low, j+f), permutes the values, and
ends with i strictly below the right bound. -/
theorem partitionLoop_spec :
    ∀ (f : Nat) (arr : List Elem) (i j pv : Int) (st : SortSt) (low : Int),
      0 ≤ low → low ≤ j → j + f < (arr.length : Int) →
      low - 1 ≤ i → i < j →
      (∀ k : Int, low ≤ k → k ≤ i → (vals arr).getD k.toNat 0 < pv) →
      (∀ k : Int, i < k → k < j → pv ≤ (vals arr).getD k.toNat 0) →
      (low - 1 ≤ (partitionLoop none f arr i j pv st).2.1 ∧
        (partitionLoop none f arr i j pv st).2.1 < j + f) ∧
      (∀ k : Int, low ≤ k → k ≤ (partitionLoop none f arr i j pv st).2.1 →
        (vals (partitionLoop none f arr i j pv st).1).getD k.toNat 0 < pv) ∧
      (∀ k : Int, (partitionLoop none f arr i j pv st).2.1 < k → k < j + f →
        pv ≤ (vals (partitionLoop none f arr i j pv st).1).getD k.toNat 0) ∧
      (∀ k : Nat, ((k : Int) < low ∨ j + f ≤ (k : Int)) →
        (vals (partitionLoop none f arr i j pv st).1).getD k 0 =
          (vals arr).getD k 0) ∧
      (vals (partitionLoop none f arr i j pv st).1).Perm (vals arr) := by
  intro f
  induction f with
  | zero =>
      intro arr i j pv st low h0 hlj hjf hi1 hi2 hlt hge
      simp only [partitionLoop]
      refine ⟨⟨hi1, by omega⟩, hlt, ?_, fun k _ => by trivial, List.Perm.refl _⟩
      intro k hk1 hk2
      exact hge k hk1 (by omega)
  | succ f ih =>
      intro arr i j pv st low h0 hlj hjf hi1 hi2 hlt hge
      have hlv : (vals arr).length = arr.length := length_vals arr
      rw [partitionLoop]
      simp only [readFlag, flagAt, Bool.not_true, Bool.false_eq_true, if_false]
      have hval : (getEI (setCmp arr j.toNat true) j).value =
          (vals arr).getD j.toNat 0 := by
        rw [getEI, getE]
        rw [show ((setCmp arr j.toNat true).getD j.toNat dElem) =
          getE (setCmp arr j.toNat true) j.toNat from rfl]
        rw [vals_getD, vals_setCmp]
      by_cases hc : (getEI (setCmp arr j.toNat true) j).value < pv
      · simp only [hc, if_pos]
        rw [hval] at hc
        set A := setCmp (setSwp (setSwp (setSwp (setSwp
          (swapE (setCmp arr j.toNat true) (i + 1).toNat j.toNat)
          (i + 1).toNat true) j.toNat true) (i + 1).toNat false) j.toNat
          false) j.toNat false with hA
        have hvA : vals A = swapV (vals arr) (i + 1).toNat j.toNat := by
          rw [hA]
          simp only [vals_setCmp, vals_setSwp]
          rw [vals_swapE, vals_setCmp]
        have hlA : A.length = arr.length := by
          rw [hA]
          simp [setCmp, setSwp, swapE]
        have hlt2 : ∀ k : Int, low ≤ k → k ≤ i + 1 →
            (vals A).getD k.toNat 0 < pv := by
          intro k hk1 hk2
          rw [hvA]
          by_cases hk : k ≤ i
          · rw [swapV_getD_other (vals arr) ((i + 1).toNat) (j.toNat)
              (k.toNat) (by omega) (by omega)]
            exact hlt k hk1 hk
          · have hk' : k = i + 1 := by omega
            subst hk'
            by_cases hij : i + 1 = j
            · have hij' : (i + 1).toNat = j.toNat := by omega
              rw [hij', swapV_self]
              exact hc
            · rw [swapV_getD_fst (vals arr) ((i + 1).toNat) (j.toNat)
                (by omega) (by rw [hlv]; omega)]
              exact hc
        have hge2 : ∀ k : Int, i + 1 < k → k < j + 1 →
            pv ≤ (vals A).getD k.toNat 0 := by
          intro k hk1 hk2
          rw [hvA]
          by_cases hk : k = j
          · rw [hk]
            rw [swapV_getD_snd (vals arr) ((i + 1).toNat) (j.toNat)
              (by rw [hlv]; omega)]
            exact hge (i + 1) (by omega) (by omega)
          · rw [swapV_getD_other (vals arr) ((i + 1).toNat) (j.toNat)
              (k.toNat) (by omega) (by omega)]
            exact hge k (by omega) (by omega)
        have H := ih A (i + 1) (j + 1) pv
          (publish (setSwp (setSwp (swapE (setCmp arr j.toNat true)
            (i + 1).toNat j.toNat) (i + 1).toNat true) j.toNat true)
            (publish (setCmp arr j.toNat true) ⟨st.reads + 1, st.trace⟩))
          low h0 (by omega) (by rw [hlA]; omega) (by omega) (by omega)
          hlt2 hge2
        obtain ⟨⟨a1, a2⟩, B, C, D, E⟩ := H
        have hp : (vals A).Perm (vals arr) := by
          rw [hvA]
          exact swapV_perm (vals arr) ((i + 1).toNat) (j.toNat)
            (by rw [hlv]; omega) (by rw [hlv]; omega)
        refine ⟨⟨by omega, by omega⟩, B, ?_, ?_, E.trans hp⟩
        · intro k hk1 hk2
          exact C k hk1 (by omega)
        · intro k hk
          rw [D k (by omega), hvA,
            swapV_getD_other (vals arr) ((i + 1).toNat) (j.toNat) k
              (by omega) (by omega)]
      · simp only [hc, if_neg, not_false_iff]
        rw [hval] at hc
        set A := setCmp (setCmp arr j.toNat true) j.toNat false with hA
        have hvA : vals A = vals arr := by
          rw [hA, vals_setCmp, vals_setCmp]
        have hlA : A.length = arr.length := by
          rw [hA]
          simp [setCmp]
        have hlt2 : ∀ k : Int, low ≤ k → k ≤ i →
            (vals A).getD k.toNat 0 < pv := by
          intro k hk1 hk2
          rw [hvA]
          exact hlt k hk1 hk2
        have hge2 : ∀ k : Int, i < k → k < j + 1 →
            pv ≤ (vals A).getD k.toNat 0 := by
          intro k hk1 hk2
          rw [hvA]
          by_cases hk : k = j
          · subst hk
            exact not_lt.mp hc
          · exact hge k hk1 (by omega)
        have H := ih A i (j + 1) pv
          (publish (setCmp arr j.toNat true) ⟨st.reads + 1, st.trace⟩)
          low h0 (by omega) (by rw [hlA]; omega) (by omega) (by omega)
          hlt2 hge2
        obtain ⟨⟨a1, a2⟩, B, C, D, E⟩ := H
        refine ⟨⟨a1, by omega⟩, B, ?_, ?_, E.trans (hvA ▸ List.Perm.refl _)⟩
        · intro k hk1 hk2
          exact C k hk1 (by omega)
        · intro k hk
          rw [D k (by omega), hvA]

theorem getEI_val (arr : List Elem) (k : Int) :
    (getEI arr k).value = (vals arr).getD k.toNat 0 := vals_getD arr k.toNat

theorem isSwapped_setSwp_self (arr : List Elem) (i : Nat)
    (h : i < arr.length) : (getE (setSwp arr i true) i).isSwapped = true := by
  rw [setSwp, getE_set_self _ _ _ h]

theorem getE_setSwp_ne (arr : List Elem) (i j : Nat) (b : Bool) (h : i ≠ j) :
    getE (setSwp arr i b) j = getE arr j := by
  rw [setSwp]
  exact getE_set_ne _ _ _ _ h

/-- Full partition postcondition (cancellation disabled): the pivot is
the sub-range's last element, the returned index p carries the pivot's
value, everything left of p in [low, p) is strictly below it, everything
in (p, high] is at or above it, the values are a permutation of the
input with positions outside [low, high] untouched, and the final
pivot-placement swap publishes a snapshot with the swap flags set at p
and high followed by the final array. -/
theorem partitionE_spec (arr : List Elem) (low high : Int) (st : SortSt)
    (h0 : 0 ≤ low) (hlh : low < high) (hhn : high < (arr.length : Int)) :
    (partitionE none arr low high st).1.length = arr.length ∧
    low ≤ (partitionE none arr low high st).2.1 ∧
    (partitionE none arr low high st).2.1 ≤ high ∧
    (vals (partitionE none arr low high st).1).getD
        (partitionE none arr low high st).2.1.toNat 0 =
      (vals arr).getD high.toNat 0 ∧
    (∀ k : Int, low ≤ k → k < (partitionE none arr low high st).2.1 →
      (vals (partitionE none arr low high st).1).getD k.toNat 0 <
        (vals arr).getD high.toNat 0) ∧
    (∀ k : Int, (partitionE none arr low high st).2.1 < k → k ≤ high →
      (vals arr).getD high.toNat 0 ≤
        (vals (partitionE none arr low high st).1).getD k.toNat 0) ∧
    (vals (partitionE none arr low high st).1).Perm (vals arr) ∧
    (vals (partitionE none arr low high st).1).take low.toNat =
      (vals arr).take low.toNat ∧
    (vals (partitionE none arr low high st).1).drop (high.toNat + 1) =
      (vals arr).drop (high.toNat + 1) ∧
    (∃ pre snap,
      (partitionE none arr low high st).2.2.trace =
        st.trace ++ pre ++ [snap, (partitionE none arr low high st).1] ∧
      (getE snap (partitionE none arr low high st).2.1.toNat).isSwapped = true ∧
      (getE snap high.toNat).isSwapped = true) := by
  have hl0 : (setCmp arr high.toNat true).length = arr.length := by
    simp [setCmp]
  rw [partitionE]
  simp only [readFlag, flagAt, Bool.not_true, Bool.false_eq_true, if_false]
  rw [partitionLoop_flag]
  simp only [Bool.false_eq_true, if_false]
  obtain ⟨⟨a1, a2⟩, B, C, D, E⟩ := partitionLoop_spec (high - low).toNat
    (setCmp arr high.toNat true) (low - 1) low ((getEI arr high).value)
    (publish (setCmp arr high.toNat true) ⟨st.reads + 1, st.trace⟩) low h0
    le_rfl (by rw [hl0]; omega) (by omega) (by omega)
    (fun k hk1 hk2 => absurd hk2 (by omega))
    (fun k hk1 hk2 => absurd hk2 (by omega))
  obtain ⟨Dt, hDt⟩ := partitionLoop_trace (high - low).toNat
    (setCmp arr high.toNat true) (low - 1) low ((getEI arr high).value)
    (publish (setCmp arr high.toNat true) ⟨st.reads + 1, st.trace⟩)
  set q := partitionLoop none (high - low).toNat (setCmp arr high.toNat true)
    (low - 1) low ((getEI arr high).value)
    (publish (setCmp arr high.toNat true) ⟨st.reads + 1, st.trace⟩) with hq
  have hv0 : vals (setCmp arr high.toNat true) = vals arr := vals_setCmp ..
  have hpv : (getEI arr high).value = (vals arr).getD high.toNat 0 :=
    getEI_val arr high
  rw [hv0] at D E
  rw [hpv] at B C
  set A2 := setSwp (setSwp (swapE q.1 (q.2.1 + 1).toNat high.toNat)
    (q.2.1 + 1).toNat true) high.toNat true with hA2
  set A3 := setCmp (setSwp (setSwp A2 (q.2.1 + 1).toNat false) high.toNat
    false) (q.2.1 + 1).toNat false with hA3
  have hlq : q.1.length = arr.length := by
    rw [hq, partitionLoop_len]
    exact hl0
  have hlenv : (vals q.1).length = arr.length := by rw [length_vals, hlq]
  have hlar : (vals arr).length = arr.length := length_vals arr
  have hva3 : vals A3 = swapV (vals q.1) (q.2.1 + 1).toNat high.toNat := by
    rw [hA3, hA2]
    simp only [vals_setCmp, vals_setSwp]
    rw [vals_swapE]
  have hDhigh : (vals q.1).getD high.toNat 0 = (vals arr).getD high.toNat 0 :=
    D high.toNat (Or.inr (by omega))
  have hl2 : (setSwp (swapE q.1 (q.2.1 + 1).toNat high.toNat)
      ((q.2.1 + 1).toNat) true).length = arr.length := by
    simp only [setSwp, List.length_set, length_swapE]
    exact hlq
  refine ⟨?_, by omega, by omega, ?_, ?_, ?_, ?_, ?_, ?_, ?_⟩
  · show A3.length = arr.length
    rw [hA3, hA2]
    simp only [setCmp, setSwp, List.length_set, length_swapE]
    exact hlq
  · show (vals A3).getD (q.2.1 + 1).toNat 0 = (vals arr).getD high.toNat 0
    rw [hva3]
    by_cases hph : (q.2.1 + 1).toNat = high.toNat
    · rw [hph, swapV_self]
      exact hDhigh
    · rw [swapV_getD_fst (vals q.1) ((q.2.1 + 1).toNat) (high.toNat) hph
        (by rw [hlenv]; omega)]
      exact hDhigh
  · intro k hk1 hk2
    show (vals A3).getD k.toNat 0 < (vals arr).getD high.toNat 0
    rw [hva3, swapV_getD_other (vals q.1) ((q.2.1 + 1).toNat) (high.toNat)
      (k.toNat) (by omega) (by omega)]
    exact B k hk1 (by omega)
  · intro k hk1 hk2
    show (vals arr).getD high.toNat 0 ≤ (vals A3).getD k.toNat 0
    rw [hva3]
    by_cases hk : k = high
    · rw [hk, swapV_getD_snd (vals q.1) ((q.2.1 + 1).toNat) (high.toNat)
        (by rw [hlenv]; omega)]
      exact C (q.2.1 + 1) (by omega) (by omega)
    · rw [swapV_getD_other (vals q.1) ((q.2.1 + 1).toNat) (high.toNat)
        (k.toNat) (by omega) (by omega)]
      exact C k (by omega) (by omega)
  · show (vals A3).Perm (vals arr)
    rw [hva3]
    exact (swapV_perm (vals q.1) ((q.2.1 + 1).toNat) (high.toNat)
      (by rw [hlenv]; omega) (by rw [hlenv]; omega)).trans E
  · show (vals A3).take low.toNat = (vals arr).take low.toNat
    refine take_eq_of_getD (vals A3) (vals arr) low.toNat ?_ ?_
    · rw [hva3, swapV_len, hlenv, hlar]
    · intro k hk
      rw [hva3, swapV_getD_other (vals q.1) ((q.2.1 + 1).toNat) (high.toNat)
        k (by omega) (by omega)]
      exact D k (Or.inl (by omega))
  · show (vals A3).drop (high.toNat + 1) = (vals arr).drop (high.toNat + 1)
    refine drop_eq_of_getD (vals A3) (vals arr) (high.toNat + 1) ?_ ?_
    · rw [hva3, swapV_len, hlenv, hlar]
    · intro k hk
      rw [hva3, swapV_getD_other (vals q.1) ((q.2.1 + 1).toNat) (high.toNat)
        k (by omega) (by omega)]
      exact D k (Or.inr (by omega))
  · refine ⟨[setCmp arr high.toNat true] ++ Dt, A2, ?_, ?_, ?_⟩
    · show (publish A3 (publish A2 q.2.2.1)).trace =
        st.trace ++ ([setCmp arr high.toNat true] ++ Dt) ++ [A2, A3]
      simp only [publish] at hDt ⊢
      rw [hDt]
      simp [List.append_assoc]
    · show (getE A2 (q.2.1 + 1).toNat).isSwapped = true
      by_cases hph : (q.2.1 + 1).toNat = high.toNat
      · rw [hph, hA2]
        exact isSwapped_setSwp_self _ _ (by rw [hl2]; omega)
      · rw [hA2, getE_setSwp_ne _ _ _ _ (by omega)]
        exact isSwapped_setSwp_self _ _
          (by simp only [length_swapE]; rw [hlq]; omega)
    · show (getE A2 high.toNat).isSwapped = true
      rw [hA2]
      exact isSwapped_setSwp_self _ _ (by rw [hl2]; omega)

theorem getE_srt_false (arr : List Elem) (i : Nat) (h : AllUnsorted arr) :
    (getE arr i).isSorted = false := by
  by_cases hi : i < arr.length
  · refine h _ ?_
    rw [getE, getD_eq_get arr dElem i hi]
    exact arr.get_mem _ _
  · rw [getE, List.getD_eq_default arr dElem (by omega)]
    rfl

theorem allUnsorted_set (arr : List Elem) (i : Nat) (e : Elem)
    (h : AllUnsorted arr) (he : e.isSorted = false) :
    AllUnsorted (arr.set i e) := by
  intro x hx
  rcases List.mem_or_eq_of_mem_set hx with h1 | h1
  · exact h x h1
  · rw [h1]
    exact he

theorem allUnsorted_setCmp (arr : List Elem) (i : Nat) (b : Bool)
    (h : AllUnsorted arr) : AllUnsorted (setCmp arr i b) :=
  allUnsorted_set arr i _ h (getE_srt_false arr i h)

theorem allUnsorted_setSwp (arr : List Elem) (i : Nat) (b : Bool)
    (h : AllUnsorted arr) : AllUnsorted (setSwp arr i b) :=
  allUnsorted_set arr i _ h (getE_srt_false arr i h)

theorem allUnsorted_swapE (arr : List Elem) (a b : Nat)
    (h : AllUnsorted arr) : AllUnsorted (swapE arr a b) :=
  allUnsorted_set _ b _ (allUnsorted_set _ a _ h (getE_srt_false arr b h))
    (getE_srt_false arr a h)

theorem partitionLoop_unsorted :
    ∀ (f : Nat) (arr : List Elem) (i j pv : Int) (st : SortSt),
      AllUnsorted arr →
      AllUnsorted (partitionLoop none f arr i j pv st).1 := by
  intro f
  induction f with
  | zero => intro arr i j pv st h; exact h
  | succ f ih =>
      intro arr i j pv st h
      rw [partitionLoop]
      simp only [readFlag, flagAt, Bool.not_true, Bool.false_eq_true, if_false]
      by_cases hc : (getEI (setCmp arr j.toNat true) j).value < pv
      · simp only [hc, if_pos]
        exact ih _ _ _ _ _ (allUnsorted_setCmp _ _ _ (allUnsorted_setSwp _ _ _
          (allUnsorted_setSwp _ _ _ (allUnsorted_setSwp _ _ _
            (allUnsorted_setSwp _ _ _ (allUnsorted_swapE _ _ _
              (allUnsorted_setCmp _ _ _ h)))))))
      · simp only [hc, if_neg, not_false_iff]
        exact ih _ _ _ _ _ (allUnsorted_setCmp _ _ _
          (allUnsorted_setCmp _ _ _ h))

theorem partitionE_unsorted (arr : List Elem) (low high : Int) (st : SortSt)
    (h : AllUnsorted arr) :
    AllUnsorted (partitionE none arr low high st).1 := by
  rw [partitionE]
  simp only [readFlag, flagAt, Bool.not_true, Bool.false_eq_true, if_false]
  rw [partitionLoop_flag]
  simp only [Bool.false_eq_true, if_false]
  exact allUnsorted_setCmp _ _ _ (allUnsorted_setSwp _ _ _
    (allUnsorted_setSwp _ _ _ (allUnsorted_setSwp _ _ _
      (allUnsorted_setSwp _ _ _ (allUnsorted_swapE _ _ _
        (partitionLoop_unsorted _ _ _ _ _ _
          (allUnsorted_setCmp _ _ _ h)))))))

/-- A quick-sort sub-call whose bounds are not the full array never marks
an element sorted. -/
theorem quickSortFuel_no_mark :
    ∀ (f : Nat) (arr : List Elem) (low high : Int) (st : SortSt),
      0 ≤ low → high < (arr.length : Int) → AllUnsorted arr →
      (0 < low ∨ high < (arr.length : Int) - 1) →
      AllUnsorted (quickSortFuel none f arr low high st).1 := by
  intro f
  induction f with
  | zero => intro arr low high st _ _ h _; exact h
  | succ f ih =>
      intro arr low high st h0 hhn h hside
      rw [quickSortFuel]
      by_cases hlh : low < high
      · simp only [hlh, if_pos]
        obtain ⟨p1, p2, p3, _⟩ := partitionE_spec arr low high st h0 hlh hhn
        have hu1 : AllUnsorted (partitionE none arr low high st).1 :=
          partitionE_unsorted arr low high st h
        have hl1 : (quickSortFuel none f (partitionE none arr low high st).1
            low ((partitionE none arr low high st).2.1 - 1)
            (partitionE none arr low high st).2.2).1.length = arr.length := by
          rw [quickSortFuel_len, p1]
        have hu2 : AllUnsorted (quickSortFuel none f
            (partitionE none arr low high st).1 low
            ((partitionE none arr low high st).2.1 - 1)
            (partitionE none arr low high st).2.2).1 :=
          ih _ low _ _ h0 (by rw [p1]; omega) hu1 (Or.inr (by rw [p1]; omega))
        have hu3 : AllUnsorted (quickSortFuel none f
            (quickSortFuel none f (partitionE none arr low high st).1 low
              ((partitionE none arr low high st).2.1 - 1)
              (partitionE none arr low high st).2.2).1
            ((partitionE none arr low high st).2.1 + 1) high
            (quickSortFuel none f (partitionE none arr low high st).1 low
              ((partitionE none arr low high st).2.1 - 1)
              (partitionE none arr low high st).2.2).2).1 :=
          ih _ _ high _ (by omega) (by rw [hl1]; omega) hu2
            (Or.inl (by omega))
        have hl3 : (quickSortFuel none f
            (quickSortFuel none f (partitionE none arr low high st).1 low
              ((partitionE none arr low high st).2.1 - 1)
              (partitionE none arr low high st).2.2).1
            ((partitionE none arr low high st).2.1 + 1) high
            (quickSortFuel none f (partitionE none arr low high st).1 low
              ((partitionE none arr low high st).2.1 - 1)
              (partitionE none arr low high st).2.2).2).1.length =
            arr.length := by
          rw [quickSortFuel_len, hl1]
        rcases hside with hs | hs
        · rw [if_neg (by
            rw [show (low == 0) = false from beq_eq_false_iff_ne.mpr
              (by omega)]
            simp)]
          exact hu3
        · rw [if_neg (by
            rw [show (high == ((quickSortFuel none f
                (quickSortFuel none f (partitionE none arr low high st).1 low
                  ((partitionE none arr low high st).2.1 - 1)
                  (partitionE none arr low high st).2.2).1
                ((partitionE none arr low high st).2.1 + 1) high
                (quickSortFuel none f (partitionE none arr low high st).1 low
                  ((partitionE none arr low high st).2.1 - 1)
                  (partitionE none arr low high st).2.2).2).1.length : Int) -
                1) = false from beq_eq_false_iff_ne.mpr
              (by rw [hl3]; omega)]
            simp)]
          exact hu3
      · simp only [hlh, if_neg, not_false_iff]
        rcases hside with hs | hs
        · rw [if_neg (by
            rw [show (low == 0) = false from beq_eq_false_iff_ne.mpr
              (by omega)]
            simp)]
          exact h
        · rw [if_neg (by
            rw [show (high == ((arr.length : Int)) - 1) = false from
              beq_eq_false_iff_ne.mpr (by omega)]
            simp)]
          exact h

/-- The top-level quick sort call marks every element sorted and
publishes that final state. -/
theorem quickRun_marks_all (l : List Elem) :
    ∀ e ∈ (quickRun l).1, e.isSorted = true := by
  rw [quickRun, quickSortE]
  rw [show l.length + 1 = l.length + 1 from rfl, quickSortFuel]
  have hlen : (if (0 : Int) < (l.length : Int) - 1 then
      (quickSortFuel none l.length
        (quickSortFuel none l.length (partitionE none l 0
          ((l.length : Int) - 1) st0).1 0
          ((partitionE none l 0 ((l.length : Int) - 1) st0).2.1 - 1)
          (partitionE none l 0 ((l.length : Int) - 1) st0).2.2).1
        ((partitionE none l 0 ((l.length : Int) - 1) st0).2.1 + 1)
        ((l.length : Int) - 1)
        (quickSortFuel none l.length (partitionE none l 0
          ((l.length : Int) - 1) st0).1 0
          ((partitionE none l 0 ((l.length : Int) - 1) st0).2.1 - 1)
          (partitionE none l 0 ((l.length : Int) - 1) st0).2.2).2)
    else (l, st0)).1.length = l.length := by
    by_cases hc : (0 : Int) < (l.length : Int) - 1
    · rw [if_pos hc, quickSortFuel_len, quickSortFuel_len, partitionE_flag_len]
    · rw [if_neg hc]
  rw [if_pos (by
    rw [hlen]
    simp)]
  intro e he
  simp only [List.mem_map] at he
  obtain ⟨x, _, rfl⟩ := he
  rfl

/-- C7: for every sub-range [low, high] with low < high processed by
quick sort without cancellation, (1) partition uses the last element
arr[high] as pivot: the returned index p lies in [low, high], the element
there carries the pivot's value, everything in [low, p) is strictly
below it and everything in (p, high] at or above it, the values are a
permutation of the input with positions outside [low, high] untouched,
and the final pivot-placement swap is always published: the trace gains a
snapshot with the swap flags set at p and high (even when p = high)
followed by the final array; (2) a sub-call whose bounds are not the
full array marks no element sorted; (3) the top-level call with full
array bounds marks every element sorted. -/
theorem c7 :
    (∀ (arr : List Elem) (low high : Int) (st : SortSt),
      0 ≤ low → low < high → high < (arr.length : Int) →
      low ≤ (partitionE none arr low high st).2.1 ∧
      (partitionE none arr low high st).2.1 ≤ high ∧
      (getEI (partitionE none arr low high st).1
          (partitionE none arr low high st).2.1).value =
        (getEI arr high).value ∧
      (∀ k : Int, low ≤ k → k < (partitionE none arr low high st).2.1 →
        (getEI (partitionE none arr low high st).1 k).value <
          (getEI arr high).value) ∧
      (∀ k : Int, (partitionE none arr low high st).2.1 < k → k ≤ high →
        (getEI arr high).value ≤
          (getEI (partitionE none arr low high st).1 k).value) ∧
      (vals (partitionE none arr low high st).1).Perm (vals arr) ∧
      (vals (partitionE none arr low high st).1).take low.toNat =
        (vals arr).take low.toNat ∧
      (vals (partitionE none arr low high st).1).drop (high.toNat + 1) =
        (vals arr).drop (high.toNat + 1) ∧
      (∃ pre snap,
        (partitionE none arr low high st).2.2.trace =
          st.trace ++ pre ++ [snap, (partitionE none arr low high st).1] ∧
        (getE snap (partitionE none arr low high st).2.1.toNat).isSwapped =
          true ∧
        (getE snap high.toNat).isSwapped = true)) ∧
    (∀ (f : Nat) (arr : List Elem) (low high : Int) (st : SortSt),
      0 ≤ low → high < (arr.length : Int) → AllUnsorted arr →
      (0 < low ∨ high < (arr.length : Int) - 1) →
      AllUnsorted (quickSortFuel none f arr low high st).1) ∧
    (∀ l : List Elem, ∀ e ∈ (quickRun l).1, e.isSorted = true) := by
  refine ⟨?_, quickSortFuel_no_mark, quickRun_marks_all⟩
  intro arr low high st h0 hlh hhn
  obtain ⟨p1, p2, p3, p4, p5, p6, p7, p8, p9, p10⟩ :=
    partitionE_spec arr low high st h0 hlh hhn
  simp only [getEI_val]
  exact ⟨p2, p3, p4, p5, p6, p7, p8, p9, p10⟩

/-- The parts of c7 hold at concrete inputs: partition of [3,1,2] over
the full range returns a non-negative index and permutes the values, a
proper sub-call marks nothing, and the full run marks everything. -/
theorem c7_witness :
    ((0 : Int) ≤ (partitionE none c7Arr 0 2 st0).2.1) ∧
    (vals (partitionE none c7Arr 0 2 st0).1).Perm (vals c7Arr) ∧
    allUnsortedB (quickSortFuel none 2 c7Arr 1 2 st0).1 = true ∧
    allSortedB (quickRun c7Arr).1 = true := by
  refine ⟨(c7.1 c7Arr 0 2 st0 (by decide) (by decide) (by decide)).1,
    (c7.1 c7Arr 0 2 st0 (by decide) (by decide) (by decide)).2.2.2.2.2.1,
    ?_, ?_⟩
  · exact List.all_eq_true.mpr fun e he => by
      rw [c7.2.1 2 c7Arr 1 2 st0 (by decide) (by decide)
        (by unfold AllUnsorted; decide) (Or.inl (by decide)) e he]
      rfl
  · exact List.all_eq_true.mpr fun e he => c7.2.2 c7Arr e he

/-! ## Quick sort: value-level correctness -/

theorem getD_take (l : List Int) :
    ∀ (m k : Nat), k < m → (l.take m).getD k 0 = l.getD k 0 := by
  induction l with
  | nil => intro m k _; simp
  | cons a t ih =>
      intro m k hk
      match m, k with
      | m + 1, 0 => rfl
      | m + 1, k + 1 =>
          show (t.take m).getD k 0 = t.getD k 0
          exact ih m k (by omega)

theorem getD_drop (l : List Int) :
    ∀ (m k : Nat), (l.drop m).getD k 0 = l.getD (m + k) 0 := by
  induction l with
  | nil => intro m k; simp
  | cons a t ih =>
      intro m k
      match m with
      | 0 => simp
      | m + 1 =>
          show (t.drop m).getD k 0 = (a :: t).getD (m + 1 + k) 0
          rw [show m + 1 + k = (m + k) + 1 from by omega]
          exact ih m k

theorem getD_eq_of_take (v w : List Int) (m k : Nat) (hk : k < m)
    (h : v.take m = w.take m) : v.getD k 0 = w.getD k 0 := by
  rw [← getD_take v m k hk, ← getD_take w m k hk, h]

theorem getD_eq_of_drop (v w : List Int) (m k : Nat) (hk : m ≤ k)
    (h : v.drop m = w.drop m) : v.getD k 0 = w.getD k 0 := by
  rw [show k = m + (k - m) from by omega, ← getD_drop v m (k - m),
    ← getD_drop w m (k - m), h]

theorem drop_perm_of_perm (l l' : List Int) (k : Nat) (h : l'.Perm l)
    (ht : l'.take k = l.take k) : (l'.drop k).Perm (l.drop k) := by
  have h1 : l'.take k ++ l'.drop k = l' := List.take_append_drop k l'
  have h3 : l.take k ++ l'.drop k = l' := by rw [← ht]; exact h1
  have h4 : (l.take k ++ l'.drop k).Perm (l.take k ++ l.drop k) := by
    rw [h3, List.take_append_drop]
    exact h
  exact (List.perm_append_left_iff _).mp h4

theorem slice_perm_of_outside (w v : List Int) (a b : Nat)
    (hperm : w.Perm v) (ht : w.take a = v.take a) (hd : w.drop b = v.drop b) :
    (sliceV w a b).Perm (sliceV v a b) := by
  by_cases hab : a ≤ b
  · have h1 : (w.take b).Perm (v.take b) := take_perm_of_perm v w b hperm hd
    have h2 : (w.take b).take a = (v.take b).take a := by
      rw [List.take_take, List.take_take, Nat.min_eq_left hab]
      exact ht
    rw [sliceV_eq_drop_of_take, sliceV_eq_drop_of_take]
    exact drop_perm_of_perm (v.take b) (w.take b) a h1 h2
  · have hz : b - a = 0 := by omega
    rw [sliceV, sliceV, hz]
    simp

theorem sliceV_cons_head (v : List Int) (a c : Nat) (hac : a < c)
    (ha : a < v.length) :
    sliceV v a c = v.getD a 0 :: sliceV v (a + 1) c := by
  rw [sliceV, drop_eq_getD_cons v a ha,
    show c - a = (c - (a + 1)) + 1 from by omega]
  rfl

theorem mem_sliceV (v : List Int) (a b : Nat) (x : Int)
    (hx : x ∈ sliceV v a b) :
    ∃ k, a ≤ k ∧ k < b ∧ k < v.length ∧ x = v.getD k 0 := by
  rw [sliceV] at hx
  obtain ⟨⟨i, hi⟩, hgx⟩ := List.mem_iff_get.mp hx
  have hlen : ((v.drop a).take (b - a)).length = min (b - a) (v.length - a) := by
    rw [List.length_take, List.length_drop]
  have hib : i < b - a := by omega
  have hiv : i < v.length - a := by omega
  refine ⟨a + i, by omega, by omega, by omega, ?_⟩
  rw [← hgx]
  have h1 : ((v.drop a).take (b - a)).get ⟨i, hi⟩ =
      (v.drop a).get ⟨i, by rw [List.length_drop]; omega⟩ := by
    simp [List.get_take]
  have h2 : (v.drop a).get ⟨i, by rw [List.length_drop]; omega⟩ =
      v.get ⟨a + i, by omega⟩ := by
    simp [List.get_drop]
  rw [h1, h2, getD_eq_get v 0 (a + i) (by omega)]

/-- Quick sort without cancellation sorts the sub-range [low, high] in
place (values): the result is a permutation of the input, positions
outside [low, high] keep their values, and the sub-range is
non-decreasing.  Fuel larger than the range size is enough. -/
theorem quickSortFuel_sorted :
    ∀ (f : Nat) (arr : List Elem) (low high : Int) (st : SortSt),
      0 ≤ low → high < (arr.length : Int) → high - low < f →
      (vals (quickSortFuel none f arr low high st).1).Perm (vals arr) ∧
      (vals (quickSortFuel none f arr low high st).1).take low.toNat =
        (vals arr).take low.toNat ∧
      (vals (quickSortFuel none f arr low high st).1).drop (high + 1).toNat =
        (vals arr).drop (high + 1).toNat ∧
      SortedV (sliceV (vals (quickSortFuel none f arr low high st).1)
        low.toNat ((high + 1).toNat)) := by
  intro f
  induction f with
  | zero =>
      intro arr low high st h0 hhn hf
      simp only [quickSortFuel]
      refine ⟨List.Perm.refl _, by trivial, by trivial, ?_⟩
      apply sorted_of_len_le_one
      rw [sliceV, List.length_take, List.length_drop]
      omega
  | succ f ih =>
      intro arr low high st h0 hhn hf
      rw [quickSortFuel]
      by_cases hlh : low < high
      · simp only [hlh, if_pos]
        obtain ⟨s1, s2, s3, s4, s5, s6, s7, s8, s9, _⟩ :=
          partitionE_spec arr low high st h0 hlh hhn
        obtain ⟨i1p, i1t, i1d, i1s⟩ := ih (partitionE none arr low high st).1
          low ((partitionE none arr low high st).2.1 - 1)
          (partitionE none arr low high st).2.2 h0
          (by rw [s1]; omega) (by omega)
        have hl1 : (quickSortFuel none f (partitionE none arr low high st).1
            low ((partitionE none arr low high st).2.1 - 1)
            (partitionE none arr low high st).2.2).1.length = arr.length := by
          rw [quickSortFuel_len, s1]
        obtain ⟨i2p, i2t, i2d, i2s⟩ := ih (quickSortFuel none f
            (partitionE none arr low high st).1 low
            ((partitionE none arr low high st).2.1 - 1)
            (partitionE none arr low high st).2.2).1
          ((partitionE none arr low high st).2.1 + 1) high
          (quickSortFuel none f (partitionE none arr low high st).1 low
            ((partitionE none arr low high st).2.1 - 1)
            (partitionE none arr low high st).2.2).2
          (by omega) (by rw [hl1]; omega) (by omega)
        set P := partitionE none arr low high st with hP
        set Q1 := quickSortFuel none f P.1 low (P.2.1 - 1) P.2.2 with hQ1
        set Q2 := quickSortFuel none f Q1.1 (P.2.1 + 1) high Q1.2 with hQ2
        have hvif : vals (if (low == 0 &&
              high == ((Q2.1.length : Int) - 1)) = true
            then (Q2.1.map (fun e => { e with isSorted := true }),
              publish (Q2.1.map (fun e => { e with isSorted := true })) Q2.2)
            else Q2).1 = vals Q2.1 := by
          by_cases hc : (low == 0 && high == ((Q2.1.length : Int) - 1)) = true
          · rw [if_pos hc]
            exact vals_map_setSorted Q2.1
          · rw [if_neg hc]
        rw [hvif]
        have e1 : P.2.1 - 1 + 1 = P.2.1 := by omega
        rw [e1] at i1d i1s
        have e2 : (high + 1).toNat = high.toNat + 1 := by omega
        have e3 : (P.2.1 + 1).toNat = P.2.1.toNat + 1 := by omega
        rw [e2] at i2d i2s ⊢
        rw [e3] at i2t i2s
        have hq2l : Q2.1.length = arr.length := by
          rw [hQ2, quickSortFuel_len]
          exact hl1
        have hv2l : (vals Q2.1).length = arr.length := by
          rw [length_vals]
          exact hq2l
        refine ⟨i2p.trans (i1p.trans s7), ?_, ?_, ?_⟩
        · have t1 : (vals Q2.1).take low.toNat = (vals Q1.1).take low.toNat :=
            take_congr_le _ _ low.toNat (P.2.1.toNat + 1) (by omega) i2t
          rw [t1, i1t, s8]
        · have d1 : (vals Q1.1).drop (high.toNat + 1) =
              (vals P.1).drop (high.toNat + 1) :=
            drop_congr_le _ _ (high.toNat + 1) P.2.1.toNat (by omega) i1d
          rw [i2d, d1, s9]
        · have hA_take : (vals Q2.1).take P.2.1.toNat =
              (vals Q1.1).take P.2.1.toNat :=
            take_congr_le _ _ P.2.1.toNat (P.2.1.toNat + 1) (by omega) i2t
          have hA_eq : sliceV (vals Q2.1) low.toNat P.2.1.toNat =
              sliceV (vals Q1.1) low.toNat P.2.1.toNat :=
            sliceV_congr_take _ _ _ _ hA_take
          have pA : (sliceV (vals Q1.1) low.toNat P.2.1.toNat).Perm
              (sliceV (vals P.1) low.toNat P.2.1.toNat) :=
            slice_perm_of_outside _ _ _ _ i1p i1t i1d
          have hAmem : ∀ x ∈ sliceV (vals Q2.1) low.toNat P.2.1.toNat,
              x < (vals arr).getD high.toNat 0 := by
            intro x hx
            rw [hA_eq] at hx
            obtain ⟨k, hk1, hk2, hk3, hkx⟩ :=
              mem_sliceV _ _ _ _ (pA.mem_iff.mp hx)
            rw [hkx]
            have h5 := s5 (k : Int) (by omega) (by omega)
            rw [show ((k : Int)).toNat = k from by omega] at h5
            exact h5
          have hC1 : sliceV (vals Q1.1) (P.2.1.toNat + 1) (high.toNat + 1) =
              sliceV (vals P.1) (P.2.1.toNat + 1) (high.toNat + 1) :=
            sliceV_congr_drop _ _ _ _
              (drop_congr_le _ _ (P.2.1.toNat + 1) P.2.1.toNat (by omega) i1d)
          have pC : (sliceV (vals Q2.1) (P.2.1.toNat + 1)
                (high.toNat + 1)).Perm
              (sliceV (vals Q1.1) (P.2.1.toNat + 1) (high.toNat + 1)) :=
            slice_perm_of_outside _ _ _ _ i2p i2t i2d
          have hCmem : ∀ x ∈ sliceV (vals Q2.1) (P.2.1.toNat + 1)
              (high.toNat + 1), (vals arr).getD high.toNat 0 ≤ x := by
            intro x hx
            have hx2 := pC.mem_iff.mp hx
            rw [hC1] at hx2
            obtain ⟨k, hk1, hk2, hk3, hkx⟩ := mem_sliceV _ _ _ _ hx2
            rw [hkx]
            have h6 := s6 (k : Int) (by omega) (by omega)
            rw [show ((k : Int)).toNat = k from by omega] at h6
            exact h6
          have hpiv : (vals Q2.1).getD P.2.1.toNat 0 =
              (vals arr).getD high.toNat 0 := by
            have g1 : (vals Q2.1).getD P.2.1.toNat 0 =
                (vals Q1.1).getD P.2.1.toNat 0 :=
              getD_eq_of_take _ _ (P.2.1.toNat + 1) _ (by omega) i2t
            have g2 : (vals Q1.1).getD P.2.1.toNat 0 =
                (vals P.1).getD P.2.1.toNat 0 :=
              getD_eq_of_drop _ _ P.2.1.toNat _ le_rfl i1d
            rw [g1, g2]
            exact s4
          rw [← sliceV_append (vals Q2.1) low.toNat P.2.1.toNat
            (high.toNat + 1) (by omega) (by omega)]
          rw [sliceV_cons_head (vals Q2.1) P.2.1.toNat (high.toNat + 1)
            (by omega) (by rw [hv2l]; omega)]
          refine List.pairwise_append.mpr ⟨?_, ?_, ?_⟩
          · rw [hA_eq]
            exact i1s
          · refine (sortedV_cons _ _).mpr ⟨?_, i2s⟩
            intro y hy
            rw [hpiv]
            exact hCmem y hy
          · intro x hx y hy
            rcases List.mem_cons.mp hy with h | h
            · rw [h, hpiv]
              exact le_of_lt (hAmem x hx)
            · exact (le_of_lt (hAmem x hx)).trans (hCmem y h)
      · simp only [hlh, if_neg, not_false_iff]
        have hsmall : SortedV (sliceV (vals arr) low.toNat ((high + 1).toNat)) := by
          apply sorted_of_len_le_one
          rw [sliceV, List.length_take, List.length_drop]
          omega
        by_cases hc : (low == 0 && high == ((arr.length : Int) - 1)) = true
        · rw [if_pos hc]
          refine ⟨?_, ?_, ?_, ?_⟩
          · show (vals (arr.map (fun e => { e with isSorted := true }))).Perm
              (vals arr)
            rw [vals_map_setSorted]
          · show (vals (arr.map (fun e => { e with isSorted := true }))).take
                low.toNat = (vals arr).take low.toNat
            rw [vals_map_setSorted]
          · show (vals (arr.map (fun e => { e with isSorted := true }))).drop
                (high + 1).toNat = (vals arr).drop (high + 1).toNat
            rw [vals_map_setSorted]
          · show SortedV (sliceV (vals (arr.map
                (fun e => { e with isSorted := true }))) low.toNat
                ((high + 1).toNat))
            rw [vals_map_setSorted]
            exact hsmall
        · rw [if_neg hc]
          exact ⟨List.Perm.refl _, rfl, rfl, hsmall⟩

theorem quick_sorted_perm (l : List Elem) :
    SortedV (vals (quickRun l).1) ∧ (vals (quickRun l).1).Perm (vals l) := by
  obtain ⟨hp, _, _, hs⟩ := quickSortFuel_sorted (l.length + 1) l 0
    ((l.length : Int) - 1) st0 (by omega) (by omega) (by omega)
  rw [quickRun, quickSortE]
  refine ⟨?_, hp⟩
  have e : (((l.length : Int) - 1 + 1)).toNat = l.length := by omega
  rw [e, show ((0 : Int)).toNat = 0 from rfl] at hs
  have hrl : (vals (quickSortFuel none (l.length + 1) l 0
      ((l.length : Int) - 1) st0).1).length = l.length := by
    rw [length_vals, quickSortFuel_len]
  rw [sliceV, List.drop_zero, Nat.sub_zero,
    List.take_all_of_le (le_of_eq hrl)] at hs
  exact hs

/-- A list is sorted when its getD values are monotone at all in-range
index pairs. -/
theorem sortedV_of_getD (v : List Int)
    (h : ∀ k1 k2, k1 < k2 → k2 < v.length → v.getD k1 0 ≤ v.getD k2 0) :
    SortedV v := by
  apply List.pairwise_iff_getElem.mpr
  intro i j hi hj hij
  have h2 := h i j hij hj
  rw [getD_eq_get v 0 i (by omega), getD_eq_get v 0 j (by omega)] at h2
  exact h2

/-! ## Selection sort: the scan finds a minimum, the outer loop sorts -/

theorem selInner_spec :
    ∀ (m : Nat) (arr : List Elem) (j minIdx : Nat) (st : SortSt),
      (selInner none m arr j minIdx st).2.2.2 = false ∧
      vals (selInner none m arr j minIdx st).1 = vals arr ∧
      ((selInner none m arr j minIdx st).2.1 = minIdx ∨
        (j ≤ (selInner none m arr j minIdx st).2.1 ∧
          (selInner none m arr j minIdx st).2.1 < j + m)) ∧
      (vals arr).getD (selInner none m arr j minIdx st).2.1 0 ≤
        (vals arr).getD minIdx 0 ∧
      (∀ k, j ≤ k → k < j + m →
        (vals arr).getD (selInner none m arr j minIdx st).2.1 0 ≤
          (vals arr).getD k 0) := by
  intro m
  induction m with
  | zero =>
      intro arr j minIdx st
      exact ⟨rfl, rfl, Or.inl rfl, le_refl _,
        fun k hk1 hk2 => absurd hk2 (by omega)⟩
  | succ m ih =>
      intro arr j minIdx st
      rw [selInner]
      simp only [readFlag, flagAt, Bool.not_true, Bool.false_eq_true, if_false]
      have hvc : (getE (setCmp arr j true) j).value = (vals arr).getD j 0 := by
        rw [vals_getD, vals_setCmp]
      have hvm : (getE (setCmp arr j true) minIdx).value =
          (vals arr).getD minIdx 0 := by
        rw [vals_getD, vals_setCmp]
      by_cases hc : (getE (setCmp arr j true) j).value <
          (getE (setCmp arr j true) minIdx).value
      · simp only [hc, if_pos]
        obtain ⟨f1, f2, f3, f4, f5⟩ := ih
          (setCmp (setCmp (setCmp arr j true) minIdx false) j true) (j + 1) j
          (publish (setCmp (setCmp (setCmp arr j true) minIdx false) j true)
            (publish (setCmp arr j true) ⟨st.reads + 1, st.trace⟩))
        rw [hvc, hvm] at hc
        rw [show vals (setCmp (setCmp (setCmp arr j true) minIdx false) j
            true) = vals arr from by simp only [vals_setCmp]] at f2 f4 f5
        refine ⟨f1, f2, ?_, f4.trans (le_of_lt hc), ?_⟩
        · rcases f3 with h | h
          · exact Or.inr ⟨by omega, by omega⟩
          · exact Or.inr ⟨by omega, by omega⟩
        · intro k hk1 hk2
          by_cases hkj : k = j
          · rw [hkj]
            exact f4
          · exact f5 k (by omega) (by omega)
      · simp only [hc, if_neg, not_false_iff]
        obtain ⟨f1, f2, f3, f4, f5⟩ := ih
          (setCmp (setCmp arr j true) j false) (j + 1) minIdx
          (publish (setCmp (setCmp arr j true) j false)
            (publish (setCmp arr j true) ⟨st.reads + 1, st.trace⟩))
        rw [hvc, hvm] at hc
        rw [show vals (setCmp (setCmp arr j true) j false) = vals arr from by
          simp only [vals_setCmp]] at f2 f4 f5
        refine ⟨f1, f2, ?_, f4, ?_⟩
        · rcases f3 with h | h
          · exact Or.inl h
          · exact Or.inr ⟨by omega, by omega⟩
        · intro k hk1 hk2
          by_cases hkj : k = j
          · rw [hkj]
            exact f4.trans (not_lt.mp hc)
          · exact f5 k (by omega) (by omega)

theorem selOuter_spec :
    ∀ (p i : Nat) (arr : List Elem) (st : SortSt),
      p + i + 1 = arr.length →
      (∀ k1 k2, k1 < k2 → k2 < arr.length → k1 < i →
        (vals arr).getD k1 0 ≤ (vals arr).getD k2 0) →
      (selOuter none p i arr st).2.2 = false ∧
      (vals (selOuter none p i arr st).1).Perm (vals arr) ∧
      (∀ k1 k2, k1 < k2 → k2 < arr.length → k1 < i + p →
        (vals (selOuter none p i arr st).1).getD k1 0 ≤
          (vals (selOuter none p i arr st).1).getD k2 0) := by
  intro p
  induction p with
  | zero =>
      intro i arr st hn hsort
      exact ⟨rfl, List.Perm.refl _,
        fun k1 k2 h1 h2 h3 => hsort k1 k2 h1 h2 (by omega)⟩
  | succ p ih =>
      intro i arr st hn hsort
      simp only [selOuter]
      obtain ⟨f1, f2, f3, f4, f5⟩ := selInner_spec (arr.length - (i + 1))
        (setCmp arr i true) (i + 1) i st
      rw [f1]
      simp only [Bool.false_eq_true, if_false]
      set r := selInner none (arr.length - (i + 1)) (setCmp arr i true)
        (i + 1) i st with hr
      rw [show vals (setCmp arr i true) = vals arr from vals_setCmp ..]
        at f2 f4 f5
      have hin : i < arr.length := by omega
      have hM1 : i ≤ r.2.1 := by rcases f3 with h | h <;> omega
      have hM2 : r.2.1 < arr.length := by rcases f3 with h | h <;> omega
      have hvlen : (vals arr).length = arr.length := length_vals arr
      have hrlen : r.1.length = arr.length := by
        have h := congrArg List.length f2
        rwa [length_vals, length_vals] at h
      have hmin : ∀ k, i ≤ k → k < arr.length →
          (vals arr).getD r.2.1 0 ≤ (vals arr).getD k 0 := by
        intro k hk1 hk2
        by_cases hki : k = i
        · rw [hki]
          exact f4
        · exact f5 k (by omega) (by omega)
      by_cases hMi : (r.2.1 == i) = true
      · rw [if_pos hMi]
        have hMieq : r.2.1 = i := by
          have h := hMi
          rwa [beq_iff_eq] at h
        rw [hMieq] at hmin
        have hw : vals (setSrt (setSwp (setCmp r.1 i false) i false) i) =
            vals arr := by
          simp only [vals_setSrt, vals_setSwp, vals_setCmp]
          exact f2
        have hlen3 : (setSrt (setSwp (setCmp r.1 i false) i false) i).length =
            arr.length := by
          simp only [setSrt, setSwp, setCmp, List.length_set]
          exact hrlen
        have Hrec := ih (i + 1)
          (setSrt (setSwp (setCmp r.1 i false) i false) i)
          (publish (setSrt (setSwp (setCmp r.1 i false) i false) i) r.2.2.1)
          (by rw [hlen3]; omega)
          (by
            intro k1 k2 h1 h2 h3
            rw [hlen3] at h2
            rw [hw]
            by_cases hk1i : k1 < i
            · exact hsort k1 k2 h1 h2 hk1i
            · have hk1 : k1 = i := by omega
              subst hk1
              exact hmin k2 (by omega) h2)
        obtain ⟨g1, g2, g3⟩ := Hrec
        rw [hw] at g2
        refine ⟨g1, g2, ?_⟩
        intro k1 k2 h1 h2 h3
        exact g3 k1 k2 h1 (by rw [hlen3]; omega) (by omega)
      · rw [if_neg hMi]
        have hMne : r.2.1 ≠ i := by
          intro h
          apply hMi
          rw [beq_iff_eq]
          exact h
        have hw : vals (setSrt (setSwp (setCmp (setSwp (setSwp (setSwp
            (swapE r.1 i r.2.1) i true) r.2.1 true) r.2.1 false) i false)
            i false) i) = swapV (vals arr) i r.2.1 := by
          simp only [vals_setSrt, vals_setSwp, vals_setCmp]
          rw [vals_swapE, f2]
        have hlen3 : (setSrt (setSwp (setCmp (setSwp (setSwp (setSwp
            (swapE r.1 i r.2.1) i true) r.2.1 true) r.2.1 false) i false)
            i false) i).length = arr.length := by
          simp only [setSrt, setSwp, setCmp, List.length_set, length_swapE]
          exact hrlen
        have Hrec := ih (i + 1)
          (setSrt (setSwp (setCmp (setSwp (setSwp (setSwp
            (swapE r.1 i r.2.1) i true) r.2.1 true) r.2.1 false) i false)
            i false) i)
          (publish (setSrt (setSwp (setCmp (setSwp (setSwp (setSwp
            (swapE r.1 i r.2.1) i true) r.2.1 true) r.2.1 false) i false)
            i false) i)
            (publish (setSwp (setSwp (swapE r.1 i r.2.1) i true) r.2.1 true)
              r.2.2.1))
          (by rw [hlen3]; omega)
          (by
            intro k1 k2 h1 h2 h3
            rw [hlen3] at h2
            rw [hw]
            by_cases hk1i : k1 < i
            · rw [swapV_getD_other (vals arr) i r.2.1 k1 (by omega) (by omega)]
              by_cases hk2i : k2 = i
              · rw [hk2i, swapV_getD_fst (vals arr) i r.2.1 (Ne.symm hMne)
                  (by omega)]
                exact hsort k1 r.2.1 (by omega) (by omega) hk1i
              · by_cases hk2m : k2 = r.2.1
                · rw [hk2m, swapV_getD_snd (vals arr) i r.2.1 (by omega)]
                  exact hsort k1 i (by omega) (by omega) hk1i
                · rw [swapV_getD_other (vals arr) i r.2.1 k2 (by omega)
                    (by omega)]
                  exact hsort k1 k2 h1 h2 hk1i
            · have hk1 : k1 = i := by omega
              rw [hk1, swapV_getD_fst (vals arr) i r.2.1 (Ne.symm hMne)
                (by omega)]
              by_cases hk2m : k2 = r.2.1
              · rw [hk2m, swapV_getD_snd (vals arr) i r.2.1 (by omega)]
                exact f4
              · rw [swapV_getD_other (vals arr) i r.2.1 k2 (by omega)
                  (by omega)]
                exact hmin k2 (by omega) h2)
        obtain ⟨g1, g2, g3⟩ := Hrec
        rw [hw] at g2
        refine ⟨g1, g2.trans (swapV_perm (vals arr) i r.2.1 (by omega)
          (by omega)), ?_⟩
        intro k1 k2 h1 h2 h3
        exact g3 k1 k2 h1 (by rw [hlen3]; omega) (by omega)

theorem sel_sorted_perm (l : List Elem) :
    SortedV (vals (selRun l).1) ∧ (vals (selRun l).1).Perm (vals l) := by
  by_cases hn : l.length = 0
  · have hl : l = [] := List.eq_nil_of_length_eq_zero hn
    subst hl
    exact ⟨List.sorted_nil, List.Perm.refl _⟩
  · obtain ⟨g1, g2, g3⟩ := selOuter_spec (l.length - 1) 0 l st0 (by omega)
      (fun k1 k2 h1 h2 h3 => absurd h3 (by omega))
    simp only [selRun, selSortE]
    rw [g1]
    simp only [Bool.false_eq_true, if_false]
    have hlenR : (vals (selOuter none (l.length - 1) 0 l st0).1).length =
        l.length := by
      rw [g2.length_eq, length_vals]
    refine ⟨?_, ?_⟩
    · show SortedV (vals (setSrt (selOuter none (l.length - 1) 0 l st0).1
        (l.length - 1)))
      rw [vals_setSrt]
      apply sortedV_of_getD
      intro k1 k2 h1 h2
      exact g3 k1 k2 h1 (by omega) (by omega)
    · show (vals (setSrt (selOuter none (l.length - 1) 0 l st0).1
        (l.length - 1))).Perm (vals l)
      rw [vals_setSrt]
      exact g2

/-! ## Insertion sort: the shift loop and the outer loop -/

theorem sliceV_getD (v : List Int) (a b t : Nat) (h : t < b - a) :
    (sliceV v a b).getD t 0 = v.getD (a + t) 0 := by
  rw [sliceV, getD_take _ _ _ h, getD_drop]

theorem insInner_spec :
    ∀ (key : Elem) (m : Nat) (arr : List Elem) (jp : Nat) (st : SortSt),
      jp ≤ m → jp < arr.length →
      (insInner none key m arr jp st).2.2.2 = false ∧
      (insInner none key m arr jp st).2.1 ≤ jp ∧
      (insInner none key m arr jp st).1.length = arr.length ∧
      (∀ k, k ≤ (insInner none key m arr jp st).2.1 →
        (vals (insInner none key m arr jp st).1).getD k 0 =
          (vals arr).getD k 0) ∧
      (∀ k, (insInner none key m arr jp st).2.1 ≤ k → k < jp →
        (vals (insInner none key m arr jp st).1).getD (k + 1) 0 =
          (vals arr).getD k 0) ∧
      (∀ k, (insInner none key m arr jp st).2.1 ≤ k → k < jp →
        key.value < (vals arr).getD k 0) ∧
      (∀ k, jp < k → (vals (insInner none key m arr jp st).1).getD k 0 =
        (vals arr).getD k 0) ∧
      ((insInner none key m arr jp st).2.1 = 0 ∨
        (vals arr).getD ((insInner none key m arr jp st).2.1 - 1) 0 ≤
          key.value) := by
  intro key m
  induction m with
  | zero =>
      intro arr jp st hm hlen
      have hjp : jp = 0 := by omega
      subst hjp
      exact ⟨rfl, le_refl _, rfl, fun k _ => rfl,
        fun k hk1 hk2 => absurd hk2 (by omega),
        fun k hk1 hk2 => absurd hk2 (by omega), fun k _ => rfl, Or.inl rfl⟩
  | succ m ih =>
      intro arr jp st hm hlen
      match jp, hm, hlen with
      | 0, _, _ =>
          exact ⟨rfl, le_refl _, rfl, fun k _ => rfl,
            fun k hk1 hk2 => absurd hk2 (by omega),
            fun k hk1 hk2 => absurd hk2 (by omega), fun k _ => rfl, Or.inl rfl⟩
      | jp' + 1, hm, hlen =>
          rw [insInner]
          by_cases hc : (getE arr jp').value > key.value
          · simp only [hc, if_pos]
            simp only [readFlag, flagAt, Bool.not_true, Bool.false_eq_true,
              if_false]
            set oc : Elem :=
              { getE arr jp' with isCompared := false, isSwapped := false }
              with hoc
            set ot : Elem :=
              { getE arr jp' with isCompared := true, isSwapped := true }
              with hot
            have hvoc : oc.value = (vals arr).getD jp' 0 := vals_getD arr jp'
            have hv : vals ((arr.set jp' oc).set (jp' + 1) oc) =
                (vals arr).set (jp' + 1) ((vals arr).getD jp' 0) := by
              rw [vals_set, vals_set, hvoc, set_getD_self]
            have hlen2 : ((arr.set jp' oc).set (jp' + 1) oc).length =
                arr.length := by
              simp [List.length_set]
            have hvl : (vals arr).length = arr.length := length_vals arr
            obtain ⟨g1, g2, g3, g4, g5, g6, g7, g8⟩ := ih
              ((arr.set jp' oc).set (jp' + 1) oc) jp'
              (publish ((arr.set jp' ot).set (jp' + 1) ot)
                ⟨st.reads + 1, st.trace⟩)
              (by omega) (by rw [hlen2]; omega)
            have hnext_ne : ∀ k, k ≠ jp' + 1 →
                (vals ((arr.set jp' oc).set (jp' + 1) oc)).getD k 0 =
                  (vals arr).getD k 0 := by
              intro k hk
              rw [hv, getD_set_ne_int _ _ _ _ (Ne.symm hk)]
            have hnext_eq :
                (vals ((arr.set jp' oc).set (jp' + 1) oc)).getD (jp' + 1) 0 =
                  (vals arr).getD jp' 0 := by
              rw [hv, getD_set_self_int _ _ _ (by rw [hvl]; omega)]
            rw [show (getE arr jp').value = (vals arr).getD jp' 0 from
              vals_getD arr jp'] at hc
            refine ⟨g1, by omega, g3.trans hlen2, ?_, ?_, ?_, ?_, ?_⟩
            · intro k hk
              rw [g4 k hk, hnext_ne k (by omega)]
            · intro k hk1 hk2
              by_cases hkj : k = jp'
              · rw [hkj, g7 (jp' + 1) (by omega), hnext_eq]
              · rw [g5 k hk1 (by omega), hnext_ne k (by omega)]
            · intro k hk1 hk2
              by_cases hkj : k = jp'
              · rw [hkj]
                exact hc
              · have h6 := g6 k hk1 (by omega)
                rwa [hnext_ne k (by omega)] at h6
            · intro k hk
              rw [g7 k (by omega), hnext_ne k (by omega)]
            · rcases g8 with h | h
              · exact Or.inl h
              · refine Or.inr ?_
                rwa [hnext_ne _ (by omega)] at h
          · simp only [hc, if_neg, not_false_iff]
            refine ⟨by trivial, le_refl _, by trivial, fun k _ => by trivial,
              fun k hk1 hk2 => absurd hk2 (by omega),
              fun k hk1 hk2 => absurd hk2 (by omega), fun k _ => by trivial,
              Or.inr ?_⟩
            have h2 := not_lt.mp hc
            rw [show (getE arr jp').value = (vals arr).getD jp' 0 from
              vals_getD arr jp'] at h2
            exact h2

theorem drop_split_at (v : List Int) (J i : Nat) (hJ : J ≤ i)
    (hi : i < v.length) :
    v.drop J = sliceV v J i ++ v.getD i 0 :: v.drop (i + 1) := by
  have h1 : v.drop J = (v.drop J).take (i - J) ++ (v.drop J).drop (i - J) :=
    (List.take_append_drop _ _).symm
  rw [h1, sliceV]
  congr 1
  rw [List.drop_drop]
  rw [show J + (i - J) = i from by omega]
  exact drop_eq_getD_cons v i hi

theorem insert_decomp (v : List Int) (J i : Nat) (hJ : J ≤ i)
    (hi : i < v.length) :
    v = v.take J ++ (sliceV v J i ++ v.getD i 0 :: v.drop (i + 1)) := by
  conv_lhs => rw [← List.take_append_drop J v]
  rw [drop_split_at v J i hJ hi]

theorem insert_perm (v : List Int) (J i : Nat) (hJ : J ≤ i)
    (hi : i < v.length) :
    (v.take J ++ v.getD i 0 :: (sliceV v J i ++ v.drop (i + 1))).Perm v := by
  conv_rhs => rw [insert_decomp v J i hJ hi]
  exact List.Perm.append_left _ List.perm_middle.symm

theorem insOuter_spec :
    ∀ (p i : Nat) (arr : List Elem) (st : SortSt),
      1 ≤ i → p + i = arr.length →
      (∀ k1 k2, k1 < k2 → k2 < i →
        (vals arr).getD k1 0 ≤ (vals arr).getD k2 0) →
      (insOuter none p i arr st).2.2 = false ∧
      (vals (insOuter none p i arr st).1).Perm (vals arr) ∧
      (∀ k1 k2, k1 < k2 → k2 < i + p →
        (vals (insOuter none p i arr st).1).getD k1 0 ≤
          (vals (insOuter none p i arr st).1).getD k2 0) := by
  intro p
  induction p with
  | zero =>
      intro i arr st h1 hn hsort
      exact ⟨rfl, List.Perm.refl _, fun k1 k2 ha hb => hsort k1 k2 ha hb⟩
  | succ p ih =>
      intro i arr st h1 hn hsort
      have hin : i < arr.length := by omega
      simp only [insOuter]
      simp only [readFlag, flagAt, Bool.not_true, Bool.false_eq_true, if_false]
      obtain ⟨g1, g2, g3, g4, g5, g6, g7, g8⟩ := insInner_spec
        { getE arr i with isCompared := true } i
        (arr.set i { getE arr i with isCompared := true }) i
        (publish (arr.set i { getE arr i with isCompared := true })
          ⟨st.reads + 1, st.trace⟩)
        (le_refl i) (by simp only [List.length_set]; omega)
      rw [g1]
      simp only [Bool.false_eq_true, if_false]
      set q := insInner none { getE arr i with isCompared := true } i
        (arr.set i { getE arr i with isCompared := true }) i
        (publish (arr.set i { getE arr i with isCompared := true })
          ⟨st.reads + 1, st.trace⟩) with hq
      have hv1 : vals (arr.set i { getE arr i with isCompared := true }) =
          vals arr := vals_set_value arr i _ rfl
      rw [hv1] at g4 g5 g7 g8
      have hkey : ({ getE arr i with isCompared := true } : Elem).value =
          (vals arr).getD i 0 := vals_getD arr i
      rw [hkey] at g6 g8
      rw [hv1] at g6
      have hvl : (vals arr).length = arr.length := length_vals arr
      have hqlen : q.1.length = arr.length := by
        rw [g3]
        simp only [List.length_set]
      have hq1vl : (vals q.1).length = arr.length := by
        rw [length_vals]
        exact hqlen
      have hA2v : vals (q.1.set q.2.1
          { { getE arr i with isCompared := true } with isCompared := false }) =
          (vals q.1).set q.2.1 ((vals arr).getD i 0) := by
        rw [vals_set]
        congr 1
      have hA2len : (q.1.set q.2.1
          { { getE arr i with isCompared := true } with
            isCompared := false }).length = arr.length := by
        simp only [List.length_set]
        exact hqlen
      have hWJ : (vals (q.1.set q.2.1
          { { getE arr i with isCompared := true } with
            isCompared := false })).getD q.2.1 0 = (vals arr).getD i 0 := by
        rw [hA2v, getD_set_self_int _ _ _ (by rw [hq1vl]; omega)]
      have hWne : ∀ k, k ≠ q.2.1 → (vals (q.1.set q.2.1
          { { getE arr i with isCompared := true } with
            isCompared := false })).getD k 0 = (vals q.1).getD k 0 := by
        intro k hk
        rw [hA2v, getD_set_ne_int _ _ _ _ (Ne.symm hk)]
      have hWlt : ∀ k, k < q.2.1 → (vals (q.1.set q.2.1
          { { getE arr i with isCompared := true } with
            isCompared := false })).getD k 0 = (vals arr).getD k 0 := by
        intro k hk
        rw [hWne k (by omega), g4 k (by omega)]
      have hWmid : ∀ k, q.2.1 < k → k ≤ i → (vals (q.1.set q.2.1
          { { getE arr i with isCompared := true } with
            isCompared := false })).getD k 0 =
          (vals arr).getD (k - 1) 0 := by
        intro k hk1 hk2
        rw [hWne k (by omega)]
        have h5 := g5 (k - 1) (by omega) (by omega)
        rw [show k - 1 + 1 = k from by omega] at h5
        exact h5
      have hWhi : ∀ k, i < k → (vals (q.1.set q.2.1
          { { getE arr i with isCompared := true } with
            isCompared := false })).getD k 0 = (vals arr).getD k 0 := by
        intro k hk
        rw [hWne k (by omega), g7 k (by omega)]
      have hT : ((vals arr).take q.2.1).length = q.2.1 := by
        rw [List.length_take, hvl]
        omega
      have hS : (sliceV (vals arr) q.2.1 i).length = i - q.2.1 :=
        sliceV_len _ _ _ (by rw [hvl]; omega) (by omega)
      have hRlen : ((vals arr).take q.2.1 ++ (vals arr).getD i 0 ::
          (sliceV (vals arr) q.2.1 i ++ (vals arr).drop (i + 1))).length =
          arr.length := by
        rw [List.length_append, List.length_cons, List.length_append, hT, hS,
          List.length_drop, hvl]
        omega
      have hlist : vals (q.1.set q.2.1
          { { getE arr i with isCompared := true } with
            isCompared := false }) =
          (vals arr).take q.2.1 ++ (vals arr).getD i 0 ::
            (sliceV (vals arr) q.2.1 i ++ (vals arr).drop (i + 1)) := by
        apply eq_of_getD
        · rw [length_vals, hA2len, hRlen]
        · intro k
          by_cases hkn : k < arr.length
          · by_cases hk1 : k < q.2.1
            · rw [hWlt k hk1,
                List.getD_append _ _ _ _ (by rw [hT]; omega),
                getD_take _ _ _ hk1]
            · rw [List.getD_append_right _ _ _ _ (by rw [hT]; omega), hT]
              by_cases hk2 : k = q.2.1
              · rw [hk2, hWJ, show q.2.1 - q.2.1 = 0 from by omega,
                  List.getD_cons_zero]
              · rw [show k - q.2.1 = (k - q.2.1 - 1) + 1 from by omega,
                  List.getD_cons_succ]
                by_cases hk3 : k ≤ i
                · rw [hWmid k (by omega) hk3,
                    List.getD_append _ _ _ _ (by rw [hS]; omega),
                    sliceV_getD _ _ _ _ (by omega),
                    show q.2.1 + (k - q.2.1 - 1) = k - 1 from by omega]
                · rw [hWhi k (by omega),
                    List.getD_append_right _ _ _ _ (by rw [hS]; omega), hS,
                    getD_drop,
                    show i + 1 + (k - q.2.1 - 1 - (i - q.2.1)) = k from
                      by omega]
          · rw [List.getD_eq_default _ _ (by rw [length_vals, hA2len]; omega),
              List.getD_eq_default _ _ (by rw [hRlen]; omega)]
      have hperm2 : (vals (q.1.set q.2.1
          { { getE arr i with isCompared := true } with
            isCompared := false })).Perm (vals arr) := by
        rw [hlist]
        exact insert_perm (vals arr) q.2.1 i g2 (by rw [hvl]; omega)
      have hlevi : ∀ k, k < q.2.1 →
          (vals arr).getD k 0 ≤ (vals arr).getD i 0 := by
        intro k hk
        rcases g8 with h0 | hle
        · exact absurd hk (by omega)
        · by_cases hkJ : k = q.2.1 - 1
          · rw [hkJ]
            exact hle
          · exact (hsort k (q.2.1 - 1) (by omega) (by omega)).trans hle
      have hsorted2 : ∀ k1 k2, k1 < k2 → k2 < i + 1 →
          (vals (q.1.set q.2.1
            { { getE arr i with isCompared := true } with
              isCompared := false })).getD k1 0 ≤
          (vals (q.1.set q.2.1
            { { getE arr i with isCompared := true } with
              isCompared := false })).getD k2 0 := by
        intro k1 k2 h12 hk2
        by_cases hk1lt : k1 < q.2.1
        · rw [hWlt k1 hk1lt]
          by_cases hk2lt : k2 < q.2.1
          · rw [hWlt k2 hk2lt]
            exact hsort k1 k2 h12 (by omega)
          · by_cases hk2eq : k2 = q.2.1
            · rw [hk2eq, hWJ]
              exact hlevi k1 hk1lt
            · rw [hWmid k2 (by omega) (by omega)]
              exact (hlevi k1 hk1lt).trans
                (le_of_lt (g6 (k2 - 1) (by omega) (by omega)))
        · by_cases hk1eq : k1 = q.2.1
          · rw [hk1eq, hWJ, hWmid k2 (by omega) (by omega)]
            exact le_of_lt (g6 (k2 - 1) (by omega) (by omega))
          · rw [hWmid k1 (by omega) (by omega), hWmid k2 (by omega) (by omega)]
            exact hsort (k1 - 1) (k2 - 1) (by omega) (by omega)
      have Hrec := ih (i + 1) (q.1.set q.2.1
          { { getE arr i with isCompared := true } with isCompared := false })
        (publish (q.1.set q.2.1
          { { getE arr i with isCompared := true } with isCompared := false })
          q.2.2.1)
        (by omega) (by rw [hA2len]; omega) (fun k1 k2 ha hb =>
          hsorted2 k1 k2 ha hb)
      obtain ⟨G1, G2, G3⟩ := Hrec
      refine ⟨G1, G2.trans hperm2, ?_⟩
      intro k1 k2 ha hb
      exact G3 k1 k2 ha (by omega)

theorem ins_sorted_perm (l : List Elem) :
    SortedV (vals (insRun l).1) ∧ (vals (insRun l).1).Perm (vals l) := by
  by_cases hn : l.length = 0
  · have hl : l = [] := List.eq_nil_of_length_eq_zero hn
    subst hl
    exact ⟨List.sorted_nil, List.Perm.refl _⟩
  · obtain ⟨g1, g2, g3⟩ := insOuter_spec (l.length - 1) 1 l st0 (le_refl 1)
      (by omega) (fun k1 k2 ha hb => absurd ha (by omega))
    simp only [insRun, insSortE]
    rw [g1]
    simp only [Bool.false_eq_true, if_false]
    have hlenR : (vals (insOuter none (l.length - 1) 1 l st0).1).length =
        l.length := by
      rw [g2.length_eq, length_vals]
    refine ⟨?_, ?_⟩
    · show SortedV (vals ((insOuter none (l.length - 1) 1 l st0).1.map
        (fun e => { e with isSorted := true })))
      rw [vals_map_setSorted]
      apply sortedV_of_getD
      intro k1 k2 ha hb
      exact g3 k1 k2 ha (by omega)
    · show (vals ((insOuter none (l.length - 1) 1 l st0).1.map
        (fun e => { e with isSorted := true }))).Perm (vals l)
      rw [vals_map_setSorted]
      exact g2

/-- C1: for every input array, each of the five sorting variants, run to
completion with the run flag true throughout, produces a final array
whose values are in non-decreasing order and are a permutation of the
input values. -/
theorem c1 :
    ∀ l : List Elem,
      (SortedV (vals (bubbleRun l).1) ∧ (vals (bubbleRun l).1).Perm (vals l)) ∧
      (SortedV (vals (selRun l).1) ∧ (vals (selRun l).1).Perm (vals l)) ∧
      (SortedV (vals (insRun l).1) ∧ (vals (insRun l).1).Perm (vals l)) ∧
      (SortedV (vals (mergeRun l).1) ∧ (vals (mergeRun l).1).Perm (vals l)) ∧
      (SortedV (vals (quickRun l).1) ∧ (vals (quickRun l).1).Perm (vals l)) :=
  fun l => ⟨bubble_sorted_perm l, sel_sorted_perm l, ins_sorted_perm l,
    merge_sorted_perm l, quick_sorted_perm l⟩

/-! ## C9 infrastructure: monotone sorted flags along the trace -/

theorem srtLE_refl (x : List Elem) : srtLE x x := fun _ h => h

theorem srtLE_trans {x y z : List Elem} (h1 : srtLE x y) (h2 : srtLE y z) :
    srtLE x z := fun i hi => h2 i (h1 i hi)

theorem srtLE_of_allUnsorted {x : List Elem} (h : AllUnsorted x)
    (y : List Elem) : srtLE x y := by
  intro i hi
  rw [getE_srt_false x i h] at hi
  exact absurd hi (by simp)

theorem smap_getD (arr : List Elem) (i : Nat) :
    (getE arr i).isSorted = (smap arr).getD i false := by
  induction arr generalizing i with
  | nil => rfl
  | cons a t ih =>
      cases i with
      | zero => rfl
      | succ k => simpa [getE, smap, List.getD] using ih k

theorem srtLE_of_smap_eq {x y : List Elem} (h : smap x = smap y) :
    srtLE x y := by
  intro i hi
  rw [smap_getD] at hi ⊢
  rw [← h]
  exact hi

theorem smap_set_pres (arr : List Elem) (i : Nat) (e : Elem)
    (h : e.isSorted = (getE arr i).isSorted) :
    smap (arr.set i e) = smap arr := by
  rw [smap, List.map_set, h, smap_getD]
  exact set_getD_self _ _ _

theorem smap_setCmp (arr : List Elem) (i : Nat) (b : Bool) :
    smap (setCmp arr i b) = smap arr := smap_set_pres arr i _ rfl

theorem smap_setSwp (arr : List Elem) (i : Nat) (b : Bool) :
    smap (setSwp arr i b) = smap arr := smap_set_pres arr i _ rfl

theorem srtLE_setSrt (arr : List Elem) (i : Nat) : srtLE arr (setSrt arr i) := by
  intro k hk
  by_cases hki : k = i
  · subst hki
    by_cases hlt : k < arr.length
    · rw [setSrt, getE_set_self _ _ _ hlt]
    · rw [setSrt, List.set_eq_of_length_le (by omega)]
      exact hk
  · rw [setSrt, getE_set_ne _ _ _ _ (Ne.symm hki)]
    exact hk

theorem pairwise_srtLE_of_chain :
    ∀ L : List (List Elem), List.Chain' srtLE L → List.Pairwise srtLE L := by
  intro L
  induction L with
  | nil => intro _; exact List.Pairwise.nil
  | cons a t ih =>
      intro h
      match t with
      | [] => exact List.pairwise_singleton _ _
      | b :: t' =>
          rw [List.chain'_cons] at h
          have hp := ih h.2
          refine List.Pairwise.cons ?_ hp
          intro y hy
          rcases List.mem_cons.mp hy with hyb | hyt
          · rw [hyb]
            exact h.1
          · rcases hp with _ | ⟨hb, _⟩
            exact srtLE_trans h.1 (hb y hyt)

theorem mem_dropLast_cons (a : List Elem) (t : List (List Elem))
    (x : List Elem) (hx : x ∈ (a :: t).dropLast) :
    x = a ∨ x ∈ t.dropLast := by
  match t with
  | [] => simp at hx
  | b :: t' =>
      rw [List.dropLast_cons₂] at hx
      rcases List.mem_cons.mp hx with h | h
      · exact Or.inl h
      · exact Or.inr h

theorem pairwise_srtLE_clean :
    ∀ L : List (List Elem), (∀ s ∈ L.dropLast, AllUnsorted s) →
      List.Pairwise srtLE L := by
  intro L
  induction L with
  | nil => intro _; exact List.Pairwise.nil
  | cons a t ih =>
      intro h
      match t with
      | [] => exact List.pairwise_singleton _ _
      | b :: t' =>
          have ha : AllUnsorted a := by
            apply h
            rw [List.dropLast_cons₂]
            exact List.mem_cons_self _ _
          refine List.Pairwise.cons (fun y _ => srtLE_of_allUnsorted ha y)
            (ih ?_)
          intro s hs
          apply h
          rw [List.dropLast_cons₂]
          exact List.mem_cons_of_mem a hs

theorem chain_concat_mono (L : List (List Elem)) (x y : List Elem)
    (h : List.Chain' srtLE (L ++ [x])) (hxy : srtLE x y) :
    List.Chain' srtLE (L ++ [y]) := by
  rw [List.chain'_append] at h ⊢
  refine ⟨h.1, List.chain'_singleton y, ?_⟩
  intro p hp q hq
  simp only [List.head?_cons, Option.mem_def, Option.some.injEq] at hq
  have := h.2.2 p hp x (by simp)
  rw [← hq]
  exact srtLE_trans this hxy

theorem partitionLoop_cleanD :
    ∀ (f : Nat) (arr : List Elem) (i j pv : Int) (st : SortSt),
      AllUnsorted arr →
      ∃ D, (partitionLoop none f arr i j pv st).2.2.1.trace = st.trace ++ D ∧
        ∀ s ∈ D, AllUnsorted s := by
  intro f
  induction f with
  | zero =>
      intro arr i j pv st _
      exact ⟨[], (List.append_nil _).symm, fun s hs => absurd hs
        (List.not_mem_nil s)⟩
  | succ f ih =>
      intro arr i j pv st h
      rw [partitionLoop]
      simp only [readFlag, flagAt, Bool.not_true, Bool.false_eq_true, if_false]
      by_cases hc : (getEI (setCmp arr j.toNat true) j).value < pv
      · simp only [hc, if_pos]
        obtain ⟨D, hD, hDc⟩ := ih (setCmp (setSwp (setSwp (setSwp (setSwp
          (swapE (setCmp arr j.toNat true) (i + 1).toNat j.toNat)
          (i + 1).toNat true) j.toNat true) (i + 1).toNat false) j.toNat
          false) j.toNat false) (i + 1) (j + 1) pv
          (publish (setSwp (setSwp (swapE (setCmp arr j.toNat true)
            (i + 1).toNat j.toNat) (i + 1).toNat true) j.toNat true)
            (publish (setCmp arr j.toNat true) ⟨st.reads + 1, st.trace⟩))
          (allUnsorted_setCmp _ _ _ (allUnsorted_setSwp _ _ _
            (allUnsorted_setSwp _ _ _ (allUnsorted_setSwp _ _ _
              (allUnsorted_setSwp _ _ _ (allUnsorted_swapE _ _ _
                (allUnsorted_setCmp _ _ _ h)))))))
        refine ⟨[setCmp arr j.toNat true,
          setSwp (setSwp (swapE (setCmp arr j.toNat true) (i + 1).toNat
            j.toNat) (i + 1).toNat true) j.toNat true] ++ D, ?_, ?_⟩
        · rw [hD]
          simp [publish]
        · intro s hs
          rcases List.mem_append.mp hs with hs1 | hs2
          · rcases List.mem_cons.mp hs1 with h1 | h1
            · rw [h1]
              exact allUnsorted_setCmp _ _ _ h
            · rw [List.mem_singleton.mp h1]
              exact allUnsorted_setSwp _ _ _ (allUnsorted_setSwp _ _ _
                (allUnsorted_swapE _ _ _ (allUnsorted_setCmp _ _ _ h)))
          · exact hDc s hs2
      · simp only [hc, if_neg, not_false_iff]
        obtain ⟨D, hD, hDc⟩ := ih (setCmp (setCmp arr j.toNat true) j.toNat
          false) i (j + 1) pv
          (publish (setCmp arr j.toNat true) ⟨st.reads + 1, st.trace⟩)
          (allUnsorted_setCmp _ _ _ (allUnsorted_setCmp _ _ _ h))
        refine ⟨[setCmp arr j.toNat true] ++ D, ?_, ?_⟩
        · rw [hD]
          simp [publish]
        · intro s hs
          rcases List.mem_append.mp hs with hs1 | hs2
          · rw [List.mem_singleton.mp hs1]
            exact allUnsorted_setCmp _ _ _ h
          · exact hDc s hs2

theorem partitionE_cleanD (arr : List Elem) (low high : Int) (st : SortSt)
    (h : AllUnsorted arr) :
    ∃ D, (partitionE none arr low high st).2.2.trace = st.trace ++ D ∧
      ∀ s ∈ D, AllUnsorted s := by
  rw [partitionE]
  simp only [readFlag, flagAt, Bool.not_true, Bool.false_eq_true, if_false]
  rw [partitionLoop_flag]
  simp only [Bool.false_eq_true, if_false]
  obtain ⟨D, hD, hDc⟩ := partitionLoop_cleanD (high - low).toNat
    (setCmp arr high.toNat true) (low - 1) low ((getEI arr high).value)
    (publish (setCmp arr high.toNat true) ⟨st.reads + 1, st.trace⟩)
    (allUnsorted_setCmp _ _ _ h)
  have hq : AllUnsorted (partitionLoop none (high - low).toNat
      (setCmp arr high.toNat true) (low - 1) low ((getEI arr high).value)
      (publish (setCmp arr high.toNat true) ⟨st.reads + 1, st.trace⟩)).1 :=
    partitionLoop_unsorted _ _ _ _ _ _ (allUnsorted_setCmp _ _ _ h)
  refine ⟨[setCmp arr high.toNat true] ++ D ++
    [setSwp (setSwp (swapE (partitionLoop none (high - low).toNat
      (setCmp arr high.toNat true) (low - 1) low ((getEI arr high).value)
      (publish (setCmp arr high.toNat true) ⟨st.reads + 1, st.trace⟩)).1
      ((partitionLoop none (high - low).toNat (setCmp arr high.toNat true)
        (low - 1) low ((getEI arr high).value)
        (publish (setCmp arr high.toNat true)
          ⟨st.reads + 1, st.trace⟩)).2.1 + 1).toNat high.toNat)
      ((partitionLoop none (high - low).toNat (setCmp arr high.toNat true)
        (low - 1) low ((getEI arr high).value)
        (publish (setCmp arr high.toNat true)
          ⟨st.reads + 1, st.trace⟩)).2.1 + 1).toNat true) high.toNat true,
    setCmp (setSwp (setSwp (setSwp (setSwp (swapE (partitionLoop none
      (high - low).toNat (setCmp arr high.toNat true) (low - 1) low
      ((getEI arr high).value) (publish (setCmp arr high.toNat true)
        ⟨st.reads + 1, st.trace⟩)).1
      ((partitionLoop none (high - low).toNat (setCmp arr high.toNat true)
        (low - 1) low ((getEI arr high).value)
        (publish (setCmp arr high.toNat true)
          ⟨st.reads + 1, st.trace⟩)).2.1 + 1).toNat high.toNat)
      ((partitionLoop none (high - low).toNat (setCmp arr high.toNat true)
        (low - 1) low ((getEI arr high).value)
        (publish (setCmp arr high.toNat true)
          ⟨st.reads + 1, st.trace⟩)).2.1 + 1).toNat true) high.toNat true)
      ((partitionLoop none (high - low).toNat (setCmp arr high.toNat true)
        (low - 1) low ((getEI arr high).value)
        (publish (setCmp arr high.toNat true)
          ⟨st.reads + 1, st.trace⟩)).2.1 + 1).toNat false) high.toNat false)
      ((partitionLoop none (high - low).toNat (setCmp arr high.toNat true)
        (low - 1) low ((getEI arr high).value)
        (publish (setCmp arr high.toNat true)
          ⟨st.reads + 1, st.trace⟩)).2.1 + 1).toNat false], ?_, ?_⟩
  · simp only [publish] at hD ⊢
    rw [hD]
    simp
  · intro s hs
    rcases List.mem_append.mp hs with hs1 | hs2
    · rcases List.mem_append.mp hs1 with hs3 | hs4
      · rw [List.mem_singleton.mp hs3]
        exact allUnsorted_setCmp _ _ _ h
      · exact hDc s hs4
    · rcases List.mem_cons.mp hs2 with h1 | h1
      · rw [h1]
        exact allUnsorted_setSwp _ _ _ (allUnsorted_setSwp _ _ _
          (allUnsorted_swapE _ _ _ hq))
      · rw [List.mem_singleton.mp h1]
        exact allUnsorted_setCmp _ _ _ (allUnsorted_setSwp _ _ _
          (allUnsorted_setSwp _ _ _ (allUnsorted_setSwp _ _ _
            (allUnsorted_setSwp _ _ _ (allUnsorted_swapE _ _ _ hq)))))

theorem quickSortFuel_cleanD :
    ∀ (f : Nat) (arr : List Elem) (low high : Int) (st : SortSt),
      0 ≤ low → high < (arr.length : Int) → AllUnsorted arr →
      (0 < low ∨ high < (arr.length : Int) - 1) →
      ∃ D, (quickSortFuel none f arr low high st).2.trace = st.trace ++ D ∧
        ∀ s ∈ D, AllUnsorted s := by
  intro f
  induction f with
  | zero =>
      intro arr low high st _ _ _ _
      exact ⟨[], (List.append_nil _).symm, fun s hs => absurd hs
        (List.not_mem_nil s)⟩
  | succ f ih =>
      intro arr low high st h0 hhn h hside
      rw [quickSortFuel]
      by_cases hlh : low < high
      · simp only [hlh, if_pos]
        obtain ⟨p1, p2, p3, _⟩ := partitionE_spec arr low high st h0 hlh hhn
        obtain ⟨Dp, hDp, hDpc⟩ := partitionE_cleanD arr low high st h
        have hu1 : AllUnsorted (partitionE none arr low high st).1 :=
          partitionE_unsorted arr low high st h
        obtain ⟨D1, hD1, hD1c⟩ := ih (partitionE none arr low high st).1 low
          ((partitionE none arr low high st).2.1 - 1)
          (partitionE none arr low high st).2.2 h0 (by rw [p1]; omega) hu1
          (Or.inr (by rw [p1]; omega))
        have hl1 : (quickSortFuel none f (partitionE none arr low high st).1
            low ((partitionE none arr low high st).2.1 - 1)
            (partitionE none arr low high st).2.2).1.length = arr.length := by
          rw [quickSortFuel_len, p1]
        have hu2 : AllUnsorted (quickSortFuel none f
            (partitionE none arr low high st).1 low
            ((partitionE none arr low high st).2.1 - 1)
            (partitionE none arr low high st).2.2).1 :=
          quickSortFuel_no_mark f _ low _ _ h0 (by rw [p1]; omega) hu1
            (Or.inr (by rw [p1]; omega))
        obtain ⟨D2, hD2, hD2c⟩ := ih (quickSortFuel none f
            (partitionE none arr low high st).1 low
            ((partitionE none arr low high st).2.1 - 1)
            (partitionE none arr low high st).2.2).1
          ((partitionE none arr low high st).2.1 + 1) high
          (quickSortFuel none f (partitionE none arr low high st).1 low
            ((partitionE none arr low high st).2.1 - 1)
            (partitionE none arr low high st).2.2).2
          (by omega) (by rw [hl1]; omega) hu2 (Or.inl (by omega))
        have hl3 : (quickSortFuel none f
            (quickSortFuel none f (partitionE none arr low high st).1 low
              ((partitionE none arr low high st).2.1 - 1)
              (partitionE none arr low high st).2.2).1
            ((partitionE none arr low high st).2.1 + 1) high
            (quickSortFuel none f (partitionE none arr low high st).1 low
              ((partitionE none arr low high st).2.1 - 1)
              (partitionE none arr low high st).2.2).2).1.length =
            arr.length := by
          rw [quickSortFuel_len, hl1]
        have hcond : ∀ R : List Elem × SortSt, R.1.length = arr.length →
            (low == 0 && high == ((R.1.length : Int) - 1)) = false := by
          intro R hR
          rcases hside with hs | hs
          · rw [show (low == 0) = false from beq_eq_false_iff_ne.mpr
              (by omega)]
            rfl
          · rw [show (high == ((R.1.length : Int) - 1)) = false from
              beq_eq_false_iff_ne.mpr (by rw [hR]; omega)]
            simp
        rw [if_neg (by
          rw [hcond _ hl3]
          simp)]
        refine ⟨Dp ++ D1 ++ D2, ?_, ?_⟩
        · rw [hD2, hD1, hDp]
          simp
        · intro s hs
          rcases List.mem_append.mp hs with hs1 | hs2
          · rcases List.mem_append.mp hs1 with hs3 | hs4
            · exact hDpc s hs3
            · exact hD1c s hs4
          · exact hD2c s hs2
      · simp only [hlh, if_neg, not_false_iff]
        have hcond : (low == 0 && high == ((arr.length : Int) - 1)) = false := by
          rcases hside with hs | hs
          · rw [show (low == 0) = false from beq_eq_false_iff_ne.mpr
              (by omega)]
            rfl
          · rw [show (high == ((arr.length : Int) - 1)) = false from
              beq_eq_false_iff_ne.mpr (by omega)]
            simp
        rw [if_neg (by rw [hcond]; simp)]
        exact ⟨[], (List.append_nil _).symm, fun s hs => absurd hs
          (List.not_mem_nil s)⟩

/-- Quick sort: the published trace of a clean-start run has monotone
sorted flags. -/
theorem quickRun_pairwise (l : List Elem) (h : AllUnsorted l) :
    List.Pairwise srtLE (l :: (quickRun l).2.trace) := by
  apply pairwise_srtLE_clean
  intro s hs
  rcases mem_dropLast_cons _ _ _ hs with h1 | h1
  · rw [h1]
    exact h
  · revert h1
    rw [quickRun, quickSortE]
    rw [show l.length + 1 = l.length + 1 from rfl, quickSortFuel]
    by_cases hlh : (0 : Int) < (l.length : Int) - 1
    · simp only [hlh, if_pos]
      obtain ⟨p1, p2, p3, _⟩ := partitionE_spec l 0 ((l.length : Int) - 1)
        st0 (by omega) hlh (by omega)
      obtain ⟨Dp, hDp, hDpc⟩ := partitionE_cleanD l 0 ((l.length : Int) - 1)
        st0 h
      have hu1 : AllUnsorted (partitionE none l 0 ((l.length : Int) - 1)
          st0).1 := partitionE_unsorted _ _ _ _ h
      obtain ⟨D1, hD1, hD1c⟩ := quickSortFuel_cleanD l.length
        (partitionE none l 0 ((l.length : Int) - 1) st0).1 0
        ((partitionE none l 0 ((l.length : Int) - 1) st0).2.1 - 1)
        (partitionE none l 0 ((l.length : Int) - 1) st0).2.2
        (by omega) (by rw [p1]; omega) hu1 (Or.inr (by rw [p1]; omega))
      have hl1 : (quickSortFuel none l.length
          (partitionE none l 0 ((l.length : Int) - 1) st0).1 0
          ((partitionE none l 0 ((l.length : Int) - 1) st0).2.1 - 1)
          (partitionE none l 0 ((l.length : Int) - 1) st0).2.2).1.length =
          l.length := by
        rw [quickSortFuel_len, p1]
      have hu2 : AllUnsorted (quickSortFuel none l.length
          (partitionE none l 0 ((l.length : Int) - 1) st0).1 0
          ((partitionE none l 0 ((l.length : Int) - 1) st0).2.1 - 1)
          (partitionE none l 0 ((l.length : Int) - 1) st0).2.2).1 :=
        quickSortFuel_no_mark _ _ _ _ _ (by omega) (by rw [p1]; omega) hu1
          (Or.inr (by rw [p1]; omega))
      obtain ⟨D2, hD2, hD2c⟩ := quickSortFuel_cleanD l.length
        (quickSortFuel none l.length
          (partitionE none l 0 ((l.length : Int) - 1) st0).1 0
          ((partitionE none l 0 ((l.length : Int) - 1) st0).2.1 - 1)
          (partitionE none l 0 ((l.length : Int) - 1) st0).2.2).1
        ((partitionE none l 0 ((l.length : Int) - 1) st0).2.1 + 1)
        ((l.length : Int) - 1)
        (quickSortFuel none l.length
          (partitionE none l 0 ((l.length : Int) - 1) st0).1 0
          ((partitionE none l 0 ((l.length : Int) - 1) st0).2.1 - 1)
          (partitionE none l 0 ((l.length : Int) - 1) st0).2.2).2
        (by omega) (by rw [hl1]; omega) hu2 (Or.inl (by omega))
      have hl3 : (quickSortFuel none l.length
          (quickSortFuel none l.length
            (partitionE none l 0 ((l.length : Int) - 1) st0).1 0
            ((partitionE none l 0 ((l.length : Int) - 1) st0).2.1 - 1)
            (partitionE none l 0 ((l.length : Int) - 1) st0).2.2).1
          ((partitionE none l 0 ((l.length : Int) - 1) st0).2.1 + 1)
          ((l.length : Int) - 1)
          (quickSortFuel none l.length
            (partitionE none l 0 ((l.length : Int) - 1) st0).1 0
            ((partitionE none l 0 ((l.length : Int) - 1) st0).2.1 - 1)
            (partitionE none l 0 ((l.length : Int) - 1) st0).2.2).2).1.length =
          l.length := by
        rw [quickSortFuel_len, hl1]
      rw [if_pos (by rw [hl3]; simp)]
      intro h1
      rw [show ∀ A w, (publish A w).trace = w.trace ++ [A] from
        fun A w => rfl, List.dropLast_concat] at h1
      rw [hD2, hD1, hDp] at h1
      simp only [st0, List.nil_append, List.append_assoc] at h1
      rcases List.mem_append.mp h1 with hs1 | hs2
      · exact hDpc s hs1
      · rcases List.mem_append.mp hs2 with hs3 | hs4
        · exact hD1c s hs3
        · exact hD2c s hs4
    · simp only [hlh, if_neg, not_false_iff]
      rw [if_pos (by simp)]
      intro h1
      rw [show ∀ A w, (publish A w).trace = w.trace ++ [A] from
        fun A w => rfl, List.dropLast_concat] at h1
      exact absurd h1 (by simp [st0])

theorem allUnsorted_of_cons {a : Elem} {t : List Elem}
    (h : AllUnsorted (a :: t)) : AllUnsorted t :=
  fun e he => h e (List.mem_cons_of_mem a he)

theorem allUnsorted_head {a : Elem} {t : List Elem}
    (h : AllUnsorted (a :: t)) : a.isSorted = false :=
  h a (List.mem_cons_self a t)

theorem allUnsorted_append {A B : List Elem} (hA : AllUnsorted A)
    (hB : AllUnsorted B) : AllUnsorted (A ++ B) := by
  intro e he
  rcases List.mem_append.mp he with h | h
  · exact hA e h
  · exact hB e h

theorem allUnsorted_snapMid (arr : List Elem) (left : Nat)
    (done : List Elem) (e : Elem) (ha : AllUnsorted arr)
    (hd : AllUnsorted done) (he : e.isSorted = false) :
    AllUnsorted (snapMid arr left done e) := by
  intro x hx
  rw [snapMid] at hx
  rcases List.mem_append.mp hx with h1 | h1
  · rcases List.mem_append.mp h1 with h2 | h2
    · exact ha x (List.mem_of_mem_take h2)
    · exact hd x h2
  · rcases List.mem_cons.mp h1 with h2 | h2
    · rw [h2]
      exact he
    · exact ha x (List.mem_of_mem_drop h2)

theorem mwork_fst_unsorted (f : Nat) (la ra : List Elem)
    (hla : AllUnsorted la) (hra : AllUnsorted ra) :
    AllUnsorted (mwork f la ra).1 := by
  intro e he
  exact mcomb_unsorted f la ra hla hra e
    (List.mem_append.mpr (Or.inl (List.mem_append.mpr (Or.inl he))))

theorem mwork_left_unsorted (f : Nat) (la ra : List Elem)
    (hla : AllUnsorted la) (hra : AllUnsorted ra) :
    AllUnsorted (mwork f la ra).2.1 := by
  intro e he
  exact mcomb_unsorted f la ra hla hra (clearSwp e)
    (List.mem_append.mpr (Or.inl (List.mem_append.mpr (Or.inr
      (List.mem_map_of_mem clearSwp he)))))

theorem mwork_right_unsorted (f : Nat) (la ra : List Elem)
    (hla : AllUnsorted la) (hra : AllUnsorted ra) :
    AllUnsorted (mwork f la ra).2.2 := by
  intro e he
  exact mcomb_unsorted f la ra hla hra (clearSwp e)
    (List.mem_append.mpr (Or.inr (List.mem_map_of_mem clearSwp he)))

theorem allUnsorted_map_clearSwp {l : List Elem} (h : AllUnsorted l) :
    AllUnsorted (l.map clearSwp) := by
  intro e he
  obtain ⟨x, hx, rfl⟩ := List.mem_map.mp he
  exact h x hx

theorem mergeMain_cleanD (arr : List Elem) (left : Nat)
    (harr : AllUnsorted arr) :
    ∀ (f : Nat) (la ra done : List Elem) (st : SortSt),
      AllUnsorted la → AllUnsorted ra → AllUnsorted done →
      ∃ D, (mergeMain none arr left f la ra done st).2.2.2.1.trace =
        st.trace ++ D ∧ ∀ s ∈ D, AllUnsorted s := by
  intro f
  induction f with
  | zero =>
      intro la ra done st _ _ _
      exact ⟨[], (List.append_nil _).symm, fun s hs => absurd hs
        (List.not_mem_nil s)⟩
  | succ f ih =>
      intro la ra done st hla hra hdone
      match la, ra with
      | [], rs =>
          exact ⟨[], (List.append_nil _).symm, fun s hs => absurd hs
            (List.not_mem_nil s)⟩
      | a :: ls, [] =>
          exact ⟨[], (List.append_nil _).symm, fun s hs => absurd hs
            (List.not_mem_nil s)⟩
      | a :: ls, b :: rs =>
          rw [mergeMain]
          simp only [readFlag, flagAt, Bool.not_true, Bool.false_eq_true,
            if_false]
          have hP1 : AllUnsorted (snapMid arr left done
              { getE arr (left + done.length) with isCompared := true }) :=
            allUnsorted_snapMid _ _ _ _ harr hdone
              (getE_srt_false arr _ harr)
          by_cases hab : a.value ≤ b.value
          · simp only [hab, if_pos]
            have hP2 : AllUnsorted (snapMid arr left done
                { a with isSwapped := true }) :=
              allUnsorted_snapMid _ _ _ _ harr hdone
                (by
                  have h0 := allUnsorted_head hla
                  exact h0)
            obtain ⟨D, hD, hDc⟩ := ih ls (b :: rs)
              (done ++ [{ { a with isSwapped := true } with
                isCompared := false, isSwapped := false }])
              (publish (snapMid arr left done { a with isSwapped := true })
                (publish (snapMid arr left done
                  { getE arr (left + done.length) with isCompared := true })
                  ⟨st.reads + 1, st.trace⟩))
              (allUnsorted_of_cons hla) hra
              (allUnsorted_append hdone (fun e he => by
                rw [List.mem_singleton.mp he]
                have h0 := allUnsorted_head hla
                exact h0))
            refine ⟨[snapMid arr left done
                { getE arr (left + done.length) with isCompared := true },
              snapMid arr left done { a with isSwapped := true }] ++ D,
              ?_, ?_⟩
            · rw [hD]
              simp [publish]
            · intro s hs
              rcases List.mem_append.mp hs with hs1 | hs2
              · rcases List.mem_cons.mp hs1 with h1 | h1
                · rw [h1]
                  exact hP1
                · rw [List.mem_singleton.mp h1]
                  exact hP2
              · exact hDc s hs2
          · simp only [hab, if_neg, not_false_iff]
            have hP2 : AllUnsorted (snapMid arr left done
                { b with isSwapped := true }) :=
              allUnsorted_snapMid _ _ _ _ harr hdone
                (by
                  have h0 := allUnsorted_head hra
                  exact h0)
            obtain ⟨D, hD, hDc⟩ := ih (a :: ls) rs
              (done ++ [{ { b with isSwapped := true } with
                isCompared := false, isSwapped := false }])
              (publish (snapMid arr left done { b with isSwapped := true })
                (publish (snapMid arr left done
                  { getE arr (left + done.length) with isCompared := true })
                  ⟨st.reads + 1, st.trace⟩))
              hla (allUnsorted_of_cons hra)
              (allUnsorted_append hdone (fun e he => by
                rw [List.mem_singleton.mp he]
                have h0 := allUnsorted_head hra
                exact h0))
            refine ⟨[snapMid arr left done
                { getE arr (left + done.length) with isCompared := true },
              snapMid arr left done { b with isSwapped := true }] ++ D,
              ?_, ?_⟩
            · rw [hD]
              simp [publish]
            · intro s hs
              rcases List.mem_append.mp hs with hs1 | hs2
              · rcases List.mem_cons.mp hs1 with h1 | h1
                · rw [h1]
                  exact hP1
                · rw [List.mem_singleton.mp h1]
                  exact hP2
              · exact hDc s hs2

theorem mergeTail_cleanD (arr : List Elem) (left : Nat)
    (harr : AllUnsorted arr) :
    ∀ (ls done : List Elem) (st : SortSt),
      AllUnsorted ls → AllUnsorted done →
      ∃ D, (mergeTail none arr left ls done st).2.1.trace =
        st.trace ++ D ∧ ∀ s ∈ D, AllUnsorted s := by
  intro ls
  induction ls with
  | nil =>
      intro done st _ _
      exact ⟨[], (List.append_nil _).symm, fun s hs => absurd hs
        (List.not_mem_nil s)⟩
  | cons a t ih =>
      intro done st hls hdone
      rw [mergeTail]
      simp only [readFlag, flagAt, Bool.not_true, Bool.false_eq_true, if_false]
      have hP : AllUnsorted (snapMid arr left done
          { a with isSwapped := true }) :=
        allUnsorted_snapMid _ _ _ _ harr hdone
          (by
            have h0 := allUnsorted_head hls
            exact h0)
      obtain ⟨D, hD, hDc⟩ := ih
        (done ++ [{ { a with isSwapped := true } with isSwapped := false }])
        (publish (snapMid arr left done { a with isSwapped := true })
          ⟨st.reads + 1, st.trace⟩)
        (allUnsorted_of_cons hls)
        (allUnsorted_append hdone (fun e he => by
          rw [List.mem_singleton.mp he]
          have h0 := allUnsorted_head hls
          exact h0))
      refine ⟨[snapMid arr left done { a with isSwapped := true }] ++ D,
        ?_, ?_⟩
      · rw [hD]
        simp [publish]
      · intro s hs
        rcases List.mem_append.mp hs with hs1 | hs2
        · rw [List.mem_singleton.mp hs1]
          exact hP
        · exact hDc s hs2

theorem mergeE_cleanD2 (arr : List Elem) (left mid right : Nat)
    (st : SortSt) (h : AllUnsorted arr) :
    ∃ D, (∀ s ∈ D, AllUnsorted s) ∧
      (mergeE none arr left mid right st).2.trace =
        (if (left == 0 && right == arr.length - 1) = true then
          st.trace ++ D ++ [(mergeE none arr left mid right st).1]
        else st.trace ++ D) := by
  rw [mergeE]
  simp only [readFlag, flagAt, Bool.not_true, Bool.false_eq_true, if_false]
  obtain ⟨m1, m2, m3, m4⟩ := mergeMain_none arr left
    ((sliceE arr left (mid + 1)).length +
      (sliceE arr (mid + 1) (right + 1)).length)
    (sliceE arr left (mid + 1)) (sliceE arr (mid + 1) (right + 1)) []
    ⟨st.reads + 1, st.trace⟩
  rw [m4]
  simp only [Bool.false_eq_true, if_false]
  obtain ⟨t1a, t1b⟩ := mergeTail_none arr left _ _ _
  rw [t1b]
  simp only [Bool.false_eq_true, if_false]
  obtain ⟨t2a, t2b⟩ := mergeTail_none arr left _ _ _
  rw [t2b]
  simp only [Bool.false_eq_true, if_false]
  set M := mergeMain none arr left ((sliceE arr left (mid + 1)).length +
    (sliceE arr (mid + 1) (right + 1)).length) (sliceE arr left (mid + 1))
    (sliceE arr (mid + 1) (right + 1)) [] ⟨st.reads + 1, st.trace⟩ with hM
  set T1 := mergeTail none arr left M.2.1 M.1 M.2.2.2.1 with hT1
  set T2 := mergeTail none arr left M.2.2.1 T1.1 T1.2.1 with hT2
  have hsl1 := sliceE_unsorted arr left (mid + 1) h
  have hsl2 := sliceE_unsorted arr (mid + 1) (right + 1) h
  have hM1 : AllUnsorted M.1 := by
    rw [m1]
    intro e he
    rw [List.nil_append] at he
    exact mwork_fst_unsorted _ _ _ hsl1 hsl2 e he
  have hMl : AllUnsorted M.2.1 := by
    rw [m2]
    exact mwork_left_unsorted _ _ _ hsl1 hsl2
  have hMr : AllUnsorted M.2.2.1 := by
    rw [m3]
    exact mwork_right_unsorted _ _ _ hsl1 hsl2
  have hT1d : AllUnsorted T1.1 := by
    rw [t1a]
    exact allUnsorted_append hM1 (allUnsorted_map_clearSwp hMl)
  obtain ⟨Dm, hDm, hDmc⟩ := mergeMain_cleanD arr left h
    ((sliceE arr left (mid + 1)).length +
      (sliceE arr (mid + 1) (right + 1)).length)
    (sliceE arr left (mid + 1)) (sliceE arr (mid + 1) (right + 1)) []
    ⟨st.reads + 1, st.trace⟩ hsl1 hsl2
    (fun e he => absurd he (List.not_mem_nil e))
  rw [← hM] at hDm
  obtain ⟨Dt1, hDt1, hDt1c⟩ := mergeTail_cleanD arr left h M.2.1 M.1
    M.2.2.2.1 hMl hM1
  rw [← hT1] at hDt1
  obtain ⟨Dt2, hDt2, hDt2c⟩ := mergeTail_cleanD arr left h M.2.2.1 T1.1
    T1.2.1 hMr hT1d
  rw [← hT2] at hDt2
  refine ⟨Dm ++ Dt1 ++ Dt2, ?_, ?_⟩
  · intro s hs
    rcases List.mem_append.mp hs with hs1 | hs2
    · rcases List.mem_append.mp hs1 with hs3 | hs4
      · exact hDmc s hs3
      · exact hDt1c s hs4
    · exact hDt2c s hs2
  · by_cases hcond : (left == 0 && right == arr.length - 1) = true
    · rw [if_pos hcond, if_pos hcond]
      rw [show ∀ (A : List Elem) (w : SortSt), (publish A w).trace =
        w.trace ++ [A] from fun A w => rfl]
      rw [hDt2, hDt1, hDm]
      simp
    · rw [if_neg hcond, if_neg hcond]
      rw [hDt2, hDt1, hDm]
      simp

theorem mergeSortFuel_cleanD :
    ∀ (f : Nat) (arr : List Elem) (left right : Nat) (st : SortSt),
      right < arr.length → right + 1 - left ≤ f → AllUnsorted arr →
      (0 < left ∨ right + 1 < arr.length) →
      ∃ D, (mergeSortFuel none f arr left right st).2.trace =
        st.trace ++ D ∧ ∀ s ∈ D, AllUnsorted s := by
  intro f
  induction f with
  | zero =>
      intro arr left right st _ _ _ _
      exact ⟨[], (List.append_nil _).symm, fun s hs => absurd hs
        (List.not_mem_nil s)⟩
  | succ f ih =>
      intro arr left right st hr hf harr hside
      by_cases hlr : left < right
      · rw [mergeSortFuel]
        simp only [hlr, if_pos]
        obtain ⟨D1, hD1, hD1c⟩ := ih arr left ((left + right) / 2) st
          (by omega) (by omega) harr (Or.inr (by omega))
        have hu1 : AllUnsorted (mergeSortFuel none f arr left
            ((left + right) / 2) st).1 :=
          mergeSortFuel_no_mark f arr left ((left + right) / 2) st
            (by omega) (by omega) harr (Or.inr (by omega))
        have hlen1 : (mergeSortFuel none f arr left
            ((left + right) / 2) st).1.length = arr.length :=
          mergeSortFuel_len f arr left ((left + right) / 2) st
            (by omega) (by omega)
        obtain ⟨D2, hD2, hD2c⟩ := ih (mergeSortFuel none f arr left
            ((left + right) / 2) st).1 ((left + right) / 2 + 1) right
          (mergeSortFuel none f arr left ((left + right) / 2) st).2
          (by omega) (by omega) hu1 (Or.inl (by omega))
        have hu2 : AllUnsorted (mergeSortFuel none f
            (mergeSortFuel none f arr left ((left + right) / 2) st).1
            ((left + right) / 2 + 1) right
            (mergeSortFuel none f arr left ((left + right) / 2) st).2).1 :=
          mergeSortFuel_no_mark f _ _ right _ (by omega) (by omega) hu1
            (Or.inl (by omega))
        have hlen2 : (mergeSortFuel none f
            (mergeSortFuel none f arr left ((left + right) / 2) st).1
            ((left + right) / 2 + 1) right
            (mergeSortFuel none f arr left ((left + right) / 2) st).2).1.length
            = arr.length := by
          rw [mergeSortFuel_len f _ ((left + right) / 2 + 1) right _
            (by omega) (by omega), hlen1]
        obtain ⟨De, hDec, hDe⟩ := mergeE_cleanD2
          (mergeSortFuel none f
            (mergeSortFuel none f arr left ((left + right) / 2) st).1
            ((left + right) / 2 + 1) right
            (mergeSortFuel none f arr left ((left + right) / 2) st).2).1
          left ((left + right) / 2) right
          (mergeSortFuel none f
            (mergeSortFuel none f arr left ((left + right) / 2) st).1
            ((left + right) / 2 + 1) right
            (mergeSortFuel none f arr left ((left + right) / 2) st).2).2 hu2
        rw [if_neg (by
          rcases hside with hs | hs
          · rw [show (left == 0) = false from beq_eq_false_iff_ne.mpr
              (by omega)]
            simp
          · rw [show (right == (mergeSortFuel none f
                (mergeSortFuel none f arr left ((left + right) / 2) st).1
                ((left + right) / 2 + 1) right
                (mergeSortFuel none f arr left
                  ((left + right) / 2) st).2).1.length - 1) = false from
              beq_eq_false_iff_ne.mpr (by rw [hlen2]; omega)]
            simp)] at hDe
        refine ⟨D1 ++ D2 ++ De, ?_, ?_⟩
        · rw [hDe, hD2, hD1]
          simp
        · intro s hs
          rcases List.mem_append.mp hs with hs1 | hs2
          · rcases List.mem_append.mp hs1 with hs3 | hs4
            · exact hD1c s hs3
            · exact hD2c s hs4
          · exact hDec s hs2
      · rw [mergeSortFuel]
        simp only [hlr, if_neg, not_false_iff]
        exact ⟨[], (List.append_nil _).symm, fun s hs => absurd hs
          (List.not_mem_nil s)⟩

/-- Merge sort: the published trace of a clean-start run has monotone
sorted flags. -/
theorem mergeRun_pairwise (l : List Elem) (h : AllUnsorted l) :
    List.Pairwise srtLE (l :: (mergeRun l).2.trace) := by
  match l, h with
  | [], _ => exact List.pairwise_singleton _ _
  | [a], _ => exact List.pairwise_singleton _ _
  | a :: b :: t, h =>
      apply pairwise_srtLE_clean
      set l0 : List Elem := a :: b :: t with hl0
      have hn : l0.length = t.length + 2 := by simp [hl0]
      have heq : mergeRun l0 =
          mergeE none (mergeSortFuel none (t.length + 1)
            (mergeSortFuel none (t.length + 1) l0 0
              ((0 + (l0.length - 1)) / 2) st0).1
            ((0 + (l0.length - 1)) / 2 + 1) (l0.length - 1)
            (mergeSortFuel none (t.length + 1) l0 0
              ((0 + (l0.length - 1)) / 2) st0).2).1
            0 ((0 + (l0.length - 1)) / 2) (l0.length - 1)
            (mergeSortFuel none (t.length + 1)
              (mergeSortFuel none (t.length + 1) l0 0
                ((0 + (l0.length - 1)) / 2) st0).1
              ((0 + (l0.length - 1)) / 2 + 1) (l0.length - 1)
              (mergeSortFuel none (t.length + 1) l0 0
                ((0 + (l0.length - 1)) / 2) st0).2).2 := by
        rw [mergeRun, mergeSortE, hn]
        rw [show t.length + 2 = (t.length + 1) + 1 from rfl, mergeSortFuel]
        simp only [show t.length + 2 - 1 = t.length + 1 from rfl]
        rw [if_pos (by omega)]
      set mid := (0 + (l0.length - 1)) / 2 with hmid
      have hmlt : mid < l0.length - 1 := by omega
      obtain ⟨D1, hD1, hD1c⟩ := mergeSortFuel_cleanD (t.length + 1) l0 0 mid
        st0 (by omega) (by omega) h (Or.inr (by omega))
      have hu1 := mergeSortFuel_no_mark (t.length + 1) l0 0 mid st0
        (by omega) (by omega) h (Or.inr (by omega))
      have hlen1 : (mergeSortFuel none (t.length + 1) l0 0 mid st0).1.length =
          l0.length :=
        mergeSortFuel_len _ l0 0 mid st0 (by omega) (by omega)
      obtain ⟨D2, hD2, hD2c⟩ := mergeSortFuel_cleanD (t.length + 1)
        (mergeSortFuel none (t.length + 1) l0 0 mid st0).1 (mid + 1)
        (l0.length - 1) (mergeSortFuel none (t.length + 1) l0 0 mid st0).2
        (by rw [hlen1]; omega) (by omega) hu1 (Or.inl (by omega))
      have hu2 := mergeSortFuel_no_mark (t.length + 1)
        (mergeSortFuel none (t.length + 1) l0 0 mid st0).1 (mid + 1)
        (l0.length - 1) (mergeSortFuel none (t.length + 1) l0 0 mid st0).2
        (by rw [hlen1]; omega) (by omega) hu1 (Or.inl (by omega))
      have hlen2 : (mergeSortFuel none (t.length + 1)
          (mergeSortFuel none (t.length + 1) l0 0 mid st0).1 (mid + 1)
          (l0.length - 1)
          (mergeSortFuel none (t.length + 1) l0 0 mid st0).2).1.length =
          l0.length := by
        rw [mergeSortFuel_len _ _ (mid + 1) (l0.length - 1) _
          (by rw [hlen1]; omega) (by omega), hlen1]
      obtain ⟨De, hDec, hDe⟩ := mergeE_cleanD2
        (mergeSortFuel none (t.length + 1)
          (mergeSortFuel none (t.length + 1) l0 0 mid st0).1 (mid + 1)
          (l0.length - 1)
          (mergeSortFuel none (t.length + 1) l0 0 mid st0).2).1
        0 mid (l0.length - 1)
        (mergeSortFuel none (t.length + 1)
          (mergeSortFuel none (t.length + 1) l0 0 mid st0).1 (mid + 1)
          (l0.length - 1)
          (mergeSortFuel none (t.length + 1) l0 0 mid st0).2).2 hu2
      rw [if_pos (by rw [hlen2]; simp)] at hDe
      intro s hs
      rw [heq, hDe] at hs
      rcases mem_dropLast_cons _ _ _ hs with h1 | h1
      · rw [h1]
        exact h
      · rw [List.dropLast_concat] at h1
        rw [hD2, hD1] at h1
        simp only [st0, List.nil_append] at h1
        rcases List.mem_append.mp h1 with h2 | h2
        · rcases List.mem_append.mp h2 with h3 | h3
          · exact hD1c s h3
          · exact hD2c s h3
        · exact hDec s h2

theorem insInner_flag (key : Elem) :
    ∀ (f : Nat) (arr : List Elem) (jp : Nat) (st : SortSt),
      (insInner none key f arr jp st).2.2.2 = false := by
  intro f
  induction f with
  | zero => intro arr jp st; rfl
  | succ f ih =>
      intro arr jp st
      match jp with
      | 0 => rfl
      | jp' + 1 =>
          rw [insInner]
          by_cases hc : (getE arr jp').value > key.value
          · simp only [hc, if_pos]
            simp only [readFlag, flagAt, Bool.not_true, Bool.false_eq_true,
              if_false]
            exact ih ..
          · simp only [hc, if_neg, not_false_iff]

theorem insInner_cleanD (key : Elem) :
    ∀ (f : Nat) (arr : List Elem) (jp : Nat) (st : SortSt),
      AllUnsorted arr →
      AllUnsorted (insInner none key f arr jp st).1 ∧
      ∃ D, (insInner none key f arr jp st).2.2.1.trace = st.trace ++ D ∧
        ∀ s ∈ D, AllUnsorted s := by
  intro f
  induction f with
  | zero =>
      intro arr jp st h
      exact ⟨h, [], (List.append_nil _).symm, fun s hs => absurd hs
        (List.not_mem_nil s)⟩
  | succ f ih =>
      intro arr jp st h
      match jp with
      | 0 =>
          exact ⟨h, [], (List.append_nil _).symm, fun s hs => absurd hs
            (List.not_mem_nil s)⟩
      | jp' + 1 =>
          rw [insInner]
          by_cases hc : (getE arr jp').value > key.value
          · simp only [hc, if_pos]
            simp only [readFlag, flagAt, Bool.not_true, Bool.false_eq_true,
              if_false]
            set o : Elem := { getE arr jp' with isCompared := true, isSwapped := true } with ho
            set oc : Elem := { getE arr jp' with isCompared := false, isSwapped := false } with hoc
            have hsf : (getE arr jp').isSorted = false := getE_srt_false _ _ h
            have hos : o.isSorted = false := by rw [ho]; exact hsf
            have hocs : oc.isSorted = false := by rw [hoc]; exact hsf
            have hP : AllUnsorted ((arr.set jp' o).set (jp' + 1) o) :=
              allUnsorted_set _ _ _ (allUnsorted_set _ _ _ h hos) hos
            have hA2 : AllUnsorted ((arr.set jp' oc).set (jp' + 1) oc) :=
              allUnsorted_set _ _ _ (allUnsorted_set _ _ _ h hocs) hocs
            obtain ⟨hru, D, hD, hDc⟩ := ih ((arr.set jp' oc).set (jp' + 1) oc)
              jp' (publish ((arr.set jp' o).set (jp' + 1) o)
                ⟨st.reads + 1, st.trace⟩) hA2
            refine ⟨hru, [(arr.set jp' o).set (jp' + 1) o] ++ D, ?_, ?_⟩
            · rw [hD]
              simp [publish]
            · intro s hs
              rcases List.mem_append.mp hs with hs1 | hs2
              · rw [List.mem_singleton.mp hs1]
                exact hP
              · exact hDc s hs2
          · simp only [hc, if_neg, not_false_iff]
            exact ⟨h, [], (List.append_nil _).symm, fun s hs => absurd hs
              (List.not_mem_nil s)⟩

theorem insOuter_flag :
    ∀ (p i : Nat) (arr : List Elem) (st : SortSt),
      (insOuter none p i arr st).2.2 = false := by
  intro p
  induction p with
  | zero => intro i arr st; rfl
  | succ p ih =>
      intro i arr st
      simp only [insOuter]
      simp only [readFlag, flagAt, Bool.not_true, Bool.false_eq_true, if_false]
      rw [insInner_flag]
      simp only [Bool.false_eq_true, if_false]
      exact ih ..

theorem insOuter_cleanD :
    ∀ (p i : Nat) (arr : List Elem) (st : SortSt),
      AllUnsorted arr →
      ∃ D, (insOuter none p i arr st).2.1.trace = st.trace ++ D ∧
        ∀ s ∈ D, AllUnsorted s := by
  intro p
  induction p with
  | zero =>
      intro i arr st _
      exact ⟨[], (List.append_nil _).symm, fun s hs => absurd hs
        (List.not_mem_nil s)⟩
  | succ p ih =>
      intro i arr st h
      simp only [insOuter]
      simp only [readFlag, flagAt, Bool.not_true, Bool.false_eq_true, if_false]
      rw [insInner_flag]
      simp only [Bool.false_eq_true, if_false]
      have hsf : (getE arr i).isSorted = false := getE_srt_false _ _ h
      have hpt : ∀ (A : List Elem) (w : SortSt), (publish A w).trace =
          w.trace ++ [A] := fun A w => rfl
      set key : Elem := { getE arr i with isCompared := true } with hkey
      have hks : key.isSorted = false := by rw [hkey]; exact hsf
      have hA1 : AllUnsorted (arr.set i key) := allUnsorted_set _ _ _ h hks
      obtain ⟨hqu, Di, hDi, hDic⟩ := insInner_cleanD key i (arr.set i key) i
        (publish (arr.set i key) ⟨st.reads + 1, st.trace⟩) hA1
      set q := insInner none key i (arr.set i key) i
        (publish (arr.set i key) ⟨st.reads + 1, st.trace⟩) with hq
      set kc : Elem := { key with isCompared := false } with hkc
      have hkcs : kc.isSorted = false := by rw [hkc, hkey]; exact hsf
      have hA2 : AllUnsorted (q.1.set q.2.1 kc) := allUnsorted_set _ _ _ hqu hkcs
      obtain ⟨Dr, hDr, hDrc⟩ := ih (i + 1) (q.1.set q.2.1 kc)
        (publish (q.1.set q.2.1 kc) q.2.2.1) hA2
      refine ⟨[arr.set i key] ++ Di ++ [q.1.set q.2.1 kc] ++ Dr, ?_, ?_⟩
      · rw [hDr, hpt, hDi, hpt]
        simp
      · intro s hs
        rcases List.mem_append.mp hs with hs1 | hs2
        · rcases List.mem_append.mp hs1 with hs3 | hs4
          · rcases List.mem_append.mp hs3 with hs5 | hs6
            · rw [List.mem_singleton.mp hs5]
              exact hA1
            · exact hDic s hs6
          · rw [List.mem_singleton.mp hs4]
            exact hA2
        · exact hDrc s hs2

/-- Insertion sort: every published snapshot of a clean-start run except
the final marked one has all sorted flags false. -/
theorem insRun_pairwise (l : List Elem) (h : AllUnsorted l) :
    List.Pairwise srtLE (l :: (insRun l).2.trace) := by
  apply pairwise_srtLE_clean
  obtain ⟨D, hD, hDc⟩ := insOuter_cleanD (l.length - 1) 1 l st0 h
  have hpt : ∀ (A : List Elem) (w : SortSt), (publish A w).trace =
      w.trace ++ [A] := fun A w => rfl
  have htr : (insRun l).2.trace = D ++
      [(insOuter none (l.length - 1) 1 l st0).1.map
        (fun e => { e with isSorted := true })] := by
    simp only [insRun, insSortE]
    rw [insOuter_flag]
    simp only [Bool.false_eq_true, if_false]
    rw [hpt, hD]
    simp [st0]
  intro s hs
  rw [htr] at hs
  rcases mem_dropLast_cons _ _ _ hs with h1 | h1
  · rw [h1]
    exact h
  · rw [List.dropLast_concat] at h1
    exact hDc s h1

theorem chain_const_cons (σ : List Bool) (y : List Elem)
    (M : List (List Elem))
    (hy : ∀ x : List Elem, smap x = σ → srtLE x y)
    (hM : List.Chain' srtLE (y :: M)) :
    ∀ L : List (List Elem), (∀ s ∈ L, smap s = σ) →
      List.Chain' srtLE (L ++ y :: M) := by
  intro L
  induction L with
  | nil => intro _; exact hM
  | cons a L ih =>
      intro hL
      have ha : smap a = σ := hL a (List.mem_cons_self a L)
      have hrest := ih (fun s hs => hL s (List.mem_cons_of_mem a hs))
      rw [List.cons_append, List.chain'_cons']
      refine ⟨?_, hrest⟩
      intro b hb
      cases L with
      | nil =>
          simp only [List.nil_append, List.head?_cons, Option.mem_def,
            Option.some.injEq] at hb
          rw [← hb]
          exact hy a ha
      | cons c L2 =>
          simp only [List.cons_append, List.head?_cons, Option.mem_def,
            Option.some.injEq] at hb
          rw [← hb]
          exact srtLE_of_smap_eq (ha.trans (hL c (List.mem_cons_of_mem a
            (List.mem_cons_self c L2))).symm)

theorem selInner_smap :
    ∀ (m : Nat) (arr : List Elem) (j minIdx : Nat) (st : SortSt),
      smap (selInner none m arr j minIdx st).1 = smap arr ∧
      ∃ D, (selInner none m arr j minIdx st).2.2.1.trace = st.trace ++ D ∧
        ∀ s ∈ D, smap s = smap arr := by
  intro m
  induction m with
  | zero =>
      intro arr j minIdx st
      exact ⟨rfl, [], (List.append_nil _).symm, fun s hs => absurd hs
        (List.not_mem_nil s)⟩
  | succ m ih =>
      intro arr j minIdx st
      rw [selInner]
      simp only [readFlag, flagAt, Bool.not_true, Bool.false_eq_true, if_false]
      by_cases hc : (getE (setCmp arr j true) j).value <
          (getE (setCmp arr j true) minIdx).value
      · simp only [hc, if_pos]
        obtain ⟨h1, D, hD, hDc⟩ := ih
          (setCmp (setCmp (setCmp arr j true) minIdx false) j true) (j + 1) j
          (publish (setCmp (setCmp (setCmp arr j true) minIdx false) j true)
            (publish (setCmp arr j true) ⟨st.reads + 1, st.trace⟩))
        have hs2 : smap (setCmp (setCmp (setCmp arr j true) minIdx false)
            j true) = smap arr := by
          rw [smap_setCmp, smap_setCmp, smap_setCmp]
        refine ⟨by rw [h1, hs2], [setCmp arr j true,
          setCmp (setCmp (setCmp arr j true) minIdx false) j true] ++ D,
          ?_, ?_⟩
        · rw [hD]
          simp [publish]
        · intro s hs
          rcases List.mem_append.mp hs with hs1 | hs1
          · rcases List.mem_cons.mp hs1 with h2 | h2
            · rw [h2, smap_setCmp]
            · rw [List.mem_singleton.mp h2]
              exact hs2
          · exact (hDc s hs1).trans hs2
      · simp only [hc, if_neg, not_false_iff]
        obtain ⟨h1, D, hD, hDc⟩ := ih
          (setCmp (setCmp arr j true) j false) (j + 1) minIdx
          (publish (setCmp (setCmp arr j true) j false)
            (publish (setCmp arr j true) ⟨st.reads + 1, st.trace⟩))
        have hs2 : smap (setCmp (setCmp arr j true) j false) = smap arr := by
          rw [smap_setCmp, smap_setCmp]
        refine ⟨by rw [h1, hs2], [setCmp arr j true,
          setCmp (setCmp arr j true) j false] ++ D, ?_, ?_⟩
        · rw [hD]
          simp [publish]
        · intro s hs
          rcases List.mem_append.mp hs with hs1 | hs1
          · rcases List.mem_cons.mp hs1 with h2 | h2
            · rw [h2, smap_setCmp]
            · rw [List.mem_singleton.mp h2]
              exact hs2
          · exact (hDc s hs1).trans hs2

theorem selOuter_chain :
    ∀ (p i : Nat) (arr : List Elem) (st : SortSt),
      (∀ k, i ≤ k → (getE arr k).isSorted = false) →
      (selOuter none p i arr st).2.2 = false ∧
      ∃ D, (selOuter none p i arr st).2.1.trace = st.trace ++ D ∧
        List.Chain' srtLE ((arr :: D) ++ [(selOuter none p i arr st).1]) := by
  intro p
  induction p with
  | zero =>
      intro i arr st _
      exact ⟨rfl, [], (List.append_nil _).symm,
        List.chain'_pair.mpr (srtLE_refl arr)⟩
  | succ p ih =>
      intro i arr st h
      have hpt : ∀ (A : List Elem) (w : SortSt), (publish A w).trace =
          w.trace ++ [A] := fun A w => rfl
      simp only [selOuter]
      obtain ⟨g1, g2, g3, g4, g5⟩ := selInner_spec (arr.length - (i + 1))
        (setCmp arr i true) (i + 1) i st
      rw [g1]
      simp only [Bool.false_eq_true, if_false]
      obtain ⟨hsm, Di, hDi, hDic⟩ := selInner_smap (arr.length - (i + 1))
        (setCmp arr i true) (i + 1) i st
      set r := selInner none (arr.length - (i + 1)) (setCmp arr i true)
        (i + 1) i st with hr
      have hsm1 : smap r.1 = smap arr := hsm.trans (smap_setCmp arr i true)
      have hDic1 : ∀ s ∈ Di, smap s = smap arr := fun s hs =>
        (hDic s hs).trans (smap_setCmp arr i true)
      have hM1 : i ≤ r.2.1 := by rcases g3 with h3 | h3 <;> omega
      have hur : ∀ k, i ≤ k → (getE r.1 k).isSorted = false := by
        intro k hk
        rw [smap_getD, hsm1, ← smap_getD]
        exact h k hk
      by_cases hMi : (r.2.1 == i) = true
      · rw [if_pos hMi]
        have hz : smap (setSwp (setCmp r.1 i false) i false) = smap arr := by
          rw [smap_setSwp, smap_setCmp]
          exact hsm1
        have hu3 : ∀ k, i + 1 ≤ k →
            (getE (setSrt (setSwp (setCmp r.1 i false) i false) i) k).isSorted
              = false := by
          intro k hk
          rw [setSrt, getE_set_ne _ _ _ _ (by omega : i ≠ k)]
          rw [smap_getD, hz, ← smap_getD]
          exact h k (by omega)
        obtain ⟨g6, Dr, hDr, hCh⟩ := ih (i + 1)
          (setSrt (setSwp (setCmp r.1 i false) i false) i)
          (publish (setSrt (setSwp (setCmp r.1 i false) i false) i) r.2.2.1)
          hu3
        refine ⟨g6, Di ++ [setSrt (setSwp (setCmp r.1 i false) i false) i]
          ++ Dr, ?_, ?_⟩
        · show (selOuter none p (i + 1)
            (setSrt (setSwp (setCmp r.1 i false) i false) i)
            (publish (setSrt (setSwp (setCmp r.1 i false) i false) i)
              r.2.2.1)).2.1.trace = st.trace ++
            (Di ++ [setSrt (setSwp (setCmp r.1 i false) i false) i] ++ Dr)
          rw [hDr, hpt, hDi]
          simp
        · show List.Chain' srtLE ((arr :: (Di ++
            [setSrt (setSwp (setCmp r.1 i false) i false) i] ++ Dr)) ++
            [(selOuter none p (i + 1)
              (setSrt (setSwp (setCmp r.1 i false) i false) i)
              (publish (setSrt (setSwp (setCmp r.1 i false) i false) i)
                r.2.2.1)).1])
          have hsp : (arr :: (Di ++
              [setSrt (setSwp (setCmp r.1 i false) i false) i] ++ Dr)) ++
              [(selOuter none p (i + 1)
                (setSrt (setSwp (setCmp r.1 i false) i false) i)
                (publish (setSrt (setSwp (setCmp r.1 i false) i false) i)
                  r.2.2.1)).1] =
              (arr :: Di) ++
              ((setSrt (setSwp (setCmp r.1 i false) i false) i) ::
                (Dr ++ [(selOuter none p (i + 1)
                  (setSrt (setSwp (setCmp r.1 i false) i false) i)
                  (publish (setSrt (setSwp (setCmp r.1 i false) i false) i)
                    r.2.2.1)).1])) := by simp
          rw [hsp]
          apply chain_const_cons (smap arr)
          · intro x hx
            refine srtLE_trans (srtLE_of_smap_eq (hx.trans hz.symm)) ?_
            exact srtLE_setSrt _ _
          · rw [List.cons_append] at hCh
            exact hCh
          · intro s hs
            rcases List.mem_cons.mp hs with h1 | h1
            · rw [h1]
            · exact hDic1 s h1
      · rw [if_neg hMi]
        have hMne : r.2.1 ≠ i := by simpa using hMi
        set A2 := setSwp (setSwp (swapE r.1 i r.2.1) i true) r.2.1 true
          with hA2
        set Q1 := setSwp A2 r.2.1 false with hQ1
        set Z3 := setSwp (setCmp Q1 i false) i false with hZ3
        set A3 := setSrt Z3 i with hA3
        have hui : (getE r.1 i).isSorted = false := hur i (le_refl i)
        have hum : (getE r.1 r.2.1).isSorted = false := hur r.2.1 hM1
        have e1 : smap (r.1.set i (getE r.1 r.2.1)) = smap r.1 :=
          smap_set_pres _ _ _ (by rw [hum, hui])
        have e2 : smap ((r.1.set i (getE r.1 r.2.1)).set r.2.1
            (getE r.1 i)) = smap (r.1.set i (getE r.1 r.2.1)) :=
          smap_set_pres _ _ _ (by
            rw [getE_set_ne _ _ _ _ (Ne.symm hMne), hui, hum])
        have hswE : smap (swapE r.1 i r.2.1) = smap r.1 := by
          rw [swapE, e2]
          exact e1
        have hsma2 : smap A2 = smap arr := by
          rw [hA2, smap_setSwp, smap_setSwp, hswE]
          exact hsm1
        have hz : smap Z3 = smap arr := by
          rw [hZ3, smap_setSwp, smap_setCmp, hQ1, smap_setSwp]
          exact hsma2
        have hza : srtLE Z3 A3 := by
          rw [hA3]
          exact srtLE_setSrt _ _
        have hu3 : ∀ k, i + 1 ≤ k → (getE A3 k).isSorted = false := by
          intro k hk
          rw [hA3, setSrt, getE_set_ne _ _ _ _ (by omega : i ≠ k)]
          rw [smap_getD, hz, ← smap_getD]
          exact h k (by omega)
        obtain ⟨g6, Dr, hDr, hCh⟩ := ih (i + 1) A3
          (publish A3 (publish A2 r.2.2.1)) hu3
        refine ⟨g6, Di ++ [A2] ++ [A3] ++ Dr, ?_, ?_⟩
        · show (selOuter none p (i + 1) A3
            (publish A3 (publish A2 r.2.2.1))).2.1.trace =
            st.trace ++ (Di ++ [A2] ++ [A3] ++ Dr)
          rw [hDr, hpt, hpt, hDi]
          simp
        · show List.Chain' srtLE ((arr :: (Di ++ [A2] ++ [A3] ++ Dr)) ++
            [(selOuter none p (i + 1) A3
              (publish A3 (publish A2 r.2.2.1))).1])
          have hsp : (arr :: (Di ++ [A2] ++ [A3] ++ Dr)) ++
              [(selOuter none p (i + 1) A3
                (publish A3 (publish A2 r.2.2.1))).1] =
              ((arr :: Di) ++ [A2]) ++ (A3 :: (Dr ++
                [(selOuter none p (i + 1) A3
                  (publish A3 (publish A2 r.2.2.1))).1])) := by simp
          rw [hsp]
          apply chain_const_cons (smap arr)
          · intro x hx
            exact srtLE_trans (srtLE_of_smap_eq (hx.trans hz.symm)) hza
          · rw [List.cons_append] at hCh
            exact hCh
          · intro s hs
            rcases List.mem_append.mp hs with h1 | h1
            · rcases List.mem_cons.mp h1 with h2 | h2
              · rw [h2]
              · exact hDic1 s h2
            · rw [List.mem_singleton.mp h1]
              exact hsma2

/-- Selection sort: the chain of published snapshots of a clean-start run
only ever gains sorted flags. -/
theorem selRun_pairwise (l : List Elem) (h : AllUnsorted l) :
    List.Pairwise srtLE (l :: (selRun l).2.trace) := by
  have hpt : ∀ (A : List Elem) (w : SortSt), (publish A w).trace =
      w.trace ++ [A] := fun A w => rfl
  have hu : ∀ k, 0 ≤ k → (getE l k).isSorted = false := fun k _ =>
    getE_srt_false l k h
  obtain ⟨hf, D, hD, hCh⟩ := selOuter_chain (l.length - 1) 0 l st0 hu
  apply pairwise_srtLE_of_chain
  have htr : (selRun l).2.trace = D ++
      [setSrt (selOuter none (l.length - 1) 0 l st0).1 (l.length - 1)] := by
    simp only [selRun, selSortE]
    rw [hf]
    simp only [Bool.false_eq_true, if_false]
    rw [hpt, hD]
    simp [st0]
  rw [htr]
  have h2 := chain_concat_mono (l :: D)
    (selOuter none (l.length - 1) 0 l st0).1
    (setSrt (selOuter none (l.length - 1) 0 l st0).1 (l.length - 1))
    hCh (srtLE_setSrt _ _)
  rw [List.cons_append] at h2
  exact h2

theorem allUnsorted_take_iff :
    ∀ (l : List Elem) (j : Nat),
      AllUnsorted (l.take j) ↔ ∀ k, k < j → (getE l k).isSorted = false := by
  intro l
  induction l with
  | nil =>
      intro j
      constructor
      · intro _ k _
        simp [getE, dElem]
      · intro _ e he
        simp at he
  | cons a t ih =>
      intro j
      cases j with
      | zero =>
          constructor
          · intro _ k hk
            exact absurd hk (by omega)
          · intro _ e he
            simp at he
      | succ j =>
          rw [List.take_succ_cons]
          constructor
          · intro h k hk
            cases k with
            | zero => exact h a (List.mem_cons_self a _)
            | succ k =>
                exact (ih j).mp
                  (fun e he => h e (List.mem_cons_of_mem a he)) k (by omega)
          · intro h e he
            rcases List.mem_cons.mp he with h1 | h1
            · rw [h1]
              exact h 0 (by omega)
            · exact (ih j).mpr (fun k hk => h (k + 1) (by omega)) e h1

theorem bubbleInner_smap :
    ∀ (m : Nat) (pre cur : List Elem) (st : SortSt),
      AllUnsorted (cur.take (m + 1)) →
      (bubbleInner none m pre cur st).2.2 = false ∧
      smap (bubbleInner none m pre cur st).1 = smap (pre.reverse ++ cur) ∧
      ∃ D, (bubbleInner none m pre cur st).2.1.trace = st.trace ++ D ∧
        ∀ s ∈ D, smap s = smap (pre.reverse ++ cur) := by
  intro m
  induction m with
  | zero =>
      intro pre cur st _
      exact ⟨rfl, rfl, [], (List.append_nil _).symm, fun s hs => absurd hs
        (List.not_mem_nil s)⟩
  | succ m ih =>
      intro pre cur st
      match cur with
      | [] =>
          intro _
          exact ⟨rfl, rfl, [], (List.append_nil _).symm, fun s hs =>
            absurd hs (List.not_mem_nil s)⟩
      | [a] =>
          intro _
          exact ⟨rfl, rfl, [], (List.append_nil _).symm, fun s hs =>
            absurd hs (List.not_mem_nil s)⟩
      | a :: b :: t =>
          intro h
          rw [List.take_succ_cons, List.take_succ_cons] at h
          have ha : a.isSorted = false := h a (List.mem_cons_self a _)
          have hb : b.isSorted = false := h b (List.mem_cons_of_mem a
            (List.mem_cons_self b _))
          have ht : ∀ e ∈ t.take m, e.isSorted = false := fun e he =>
            h e (List.mem_cons_of_mem a (List.mem_cons_of_mem b he))
          rw [bubbleInner]
          simp only [readFlag, flagAt, Bool.not_true, if_false]
          by_cases hab : a.value > b.value
          · simp only [hab, if_pos]
            have hrec : AllUnsorted ((clearTrans
                { { a with isCompared := true } with isSwapped := true } ::
                t).take (m + 1)) := by
              rw [List.take_succ_cons]
              intro e he
              rcases List.mem_cons.mp he with h1 | h1
              · rw [h1]
                exact ha
              · exact ht e h1
            obtain ⟨f1, f2, D, hD, hDc⟩ := ih
              (clearTrans { { b with isCompared := true } with
                isSwapped := true } :: pre)
              (clearTrans { { a with isCompared := true } with
                isSwapped := true } :: t)
              (publish (pre.reverse ++
                { { b with isCompared := true } with isSwapped := true } ::
                { { a with isCompared := true } with isSwapped := true } :: t)
                (publish (pre.reverse ++ { a with isCompared := true } ::
                  { b with isCompared := true } :: t)
                  ⟨st.reads + 1, st.trace⟩)) hrec
            have hRel : smap ((clearTrans { { b with isCompared := true } with
                isSwapped := true } :: pre).reverse ++
                clearTrans { { a with isCompared := true } with
                  isSwapped := true } :: t) =
                smap (pre.reverse ++ a :: b :: t) := by
              simp [smap, clearTrans, ha, hb]
            have hP1 : smap (pre.reverse ++ { a with isCompared := true } ::
                { b with isCompared := true } :: t) =
                smap (pre.reverse ++ a :: b :: t) := by
              simp [smap]
            have hP2 : smap (pre.reverse ++
                { { b with isCompared := true } with isSwapped := true } ::
                { { a with isCompared := true } with isSwapped := true } :: t)
                = smap (pre.reverse ++ a :: b :: t) := by
              simp [smap, ha, hb]
            refine ⟨f1, f2.trans hRel, [pre.reverse ++
              { a with isCompared := true } ::
              { b with isCompared := true } :: t, pre.reverse ++
              { { b with isCompared := true } with isSwapped := true } ::
              { { a with isCompared := true } with isSwapped := true } :: t]
              ++ D, ?_, ?_⟩
            · have htr : (bubbleInner none m
                  (clearTrans { { b with isCompared := true } with
                    isSwapped := true } :: pre)
                  (clearTrans { { a with isCompared := true } with
                    isSwapped := true } :: t)
                  (publish (pre.reverse ++
                    { { b with isCompared := true } with isSwapped := true } ::
                    { { a with isCompared := true } with isSwapped := true }
                    :: t)
                    (publish (pre.reverse ++ { a with isCompared := true } ::
                      { b with isCompared := true } :: t)
                      ⟨st.reads + 1, st.trace⟩))).2.1.trace =
                  st.trace ++ ([pre.reverse ++
                    { a with isCompared := true } ::
                    { b with isCompared := true } :: t, pre.reverse ++
                    { { b with isCompared := true } with isSwapped := true } ::
                    { { a with isCompared := true } with isSwapped := true }
                    :: t] ++ D) := by
                rw [hD]
                simp [publish]
              exact htr
            · intro s hs
              rcases List.mem_append.mp hs with hs1 | hs1
              · rcases List.mem_cons.mp hs1 with h2 | h2
                · rw [h2]
                  exact hP1
                · rw [List.mem_singleton.mp h2]
                  exact hP2
              · exact (hDc s hs1).trans hRel
          · simp only [hab, if_neg, not_false_iff]
            have hrec : AllUnsorted ((clearTrans
                { b with isCompared := true } :: t).take (m + 1)) := by
              rw [List.take_succ_cons]
              intro e he
              rcases List.mem_cons.mp he with h1 | h1
              · rw [h1]
                exact hb
              · exact ht e h1
            obtain ⟨f1, f2, D, hD, hDc⟩ := ih
              (clearTrans { a with isCompared := true } :: pre)
              (clearTrans { b with isCompared := true } :: t)
              (publish (pre.reverse ++ { a with isCompared := true } ::
                { b with isCompared := true } :: t)
                ⟨st.reads + 1, st.trace⟩) hrec
            have hRel : smap ((clearTrans { a with isCompared := true } ::
                pre).reverse ++ clearTrans { b with isCompared := true } :: t)
                = smap (pre.reverse ++ a :: b :: t) := by
              simp [smap, clearTrans]
            have hP1 : smap (pre.reverse ++ { a with isCompared := true } ::
                { b with isCompared := true } :: t) =
                smap (pre.reverse ++ a :: b :: t) := by
              simp [smap]
            refine ⟨f1, f2.trans hRel, [pre.reverse ++
              { a with isCompared := true } ::
              { b with isCompared := true } :: t] ++ D, ?_, ?_⟩
            · have htr : (bubbleInner none m
                  (clearTrans { a with isCompared := true } :: pre)
                  (clearTrans { b with isCompared := true } :: t)
                  (publish (pre.reverse ++ { a with isCompared := true } ::
                    { b with isCompared := true } :: t)
                    ⟨st.reads + 1, st.trace⟩)).2.1.trace =
                  st.trace ++ ([pre.reverse ++
                    { a with isCompared := true } ::
                    { b with isCompared := true } :: t] ++ D) := by
                rw [hD]
                simp [publish]
              exact htr
            · intro s hs
              rcases List.mem_append.mp hs with hs1 | hs1
              · rw [List.mem_singleton.mp hs1]
                exact hP1
              · exact (hDc s hs1).trans hRel

theorem bubbleOuter_chain :
    ∀ (m : Nat) (arr : List Elem) (st : SortSt),
      AllUnsorted (arr.take (m + 1)) →
      (bubbleOuter none m arr st).2.2 = false ∧
      ∃ D, (bubbleOuter none m arr st).2.1.trace = st.trace ++ D ∧
        List.Chain' srtLE ((arr :: D) ++ [(bubbleOuter none m arr st).1]) := by
  intro m
  induction m with
  | zero =>
      intro arr st _
      exact ⟨rfl, [], (List.append_nil _).symm,
        List.chain'_pair.mpr (srtLE_refl arr)⟩
  | succ m ih =>
      intro arr st h
      have hpt : ∀ (A : List Elem) (w : SortSt), (publish A w).trace =
          w.trace ++ [A] := fun A w => rfl
      simp only [bubbleOuter]
      obtain ⟨bf, bsm, Di, hDi, hDic⟩ := bubbleInner_smap (m + 1) [] arr st h
      rw [bf]
      simp only [Bool.false_eq_true, if_false]
      set r := bubbleInner none (m + 1) [] arr st with hr
      have hsm1 : smap r.1 = smap arr := by simpa using bsm
      have hDic1 : ∀ s ∈ Di, smap s = smap arr := by
        intro s hs
        have h0 := hDic s hs
        simpa using h0
      have hu3 : AllUnsorted ((setSrt r.1 (m + 1)).take (m + 1)) := by
        rw [allUnsorted_take_iff]
        intro k hk
        rw [setSrt, getE_set_ne _ _ _ _ (by omega : m + 1 ≠ k)]
        rw [smap_getD, hsm1, ← smap_getD]
        exact (allUnsorted_take_iff arr (m + 2)).mp h k (by omega)
      obtain ⟨g6, Dr, hDr, hCh⟩ := ih (setSrt r.1 (m + 1))
        (publish (setSrt r.1 (m + 1)) r.2.1) hu3
      refine ⟨g6, Di ++ [setSrt r.1 (m + 1)] ++ Dr, ?_, ?_⟩
      · show (bubbleOuter none m (setSrt r.1 (m + 1))
          (publish (setSrt r.1 (m + 1)) r.2.1)).2.1.trace =
          st.trace ++ (Di ++ [setSrt r.1 (m + 1)] ++ Dr)
        rw [hDr, hpt, hDi]
        simp
      · show List.Chain' srtLE ((arr :: (Di ++ [setSrt r.1 (m + 1)] ++ Dr))
          ++ [(bubbleOuter none m (setSrt r.1 (m + 1))
            (publish (setSrt r.1 (m + 1)) r.2.1)).1])
        have hsp : (arr :: (Di ++ [setSrt r.1 (m + 1)] ++ Dr)) ++
            [(bubbleOuter none m (setSrt r.1 (m + 1))
              (publish (setSrt r.1 (m + 1)) r.2.1)).1] =
            (arr :: Di) ++ ((setSrt r.1 (m + 1)) :: (Dr ++
              [(bubbleOuter none m (setSrt r.1 (m + 1))
                (publish (setSrt r.1 (m + 1)) r.2.1)).1])) := by simp
        rw [hsp]
        apply chain_const_cons (smap arr)
        · intro x hx
          exact srtLE_trans (srtLE_of_smap_eq (hx.trans hsm1.symm))
            (srtLE_setSrt _ _)
        · rw [List.cons_append] at hCh
          exact hCh
        · intro s hs
          rcases List.mem_cons.mp hs with h1 | h1
          · rw [h1]
          · exact hDic1 s h1

/-- Bubble sort: the chain of published snapshots of a clean-start run
only ever gains sorted flags. -/
theorem bubbleRun_pairwise (l : List Elem) (h : AllUnsorted l) :
    List.Pairwise srtLE (l :: (bubbleRun l).2.trace) := by
  have hpt : ∀ (A : List Elem) (w : SortSt), (publish A w).trace =
      w.trace ++ [A] := fun A w => rfl
  have hu : AllUnsorted (l.take (l.length - 1 + 1)) := fun e he =>
    h e (List.mem_of_mem_take he)
  obtain ⟨hf, D, hD, hCh⟩ := bubbleOuter_chain (l.length - 1) l st0 hu
  apply pairwise_srtLE_of_chain
  have htr : (bubbleRun l).2.trace = D ++
      [setSrt (bubbleOuter none (l.length - 1) l st0).1 0] := by
    simp only [bubbleRun, bubbleSortE]
    rw [hf]
    simp only [Bool.false_eq_true, if_false]
    rw [hpt, hD]
    simp [st0]
  rw [htr]
  have h2 := chain_concat_mono (l :: D)
    (bubbleOuter none (l.length - 1) l st0).1
    (setSrt (bubbleOuter none (l.length - 1) l st0).1 0)
    hCh (srtLE_setSrt _ _)
  rw [List.cons_append] at h2
  exact h2

/-- C9: for every sorting variant and every clean-start input array (all
sorted flags false, as generateRandomArray and useCustomArray create
them), the run's snapshot sequence — the input followed by every
published step — is monotone in the sorted flags: once a position is
marked sorted in some snapshot, it is still marked in every later
snapshot of the same run. -/
theorem c9 (l : List Elem) (h : AllUnsorted l) :
    List.Pairwise srtLE (l :: (bubbleRun l).2.trace) ∧
    List.Pairwise srtLE (l :: (selRun l).2.trace) ∧
    List.Pairwise srtLE (l :: (insRun l).2.trace) ∧
    List.Pairwise srtLE (l :: (mergeRun l).2.trace) ∧
    List.Pairwise srtLE (l :: (quickRun l).2.trace) :=
  ⟨bubbleRun_pairwise l h, selRun_pairwise l h, insRun_pairwise l h,
    mergeRun_pairwise l h, quickRun_pairwise l h⟩

/-- Witness for C9 at the concrete two-element array [2, 1]. -/
theorem c9_witness :
    AllUnsorted c9Arr ∧
    (List.Pairwise srtLE (c9Arr :: (bubbleRun c9Arr).2.trace) ∧
     List.Pairwise srtLE (c9Arr :: (selRun c9Arr).2.trace) ∧
     List.Pairwise srtLE (c9Arr :: (insRun c9Arr).2.trace) ∧
     List.Pairwise srtLE (c9Arr :: (mergeRun c9Arr).2.trace) ∧
     List.Pairwise srtLE (c9Arr :: (quickRun c9Arr).2.trace)) :=
  ⟨by unfold AllUnsorted; decide, c9 c9Arr (by unfold AllUnsorted; decide)⟩

end VB
